import Mathlib

/-! # Pitch detection kernel (`public/wasm/pitch-detector.c`)

A shallow embedding of the three kernels of the source file
(`detect_pitch_yin`, `detect_pitch_autocorr`, `calculate_rms`) and the
properties of its specification.

Conventions of the embedding:

* `float` arithmetic is taken exactly: samples live in an arbitrary linearly
  ordered field `K` (so the theorems hold for real samples, and the
  definitions run on rational ones).
* C `int` values are `Int`; loop counters, which start at a non-negative
  constant and are only incremented, are `Nat`.
* Every memory access is checked.  The sample window is a list, the local
  arrays `diff`, `cumulative`, `correlations` are partial maps of capacity
  `MAX_LAG` whose unwritten cells are indeterminate.  A run has a result
  `.ok r` only if every read and write was in bounds and every cell read had
  been written before; otherwise the run is a `Fault`.
* A quotient that enters further arithmetic is checked (`fdiv`): with a zero
  divisor it is not a finite number and the exact computation cannot go on.
  The two quotients that are only stored in `pitch_hz` (lines 88 and 140) are
  plain field divisions, as in the source; the statements about `pitch_hz`
  below say when their divisor is positive.
* The two estimators are given a second time in rounded arithmetic
  (`detect_pitch_yin_rounded`, `detect_pitch_autocorr_rounded`): the same code
  with the result of every `float` operation passed through a rounding
  function, for which `round32` is IEEE 754 binary32 rounding to nearest.
  The properties that rounding decides (an underflow to `0.0f`, a tie in
  the last place) are stated on these.
-/

set_option linter.unusedSectionVars false
set_option linter.unusedVariables false

namespace PitchDetector

/-! ## Constants and the result type -/

/-- Source line 4: `#define SAMPLE_RATE 48000`. -/
def SAMPLE_RATE : Nat := 48000

/-- Source line 5: `#define BUFFER_SIZE 2048` (unused by the kernels). -/
def BUFFER_SIZE : Nat := 2048

/-- Source line 6: `#define MAX_LAG 2048`. -/
def MAX_LAG : Nat := 2048

/-- The lag floor `SAMPLE_RATE / 1000` of source lines 49 and 122 (integer division). -/
def MIN_LAG : Nat := SAMPLE_RATE / 1000

/-- Ways in which a run of the C code has no defined (exact) result. -/
inductive Fault where
  /-- an index outside the array or outside the sample window -/
  | outOfBounds
  /-- a read of a local array cell that was never written -/
  | uninitialised
  /-- a checked division whose divisor is exactly zero -/
  | divByZero
  /-- the iteration budget of the model ran out (never happens, see the totality lemmas) -/
  | outOfFuel
  deriving DecidableEq, Repr

deriving instance DecidableEq for Except

/-- Source lines 9-13: `typedef struct { float pitch_hz, confidence, clarity; } PitchResult`. -/
structure PitchResult (K : Type) where
  pitch_hz : K
  confidence : K
  clarity : K
  deriving DecidableEq, Repr

/-- The null result `{0.0f, 0.0f, 0.0f}` both estimators start from (lines 17, 107). -/
def PitchResult.null {K : Type} [Zero K] : PitchResult K := ⟨0, 0, 0⟩

section Embedding

variable {K : Type} [LinearOrderedField K]

/-! ## Memory model -/

/-- A checked read `buffer[i]` of the sample window. -/
def readBuf (buffer : List K) (i : Nat) : Except Fault K :=
  match buffer.get? i with
  | some v => .ok v
  | none => .error .outOfBounds

/-- A local `float a[MAX_LAG]`: the cells written so far. -/
def LocalArray (K : Type) : Type := Nat → Option K

/-- A freshly declared local array: no cell written. -/
def LocalArray.empty : LocalArray K := fun _ => none

/-- A checked write `a[i] = v`. -/
def LocalArray.write (a : LocalArray K) (i : Nat) (v : K) : Except Fault (LocalArray K) :=
  if i < MAX_LAG then .ok (fun j => if j = i then some v else a j)
  else .error .outOfBounds

/-- A checked read `a[i]`. -/
def LocalArray.read (a : LocalArray K) (i : Nat) : Except Fault K :=
  if i < MAX_LAG then
    match a i with
    | some v => .ok v
    | none => .error .uninitialised
  else .error .outOfBounds

/-- A checked exact division `a / b`. -/
def fdiv (a b : K) : Except Fault K :=
  if b = 0 then .error .divByZero else .ok (a / b)

/-! ## Control structure -/

/-- The value of `size / 2` in C: integer division truncating towards zero. -/
def halfSize (size : Int) : Int := Int.tdiv size 2

/-- The loop test `tau < MAX_LAG && tau < size / 2` (lines 25, 38, 51, 64). -/
def lagCond (size : Int) (tau : Nat) : Bool :=
  decide (tau < MAX_LAG ∧ (tau : Int) < halfSize size)

/-- The loop test `lag < max_samples && lag < MAX_LAG` (lines 113, 126). -/
def corrCond (size : Int) (lag : Nat) : Bool :=
  decide ((lag : Int) < halfSize size ∧ lag < MAX_LAG)

/-- A C loop `for (i = i0; cond(i); i++) body` whose body neither changes `i`
nor leaves the loop; `s` is the state the body updates. -/
def forLoop {σ : Type} (cond : Nat → Bool) (body : Nat → σ → Except Fault σ) :
    Nat → Nat → σ → Except Fault σ
  | 0, _, _ => .error .outOfFuel
  | fuel + 1, i, s =>
    if cond i then (body i s).bind (fun s' => forLoop cond body fuel (i + 1) s')
    else .ok s

/-- An accumulation loop `sum = 0; for (i = 0; i < n; i++) sum += term(i)`:
the value of `sum` after `n` iterations. -/
def sumLoop (term : Nat → Except Fault K) : Nat → Except Fault K
  | 0 => .ok 0
  | n + 1 => (sumLoop term n).bind (fun sum => (term n).bind (fun t => .ok (sum + t)))

/-! ## `detect_pitch_yin` (lines 16-103) -/

/-- Lines 28-29: `delta = buffer[i] - buffer[i + tau]`, the summand `delta * delta`. -/
def yinDiffTerm (buffer : List K) (tau i : Nat) : Except Fault K :=
  (readBuf buffer i).bind (fun a =>
    (readBuf buffer (i + tau)).bind (fun b =>
      let delta := a - b
      .ok (delta * delta)))

/-- Lines 24-32, step 1: the array `diff` after the difference loop. -/
def yinDiff (buffer : List K) (size : Int) : Except Fault (LocalArray K) :=
  (LocalArray.write LocalArray.empty 0 1).bind (fun diff =>
    forLoop (lagCond size)
      (fun tau diff =>
        (sumLoop (yinDiffTerm buffer tau) (halfSize size).toNat).bind (fun sum =>
          LocalArray.write diff tau sum))
      (MAX_LAG + 1) 1 diff)

/-- Lines 39-44: one iteration of the normalisation loop on the state
`(running_sum, cumulative)`. -/
def yinCumulativeStep (diff : LocalArray K) (tau : Nat) (st : K × LocalArray K) :
    Except Fault (K × LocalArray K) :=
  (LocalArray.read diff tau).bind (fun d =>
    let running_sum := st.1 + d
    if running_sum > 0 then
      (fdiv (d * (tau : K)) running_sum).bind (fun c =>
        (LocalArray.write st.2 tau c).bind (fun cumulative => .ok (running_sum, cumulative)))
    else
      (LocalArray.write st.2 tau 1).bind (fun cumulative => .ok (running_sum, cumulative)))

/-- Lines 35-45, step 2: the array `cumulative` after the normalisation loop. -/
def yinCumulative (diff : LocalArray K) (size : Int) : Except Fault (LocalArray K) :=
  (LocalArray.write LocalArray.empty 0 1).bind (fun cumulative =>
    (forLoop (lagCond size) (yinCumulativeStep diff) (MAX_LAG + 1) 1 (0, cumulative)).bind
      (fun st => .ok st.2))

/-- Lines 53-55: `while (i + 1 < size / 2 && cumulative[i + 1] < cumulative[i]) i++;`
returning the final `i`. -/
def yinDescend (cumulative : LocalArray K) (size : Int) : Nat → Nat → Except Fault Nat
  | 0, _ => .error .outOfFuel
  | fuel + 1, i =>
    if (i : Int) + 1 < halfSize size then
      (LocalArray.read cumulative (i + 1)).bind (fun next =>
        (LocalArray.read cumulative i).bind (fun cur =>
          if next < cur then yinDescend cumulative size fuel (i + 1) else .ok i))
    else .ok i

/-- Lines 48-59: the threshold scan; the value of `tau` after the loop
(`-1` when no lag was below the threshold). -/
def yinThresholdScan (cumulative : LocalArray K) (size : Int) (threshold : K) :
    Nat → Nat → Except Fault Int
  | 0, _ => .error .outOfFuel
  | fuel + 1, i =>
    if lagCond size i then
      (LocalArray.read cumulative i).bind (fun c =>
        if c < threshold then
          (yinDescend cumulative size (MAX_LAG + 1) i).bind (fun j => .ok (j : Int))
        else yinThresholdScan cumulative size threshold fuel (i + 1))
    else .ok (-1)

/-- Lines 65-68: one iteration of the global-minimum loop on the state `(min_val, tau)`. -/
def yinFallbackStep (cumulative : LocalArray K) (i : Nat) (st : K × Int) :
    Except Fault (K × Int) :=
  (LocalArray.read cumulative i).bind (fun c =>
    if c < st.1 then .ok (c, (i : Int)) else .ok st)

/-- Lines 48-70, step 3: the lag `tau` selected by the threshold scan and,
when that leaves `tau == -1`, by the global-minimum scan. -/
def yinSelectTau (cumulative : LocalArray K) (size : Int) (threshold : K) :
    Except Fault Int :=
  let min_tau : Nat := SAMPLE_RATE / 1000
  (yinThresholdScan cumulative size threshold (MAX_LAG + 1) min_tau).bind (fun tau =>
    if tau = -1 then
      (forLoop (lagCond size) (yinFallbackStep cumulative) (MAX_LAG + 1) min_tau (1, tau)).bind
        (fun st => .ok st.2)
    else .ok tau)

/-- Lines 77-86: the parabolic refinement `better_tau` of a selected lag. -/
def yinBetterTau (cumulative : LocalArray K) (size : Int) (tau : Int) : Except Fault K :=
  if tau > 0 ∧ tau < halfSize size - 1 then
    (LocalArray.read cumulative (tau - 1).toNat).bind (fun s0 =>
      (LocalArray.read cumulative tau.toNat).bind (fun s1 =>
        (LocalArray.read cumulative (tau + 1).toNat).bind (fun s2 =>
          let denom := 2 * (2 * s1 - s2 - s0)
          if |denom| > 1 / 10000 then
            (fdiv (s2 - s0) denom).bind (fun q => .ok ((tau : K) + q))
          else .ok (tau : K))))
  else .ok (tau : K)

/-- Lines 92-98: the zero-crossing loop `for (i = 1; i < size; i++)`; the value
of `crossings` after the iterations `i = 1 .. n`. -/
def countCrossings (buffer : List K) : Nat → Except Fault Nat
  | 0 => .ok 0
  | n + 1 =>
    (countCrossings buffer n).bind (fun crossings =>
      (readBuf buffer n).bind (fun prev =>
        (readBuf buffer (n + 1)).bind (fun cur =>
          if (prev ≥ 0 ∧ cur < 0) ∨ (prev < 0 ∧ cur ≥ 0) then .ok (crossings + 1)
          else .ok crossings)))

/-- Lines 88-102: the result built from a selected lag that passed the guard of line 72. -/
def yinResult (buffer : List K) (cumulative : LocalArray K) (size : Int) (tau : Int) :
    Except Fault (PitchResult K) :=
  (yinBetterTau cumulative size tau).bind (fun better_tau =>
    let pitch_hz := (SAMPLE_RATE : K) / better_tau
    (LocalArray.read cumulative tau.toNat).bind (fun c =>
      let confidence := 1 - c
      (countCrossings buffer (size - 1).toNat).bind (fun crossings =>
        (fdiv (crossings : K) (size : K)).bind (fun zcr =>
          let clarity := max 0 (1 - zcr * 10)
          .ok ⟨pitch_hz, confidence, clarity⟩))))

/-- Lines 16-103: `PitchResult detect_pitch_yin(float* buffer, int size, float threshold)`. -/
def detect_pitch_yin (buffer : List K) (size : Int) (threshold : K) :
    Except Fault (PitchResult K) :=
  (yinDiff buffer size).bind (fun diff =>
    (yinCumulative diff size).bind (fun cumulative =>
      (yinSelectTau cumulative size threshold).bind (fun tau =>
        if tau ≤ 0 ∨ tau ≥ halfSize size then .ok PitchResult.null
        else yinResult buffer cumulative size tau)))

/-! ## `detect_pitch_autocorr` (lines 106-144) -/

/-- Line 116: the summand `buffer[i] * buffer[i + lag]`. -/
def autocorrTerm (buffer : List K) (lag i : Nat) : Except Fault K :=
  (readBuf buffer i).bind (fun a =>
    (readBuf buffer (i + lag)).bind (fun b => .ok (a * b)))

/-- Lines 113-119: the array `correlations` after the autocorrelation loop. -/
def autocorrFill (buffer : List K) (size : Int) : Except Fault (LocalArray K) :=
  forLoop (corrCond size)
    (fun lag correlations =>
      (sumLoop (autocorrTerm buffer lag) (halfSize size).toNat).bind (fun sum =>
        LocalArray.write correlations lag sum))
    (MAX_LAG + 1) 0 LocalArray.empty

/-- Lines 127-133: one iteration of the peak scan on the state `(best_corr, best_lag)`;
the conjuncts are evaluated left to right and stop at the first false one. -/
def autocorrPeakStep (correlations : LocalArray K) (size : Int) (lag : Nat) (st : K × Int) :
    Except Fault (K × Int) :=
  (LocalArray.read correlations lag).bind (fun c =>
    if c > st.1 then
      (LocalArray.read correlations (lag - 1)).bind (fun p =>
        if c > p then
          if (lag : Int) + 1 < halfSize size then
            (LocalArray.read correlations (lag + 1)).bind (fun n =>
              if c > n then .ok (c, (lag : Int)) else .ok st)
          else .ok st
        else .ok st)
    else .ok st)

/-- Lines 122-134: the state `(best_corr, best_lag)` after the peak scan. -/
def autocorrPeak (correlations : LocalArray K) (size : Int) : Except Fault (K × Int) :=
  let min_lag : Nat := SAMPLE_RATE / 1000
  forLoop (corrCond size) (autocorrPeakStep correlations size) (MAX_LAG + 1) min_lag (0, -1)

/-- Lines 106-144: `PitchResult detect_pitch_autocorr(float* buffer, int size)`. -/
def detect_pitch_autocorr (buffer : List K) (size : Int) : Except Fault (PitchResult K) :=
  (autocorrFill buffer size).bind (fun correlations =>
    (autocorrPeak correlations size).bind (fun st =>
      let best_corr := st.1
      let best_lag := st.2
      if best_lag = -1 then .ok PitchResult.null
      else
        let pitch_hz := (SAMPLE_RATE : K) / (best_lag : K)
        (LocalArray.read correlations 0).bind (fun c0 =>
          (fdiv best_corr c0).bind (fun q =>
            .ok ⟨pitch_hz, min q 1, 0⟩))))

/-! ## `calculate_rms` (lines 147-153) -/

/-- Line 150: the summand `buffer[i] * buffer[i]`. -/
def rmsTerm (buffer : List K) (i : Nat) : Except Fault K :=
  (readBuf buffer i).bind (fun a => .ok (a * a))

/-- Lines 147-153: `float calculate_rms(float* buffer, int size)`.  The library
function `sqrtf` of `math.h` is a parameter. -/
def calculate_rms (sqrtf : K → K) (buffer : List K) (size : Int) : Except Fault K :=
  (sumLoop (rmsTerm buffer) size.toNat).bind (fun sum =>
    (fdiv sum (size : K)).bind (fun q => .ok (sqrtf q)))

/-- Lines 170-173: `get_rms` forwards to `calculate_rms`. -/
def get_rms (sqrtf : K → K) (buffer : List K) (size : Int) : Except Fault K :=
  calculate_rms sqrtf buffer size

/-! ## The quantities of the specification -/

/-- The sample `x[i]` of the window (`0` beyond its end, where the code never reads
a well-formed window). -/
def sample (buffer : List K) (i : Nat) : K := buffer.getD i 0

/-- The number of iterations of `for (i = 0; i < size / 2; i++)`. -/
def halfN (size : Int) : Nat := (halfSize size).toNat

/-- The exclusive upper end `min(MAX_LAG, size / 2)` of the lag loops. -/
def lagLimit (size : Int) : Nat := min MAX_LAG (halfN size)

/-- Specification 4.1 step 1, the difference function
`d(tau) = sum_{i < size/2} (x[i] - x[i + tau])^2`. -/
def yinD (buffer : List K) (size : Int) (tau : Nat) : K :=
  ∑ i in Finset.range (halfN size), (sample buffer i - sample buffer (i + tau)) ^ 2

/-- Specification 4.1 step 2, the running sum `S(tau) = sum_{j = 1..tau} d(j)`. -/
def yinS (buffer : List K) (size : Int) (tau : Nat) : K :=
  ∑ j in Finset.Icc 1 tau, yinD buffer size j

/-- Specification 4.1 step 2, the cumulative mean-normalised difference:
`d'(0) = 1`, `d'(tau) = d(tau) * tau / S(tau)`, and `1` when `S(tau)` is zero. -/
def cmnd (buffer : List K) (size : Int) (tau : Nat) : K :=
  if tau = 0 then 1
  else if yinS buffer size tau = 0 then 1
  else yinD buffer size tau * (tau : K) / yinS buffer size tau

/-- Specification 4.2 step 1, `corr(lag) = sum_{i < size/2} x[i] * x[i + lag]`. -/
def corr (buffer : List K) (size : Int) (lag : Nat) : K :=
  ∑ i in Finset.range (halfN size), sample buffer i * sample buffer (i + lag)

/-- A local array whose cells `0 .. n-1` hold `f 0 .. f (n-1)` and whose other
cells were never written. -/
def prefixArray (n : Nat) (f : Nat → K) : LocalArray K :=
  fun j => if j < n then some (f j) else none

/-! ## Closed forms, outcomes of the searches, and test windows -/

/-- The contents of `diff`: the sentinel `1.0f` in cell `0`, `d(tau)` in cell `tau`. -/
def diffCell (buffer : List K) (size : Int) (tau : Nat) : K :=
  if tau = 0 then 1 else yinD buffer size tau

/-- What the global-minimum loop has established after the lags `a .. i-1`. -/
def FallbackInv (c : Nat → K) (a i : Nat) (st : K × Int) : Prop :=
  (st = (1, -1) ∧ ∀ j, a ≤ j → j < i → 1 ≤ c j)
  ∨ ∃ t : Nat, st = (c t, (t : Int)) ∧ a ≤ t ∧ t < i ∧ c t < 1 ∧
      (∀ j, a ≤ j → j < i → c t ≤ c j) ∧ (∀ j, a ≤ j → j < t → c t < c j)

/-- Outcome of the lag search: `k` is the first lag below the threshold and the
descent from `k` ended at `tau`, inside the written cells. -/
def DipAt (c : Nat → K) (size : Int) (threshold : K) (k tau : Nat) : Prop :=
  MIN_LAG ≤ k ∧ k < lagLimit size ∧ c k < threshold ∧
    (∀ j, MIN_LAG ≤ j → j < k → ¬ c j < threshold) ∧
    k ≤ tau ∧ tau < lagLimit size ∧ (∀ j, k ≤ j → j < tau → c (j + 1) < c j) ∧
    (tau + 1 < halfN size → tau + 1 < lagLimit size ∧ c tau ≤ c (tau + 1))

/-- Outcome of the lag search: `k` is the first lag below the threshold, the curve
decreases strictly up to cell `MAX_LAG - 1`, and the descent reads `cumulative[MAX_LAG]`. -/
def OverrunAt (c : Nat → K) (size : Int) (threshold : K) (k : Nat) : Prop :=
  MIN_LAG ≤ k ∧ k < lagLimit size ∧ c k < threshold ∧
    (∀ j, MIN_LAG ≤ j → j < k → ¬ c j < threshold) ∧
    MAX_LAG < halfN size ∧ (∀ j, k ≤ j → j + 1 < MAX_LAG → c (j + 1) < c j)

/-- Outcome of the lag search: no lag of the range is below the threshold, and `tau`
is the first global minimum of the curve over the range, with a value below `1`. -/
def GlobalMinAt (c : Nat → K) (size : Int) (threshold : K) (tau : Nat) : Prop :=
  (∀ j, MIN_LAG ≤ j → j < lagLimit size → ¬ c j < threshold) ∧
    MIN_LAG ≤ tau ∧ tau < lagLimit size ∧ c tau < 1 ∧
    (∀ j, MIN_LAG ≤ j → j < lagLimit size → c tau ≤ c j) ∧
    (∀ j, MIN_LAG ≤ j → j < tau → c tau < c j)

/-- Outcome of the lag search: no lag of the range is below the threshold and none
is below `1` (or the range is empty); `tau` keeps its initial value `-1`. -/
def NoLag (c : Nat → K) (size : Int) (threshold : K) : Prop :=
  (∀ j, MIN_LAG ≤ j → j < lagLimit size → ¬ c j < threshold) ∧
  (∀ j, MIN_LAG ≤ j → j < lagLimit size → 1 ≤ c j)

/-- The value of `better_tau` (lines 77-86) for a selected lag `tau` on the curve `c`. -/
def betterTau (c : Nat → K) (size : Int) (tau : Nat) : K :=
  if tau + 1 < halfN size then
    if |2 * (2 * c tau - c (tau + 1) - c (tau - 1))| > 1 / 10000 then
      (tau : K) + (c (tau + 1) - c (tau - 1)) / (2 * (2 * c tau - c (tau + 1) - c (tau - 1)))
    else (tau : K)
  else (tau : K)

/-- The value of `crossings` (lines 92-98) after the iterations `i = 1 .. n`. -/
def crossingCount (buffer : List K) : Nat → Nat
  | 0 => 0
  | n + 1 =>
    if (sample buffer n ≥ 0 ∧ sample buffer (n + 1) < 0)
        ∨ (sample buffer n < 0 ∧ sample buffer (n + 1) ≥ 0)
    then crossingCount buffer n + 1 else crossingCount buffer n

/-- The value of `clarity` (lines 99-100). -/
def clarityValue (buffer : List K) (size : Int) : K :=
  max 0 (1 - ((crossingCount buffer (size - 1).toNat : Nat) : K) / (size : K) * 10)

/-- A peak candidate of the scan of lines 126-134: a strict local maximum of `c`
at a lag whose right neighbour is below `size / 2`. -/
def PeakCandidate (c : Nat → K) (size : Int) (lag : Nat) : Prop :=
  c lag > c (lag - 1) ∧ lag + 1 < halfN size ∧ c lag > c (lag + 1)

/-- The peak scan reads `correlations[MAX_LAG]`: with `size / 2 > MAX_LAG`, the last
lag `MAX_LAG - 1` passes the first two tests of line 127-128. -/
def PeakOverrun (c : Nat → K) (size : Int) : Prop :=
  MAX_LAG < halfN size ∧ 0 < c (MAX_LAG - 1) ∧ c (MAX_LAG - 2) < c (MAX_LAG - 1)

/-- What the peak scan has established after the lags `a .. i-1`. -/
def PeakInv (c : Nat → K) (size : Int) (a i : Nat) (st : K × Int) : Prop :=
  (st = (0, -1) ∧ ∀ j, a ≤ j → j < i → PeakCandidate c size j → c j ≤ 0)
  ∨ ∃ t : Nat, st = (c t, (t : Int)) ∧ a ≤ t ∧ t < i ∧ 0 < c t ∧ PeakCandidate c size t ∧
      (∀ j, a ≤ j → j < i → PeakCandidate c size j → c j ≤ c t) ∧
      (∀ j, a ≤ j → j < t → PeakCandidate c size j → c j < c t)

/-- The result of `detect_pitch_autocorr` when the scan selects the lag `t`. -/
def autocorrOutput (buffer : List K) (size : Int) (t : Nat) : PitchResult K :=
  ⟨(SAMPLE_RATE : K) / (t : K), min (corr buffer size t / corr buffer size 0) 1, 0⟩

/-- Outcome of the peak scan: `t` is the first peak candidate of positive
correlation whose correlation is the largest among all peak candidates. -/
def BestPeakAt (c : Nat → K) (size : Int) (t : Nat) : Prop :=
  MIN_LAG ≤ t ∧ t < lagLimit size ∧ 0 < c t ∧ PeakCandidate c size t ∧
    (∀ j, MIN_LAG ≤ j → j < lagLimit size → PeakCandidate c size j → c j ≤ c t) ∧
    (∀ j, MIN_LAG ≤ j → j < t → PeakCandidate c size j → c j < c t)

/-- Outcome of the peak scan: no peak candidate of positive correlation. -/
def NoPeak (c : Nat → K) (size : Int) : Prop :=
  ∀ j, MIN_LAG ≤ j → j < lagLimit size → PeakCandidate c size j → c j ≤ 0

/-- The result of `detect_pitch_yin` when the search selects the lag `tau`. -/
def yinOutput (buffer : List K) (size : Int) (tau : Nat) : PitchResult K :=
  ⟨(SAMPLE_RATE : K) / betterTau (cmnd buffer size) size tau, 1 - cmnd buffer size tau,
    clarityValue buffer size⟩

/-- A window of 100 samples, zero but for `x[44] = 3`, `x[97] = x[98] = -1`: its CMND
curve rises almost linearly through the lags 47, 48, 49. -/
def steepWindow : List ℚ :=
  (List.range 100).map (fun i => if i = 44 then 3 else if i = 97 ∨ i = 98 then -1 else 0)

/-- A window of 100 samples, zero but for `x[0] = 1`, `x[47] = x[49] = -1`: its only
strict local maximum of the correlation in the search range is `corr(48) = 0`. -/
def flatPeakWindow : List ℚ :=
  (List.range 100).map (fun i => if i = 0 then 1 else if i = 47 ∨ i = 49 then -1 else 0)

/-- A window of 4098 samples (`size / 2 = 2049 > MAX_LAG`), zero but for `x[2046] = 1`. -/
def overrunWindow : List ℚ :=
  (List.range 4098).map (fun i => if i = 2046 then 1 else 0)

/-- A rectangular wave of period 49 (25 samples at `1`, 24 at `-1`), 120 samples. -/
def squareWindow : List ℚ :=
  (List.range 120).map (fun i => if i % 49 < 25 then 1 else -1)

/-- The test of lines 94-95 on an adjacent pair `(a, b) = (x[i-1], x[i])`: one sample
is non-negative and the other is negative. -/
def signChange (a b : K) : Bool :=
  decide ((a ≥ 0 ∧ b < 0) ∨ (a < 0 ∧ b ≥ 0))

/-- The adjacent pairs `(x[j], x[j+1])`, `0 <= j < size - 1`, of the window that change
sign, each named by its left index `j`. -/
def crossingPairs (buffer : List K) (size : Int) : Finset Nat :=
  (Finset.range (size - 1).toNat).filter
    (fun j => signChange (sample buffer j) (sample buffer (j + 1)) = true)

/-! ## The kernels in rounded (`float`) arithmetic

The definitions above take every `float` operation exactly.  The definitions of this
part are the same code with the result of every `float` operation (and of every
conversion from `int`) passed through a rounding function `rnd`; with `rnd = id` they
are the definitions above.  Comparisons, `fabsf`, `fmaxf` and `fminf` are exact.
Overflow to an infinity is outside this model. -/

/-- The facts about rounding to the nearest `float` that the properties below rely on:
zero and one are representable, rounding is monotone, a rounded value is representable,
and (gradual underflow) the difference of two distinct representable values does not
round to zero. -/
structure IsRounding (rnd : K → K) : Prop where
  zero : rnd 0 = 0
  one : rnd 1 = 1
  mono : ∀ a b, a ≤ b → rnd a ≤ rnd b
  idem : ∀ a, rnd (rnd a) = rnd a
  sub_ne : ∀ a b, rnd a = a → rnd b = b → a ≠ b → rnd (a - b) ≠ 0

/-- An accumulation loop `sum = 0.0f; for (i = 0; i < n; i++) sum += term(i)` whose
additions are rounded: the value of `sum` after `n` iterations. -/
def sumLoopR (rnd : K → K) (term : Nat → Except Fault K) : Nat → Except Fault K
  | 0 => .ok 0
  | n + 1 =>
    (sumLoopR rnd term n).bind (fun sum => (term n).bind (fun t => .ok (rnd (sum + t))))

/-- A checked rounded division `a / b`. -/
def fdivR (rnd : K → K) (a b : K) : Except Fault K :=
  if b = 0 then .error .divByZero else .ok (rnd (a / b))

/-- Lines 28-29 in rounded arithmetic: `delta = buffer[i] - buffer[i + tau]`, the
summand `delta * delta`. -/
def yinDiffTermR (rnd : K → K) (buffer : List K) (tau i : Nat) : Except Fault K :=
  (readBuf buffer i).bind (fun a =>
    (readBuf buffer (i + tau)).bind (fun b =>
      let delta := rnd (a - b)
      .ok (rnd (delta * delta))))

/-- Lines 24-32 in rounded arithmetic: the array `diff` after the difference loop. -/
def yinDiffR (rnd : K → K) (buffer : List K) (size : Int) : Except Fault (LocalArray K) :=
  (LocalArray.write LocalArray.empty 0 1).bind (fun diff =>
    forLoop (lagCond size)
      (fun tau diff =>
        (sumLoopR rnd (yinDiffTermR rnd buffer tau) (halfSize size).toNat).bind (fun sum =>
          LocalArray.write diff tau sum))
      (MAX_LAG + 1) 1 diff)

/-- Lines 39-44 in rounded arithmetic: one iteration of the normalisation loop on the
state `(running_sum, cumulative)`; `diff[tau] * tau` converts `tau` to `float`. -/
def yinCumulativeStepR (rnd : K → K) (diff : LocalArray K) (tau : Nat)
    (st : K × LocalArray K) : Except Fault (K × LocalArray K) :=
  (LocalArray.read diff tau).bind (fun d =>
    let running_sum := rnd (st.1 + d)
    if running_sum > 0 then
      (fdivR rnd (rnd (d * rnd (tau : K))) running_sum).bind (fun c =>
        (LocalArray.write st.2 tau c).bind (fun cumulative => .ok (running_sum, cumulative)))
    else
      (LocalArray.write st.2 tau 1).bind (fun cumulative => .ok (running_sum, cumulative)))

/-- Lines 35-45 in rounded arithmetic: the array `cumulative` after the
normalisation loop. -/
def yinCumulativeR (rnd : K → K) (diff : LocalArray K) (size : Int) :
    Except Fault (LocalArray K) :=
  (LocalArray.write LocalArray.empty 0 1).bind (fun cumulative =>
    (forLoop (lagCond size) (yinCumulativeStepR rnd diff) (MAX_LAG + 1) 1
      (0, cumulative)).bind (fun st => .ok st.2))

/-- Lines 77-86 in rounded arithmetic: the parabolic refinement `better_tau`; the
constant `0.0001f` is the rounded `1/10000`. -/
def yinBetterTauR (rnd : K → K) (cumulative : LocalArray K) (size : Int) (tau : Int) :
    Except Fault K :=
  if tau > 0 ∧ tau < halfSize size - 1 then
    (LocalArray.read cumulative (tau - 1).toNat).bind (fun s0 =>
      (LocalArray.read cumulative tau.toNat).bind (fun s1 =>
        (LocalArray.read cumulative (tau + 1).toNat).bind (fun s2 =>
          let denom := rnd (2 * rnd (rnd (rnd (2 * s1) - s2) - s0))
          if |denom| > rnd (1 / 10000) then
            (fdivR rnd (rnd (s2 - s0)) denom).bind (fun q => .ok (rnd (rnd (tau : K) + q)))
          else .ok (rnd (tau : K)))))
  else .ok (rnd (tau : K))

/-- Lines 88-102 in rounded arithmetic: the result built from a selected lag that
passed the guard of line 72. -/
def yinResultR (rnd : K → K) (buffer : List K) (cumulative : LocalArray K) (size : Int)
    (tau : Int) : Except Fault (PitchResult K) :=
  (yinBetterTauR rnd cumulative size tau).bind (fun better_tau =>
    let pitch_hz := rnd (rnd (SAMPLE_RATE : K) / better_tau)
    (LocalArray.read cumulative tau.toNat).bind (fun c =>
      let confidence := rnd (1 - c)
      (countCrossings buffer (size - 1).toNat).bind (fun crossings =>
        (fdivR rnd (rnd (crossings : K)) (rnd (size : K))).bind (fun zcr =>
          let clarity := max 0 (rnd (1 - rnd (zcr * 10)))
          .ok ⟨pitch_hz, confidence, clarity⟩))))

/-- Lines 16-103 in rounded arithmetic: `detect_pitch_yin` on `float` operations that
round by `rnd`.  The lag search of lines 48-70 only compares stored cells and is the one
of the exact model. -/
def detect_pitch_yin_rounded (rnd : K → K) (buffer : List K) (size : Int) (threshold : K) :
    Except Fault (PitchResult K) :=
  (yinDiffR rnd buffer size).bind (fun diff =>
    (yinCumulativeR rnd diff size).bind (fun cumulative =>
      (yinSelectTau cumulative size threshold).bind (fun tau =>
        if tau ≤ 0 ∨ tau ≥ halfSize size then .ok PitchResult.null
        else yinResultR rnd buffer cumulative size tau)))

/-- Line 116 in rounded arithmetic: the summand `buffer[i] * buffer[i + lag]`. -/
def autocorrTermR (rnd : K → K) (buffer : List K) (lag i : Nat) : Except Fault K :=
  (readBuf buffer i).bind (fun a =>
    (readBuf buffer (i + lag)).bind (fun b => .ok (rnd (a * b))))

/-- Lines 113-119 in rounded arithmetic: the array `correlations`. -/
def autocorrFillR (rnd : K → K) (buffer : List K) (size : Int) :
    Except Fault (LocalArray K) :=
  forLoop (corrCond size)
    (fun lag correlations =>
      (sumLoopR rnd (autocorrTermR rnd buffer lag) (halfSize size).toNat).bind (fun sum =>
        LocalArray.write correlations lag sum))
    (MAX_LAG + 1) 0 LocalArray.empty

/-- Lines 106-144 in rounded arithmetic: `detect_pitch_autocorr` on `float` operations
that round by `rnd`.  The peak scan of lines 122-134 only compares stored cells and is
the one of the exact model. -/
def detect_pitch_autocorr_rounded (rnd : K → K) (buffer : List K) (size : Int) :
    Except Fault (PitchResult K) :=
  (autocorrFillR rnd buffer size).bind (fun correlations =>
    (autocorrPeak correlations size).bind (fun st =>
      let best_corr := st.1
      let best_lag := st.2
      if best_lag = -1 then .ok PitchResult.null
      else
        let pitch_hz := rnd (rnd (SAMPLE_RATE : K) / rnd (best_lag : K))
        (LocalArray.read correlations 0).bind (fun c0 =>
          (fdivR rnd best_corr c0).bind (fun q =>
            .ok ⟨pitch_hz, min q 1, 0⟩))))

/-- The value of a rounded accumulation loop over the summands `f 0 .. f (n-1)`. -/
def sumR (rnd : K → K) (f : Nat → K) : Nat → K
  | 0 => 0
  | n + 1 => rnd (sumR rnd f n + f n)

/-- The stored difference function: the value of `diff[tau]` in rounded arithmetic. -/
def yinDR (rnd : K → K) (buffer : List K) (size : Int) (tau : Nat) : K :=
  sumR rnd
    (fun i => rnd (rnd (sample buffer i - sample buffer (i + tau))
      * rnd (sample buffer i - sample buffer (i + tau))))
    (halfN size)

/-- The contents of `diff` in rounded arithmetic. -/
def diffCellR (rnd : K → K) (buffer : List K) (size : Int) (tau : Nat) : K :=
  if tau = 0 then 1 else yinDR rnd buffer size tau

/-- The value of `running_sum` in rounded arithmetic after the lags `1 .. tau`. -/
def yinSR (rnd : K → K) (buffer : List K) (size : Int) : Nat → K
  | 0 => 0
  | tau + 1 => rnd (yinSR rnd buffer size tau + yinDR rnd buffer size (tau + 1))

/-- The stored CMND curve: the value of `cumulative[tau]` in rounded arithmetic. -/
def cmndR (rnd : K → K) (buffer : List K) (size : Int) (tau : Nat) : K :=
  if tau = 0 then 1
  else if yinSR rnd buffer size tau > 0 then
    rnd (rnd (yinDR rnd buffer size tau * rnd (tau : K)) / yinSR rnd buffer size tau)
  else 1

/-- The spacing of the `float` grid at magnitude `a`: the least `u = 2^k`, `k >= -149`,
with `a < u * 2^24`, found by doubling (at most `fuel` times). -/
def ulpSearch : Nat → ℚ → ℚ → ℚ
  | 0, u, _ => u
  | fuel + 1, u, a => if a < u * 16777216 then u else ulpSearch fuel (2 * u) a

/-- The unit in the last place of a `float` of magnitude `a`: `2^-149` below `2^-125`
(subnormal and first normal binade), then `2^(e-23)` for `2^e <= a < 2^(e+1)`. -/
def ulp32 (a : ℚ) : ℚ := ulpSearch 253 (1 / 2 ^ 149) a

/-- Rounding of a rational to the nearest integer, ties to the even one. -/
def roundHalfEven (y : ℚ) : Int :=
  let m := ⌊y⌋
  let r := y - (m : ℚ)
  if r < 1 / 2 then m else if 1 / 2 < r then m + 1 else if m % 2 = 0 then m else m + 1

/-- Rounding of a magnitude `a >= 0` to the nearest multiple of the grid spacing at
`a`, ties to the even multiple. -/
def roundMag (a : ℚ) : ℚ :=
  ((roundHalfEven (a / ulp32 a) : Int) : ℚ) * ulp32 a

/-- IEEE 754 binary32 rounding to nearest, ties to even (24-bit significand, gradual
underflow, least subnormal `2^-149`); sign-symmetric.  Overflow is not modelled: above
`2^128` the grid keeps the spacing `2^104` of the last binade. -/
def round32 (q : ℚ) : ℚ :=
  if q < 0 then -roundMag (-q) else roundMag q

/-- A rectangular wave of period 49 and amplitude `2^-80`, 120 samples:
`squareWindow` scaled by `2^-80`. -/
def faintWindow : List ℚ :=
  (List.range 120).map (fun i => if i % 49 < 25 then 1 / 2 ^ 80 else -(1 / 2 ^ 80))

/-- The value of `better_tau` (lines 77-86) in rounded arithmetic for a selected lag
`tau` on the stored curve `c`. -/
def betterTauR (rnd : K → K) (c : Nat → K) (size : Int) (tau : Nat) : K :=
  if tau + 1 < halfN size then
    if |rnd (2 * rnd (rnd (rnd (2 * c tau) - c (tau + 1)) - c (tau - 1)))| > rnd (1 / 10000) then
      rnd (rnd (tau : K) + rnd (rnd (c (tau + 1) - c (tau - 1))
        / rnd (2 * rnd (rnd (rnd (2 * c tau) - c (tau + 1)) - c (tau - 1)))))
    else rnd (tau : K)
  else rnd (tau : K)

/-- The value of `clarity` (lines 99-100) in rounded arithmetic. -/
def clarityValueR (rnd : K → K) (buffer : List K) (size : Int) : K :=
  max 0 (rnd (1 - rnd (rnd (rnd ((crossingCount buffer (size - 1).toNat : Nat) : K)
    / rnd (size : K)) * 10)))

/-- The result of `detect_pitch_yin` in rounded arithmetic when the search selects the
lag `tau`. -/
def yinOutputR (rnd : K → K) (buffer : List K) (size : Int) (tau : Nat) : PitchResult K :=
  ⟨rnd (rnd (SAMPLE_RATE : K) / betterTauR rnd (cmndR rnd buffer size) size tau),
    rnd (1 - cmndR rnd buffer size tau), clarityValueR rnd buffer size⟩

/-- A window of 108 samples, zero but for `x[0] = x[49] = 1`, `x[51] = 2`: its
correlation has two strict local maxima in the search range, `corr(49) = 1` and
`corr(51) = 2`. -/
def twoPeakWindow : List ℚ :=
  (List.range 108).map (fun i => if i = 0 ∨ i = 49 then 1 else if i = 51 then 2 else 0)

/-- A window of 100 samples, zero but for `x[44] = 12/5`, `x[97] = x[98] = -1`: its CMND
curve is almost straight through the lags 47, 48, 49, so that the interpolation
denominator at lag 48 has magnitude about `5.2e-5`. -/
def guardWindow : List ℚ :=
  (List.range 100).map
    (fun i => if i = 44 then 12 / 5 else if i = 97 ∨ i = 98 then -1 else 0)

/-- A window of 110 samples, zero but for ones at 36, 40, 88 and 92: exactly periodic
with period 52, with `d(48) = 2` and `S(48) = 194`. -/
def tieWindow : List ℚ :=
  (List.range 110).map (fun i => if i = 36 ∨ i = 40 ∨ i = 88 ∨ i = 92 then 1 else 0)

end Embedding

/-! ## Basic facts about the memory model and the loops -/

section Basics

variable {K : Type} [LinearOrderedField K]

@[simp] theorem bind_ok_eq {ε α β : Type} (a : α) (f : α → Except ε β) :
    (Except.ok a).bind f = f a := rfl

@[simp] theorem bind_error_eq {ε α β : Type} (e : ε) (f : α → Except ε β) :
    (Except.error e : Except ε α).bind f = .error e := rfl

theorem readBuf_of_lt (buffer : List K) (i : Nat) (h : i < buffer.length) :
    readBuf buffer i = .ok (sample buffer i) := by
  simp [readBuf, sample, List.get?_eq_getElem?, List.getElem?_eq_getElem h,
    List.getD_eq_getElem?_getD]

theorem halfSize_of_nonneg (size : Int) (h : 0 ≤ size) : halfSize size = size / 2 := by
  unfold halfSize
  rw [Int.tdiv_eq_ediv] <;> omega

theorem halfSize_of_neg (size : Int) (h : size < 0) : halfSize size ≤ 0 := by
  unfold halfSize
  have h2 := @Int.tdiv_eq_ediv (-size) 2 (by omega) (by omega)
  simp at h2
  omega

theorem halfSize_le (size : Int) : halfSize size ≤ 0 ∨ (0 < size ∧ 2 * halfSize size ≤ size) := by
  rcases lt_or_le size 0 with h | h
  · exact Or.inl (halfSize_of_neg size h)
  · rw [halfSize_of_nonneg size h]; omega

theorem lt_halfSize_iff (size : Int) (i : Nat) : (i : Int) < halfSize size ↔ i < halfN size := by
  unfold halfN
  exact Int.lt_toNat.symm

theorem halfN_cast (size : Int) (h : 0 < halfN size) : ((halfN size : Nat) : Int) = halfSize size := by
  unfold halfN at *
  have : 0 < halfSize size := by
    by_contra hc
    rw [Int.toNat_of_nonpos (by omega)] at h
    omega
  exact Int.toNat_of_nonneg this.le

theorem two_halfN_le (size : Int) (buffer : List K) (hlen : size ≤ (buffer.length : Int)) :
    halfN size = 0 ∨ 2 * halfN size ≤ buffer.length := by
  rcases Nat.eq_zero_or_pos (halfN size) with h | h
  · exact Or.inl h
  · right
    have hc := halfN_cast size h
    rcases halfSize_le size with h2 | h2 <;> omega

theorem lagLimit_le_max (size : Int) : lagLimit size ≤ MAX_LAG := by
  unfold lagLimit; exact min_le_left _ _

theorem lagLimit_le_half (size : Int) : lagLimit size ≤ halfN size := by
  unfold lagLimit; exact min_le_right _ _

theorem lagCond_iff (size : Int) (tau : Nat) : lagCond size tau = true ↔ tau < lagLimit size := by
  simp [lagCond, lagLimit, lt_halfSize_iff]

theorem corrCond_iff (size : Int) (lag : Nat) : corrCond size lag = true ↔ lag < lagLimit size := by
  simp [corrCond, lagLimit, lt_halfSize_iff, and_comm]

theorem prefixArray_read (n : Nat) (f : Nat → K) (j : Nat) (hj : j < n) (hn : j < MAX_LAG) :
    LocalArray.read (prefixArray n f) j = .ok (f j) := by
  simp [LocalArray.read, prefixArray, hj, hn]

theorem prefixArray_write (n : Nat) (f : Nat → K) (v : K) (hn : n < MAX_LAG) (hv : v = f n) :
    LocalArray.write (prefixArray n f) n v = .ok (prefixArray (n + 1) f) := by
  simp only [LocalArray.write, hn, if_true]
  congr 1
  funext j
  simp only [prefixArray]
  by_cases h1 : j = n
  · simp [h1, hv]
  · by_cases h2 : j < n
    · simp [h1, h2, Nat.lt_succ_of_lt h2]
    · have : ¬ j < n + 1 := by omega
      simp [h1, h2, this]

theorem prefixArray_zero (f : Nat → K) : prefixArray 0 f = (LocalArray.empty : LocalArray K) := by
  funext j; simp [prefixArray, LocalArray.empty]

/-- The loop rule for `forLoop`: an invariant kept by the body holds at the exit,
and the exit is reached within the budget. -/
theorem forLoop_spec {σ : Type} (cond : Nat → Bool) (body : Nat → σ → Except Fault σ)
    (L a : Nat) (hcond : ∀ i, cond i = true ↔ i < L) (Inv : Nat → σ → Prop)
    (hstep : ∀ i s, a ≤ i → i < L → Inv i s → ∃ s', body i s = .ok s' ∧ Inv (i + 1) s') :
    ∀ fuel i s, a ≤ i → L < i + fuel → 0 < fuel → Inv i s →
      ∃ s', forLoop cond body fuel i s = .ok s' ∧ Inv (max i L) s' := by
  intro fuel
  induction fuel with
  | zero => intro i s _ _ h0; omega
  | succ fuel ih =>
    intro i s hai hfuel _ hinv
    unfold forLoop
    by_cases hc : i < L
    · rw [if_pos ((hcond i).2 hc)]
      obtain ⟨s', hb, hinv'⟩ := hstep i s hai hc hinv
      rw [hb, bind_ok_eq]
      obtain ⟨s'', hl, hfin⟩ := ih (i + 1) s' (by omega) (by omega) (by omega) hinv'
      refine ⟨s'', hl, ?_⟩
      have h1 : max (i + 1) L = L := max_eq_right (by omega)
      have h2 : max i L = L := max_eq_right (by omega)
      rw [h2]; rw [h1] at hfin; exact hfin
    · have hc' : ¬ cond i = true := fun h => hc ((hcond i).1 h)
      rw [if_neg hc']
      refine ⟨s, rfl, ?_⟩
      have h2 : max i L = i := max_eq_left (by omega)
      rw [h2]; exact hinv

theorem sumLoop_ok (term : Nat → Except Fault K) (f : Nat → K) :
    ∀ n, (∀ i, i < n → term i = .ok (f i)) →
      sumLoop term n = .ok (∑ i in Finset.range n, f i) := by
  intro n
  induction n with
  | zero => intro _; simp [sumLoop]
  | succ n ih =>
    intro h
    have h1 := ih (fun i hi => h i (Nat.lt_succ_of_lt hi))
    simp [sumLoop, h1, h n (Nat.lt_succ_self n), Finset.sum_range_succ]

end Basics

/-! ## The arrays of `detect_pitch_yin` in closed form -/

section YinArrays

variable {K : Type} [LinearOrderedField K]

theorem yinD_nonneg (buffer : List K) (size : Int) (tau : Nat) : 0 ≤ yinD buffer size tau := by
  unfold yinD
  exact Finset.sum_nonneg (fun i _ => sq_nonneg _)

theorem yinS_nonneg (buffer : List K) (size : Int) (tau : Nat) : 0 ≤ yinS buffer size tau := by
  unfold yinS
  exact Finset.sum_nonneg (fun i _ => yinD_nonneg buffer size i)

theorem yinS_zero (buffer : List K) (size : Int) : yinS buffer size 0 = 0 := by
  simp [yinS]

theorem yinS_succ (buffer : List K) (size : Int) (tau : Nat) :
    yinS buffer size (tau + 1) = yinS buffer size tau + yinD buffer size (tau + 1) := by
  unfold yinS
  rw [Finset.sum_Icc_succ_top (by omega)]

theorem cmnd_nonneg (buffer : List K) (size : Int) (tau : Nat) : 0 ≤ cmnd buffer size tau := by
  unfold cmnd
  split_ifs
  · exact zero_le_one
  · exact zero_le_one
  · exact div_nonneg (mul_nonneg (yinD_nonneg _ _ _) (Nat.cast_nonneg _)) (yinS_nonneg _ _ _)

theorem yinDiffTerm_ok (buffer : List K) (tau i : Nat) (h : i + tau < buffer.length) :
    yinDiffTerm buffer tau i = .ok ((sample buffer i - sample buffer (i + tau)) ^ 2) := by
  unfold yinDiffTerm
  rw [readBuf_of_lt buffer i (by omega), bind_ok_eq, readBuf_of_lt buffer (i + tau) h, bind_ok_eq]
  simp only [sq]

theorem yinDiff_sum_ok (buffer : List K) (size : Int) (tau : Nat)
    (hlen : size ≤ (buffer.length : Int)) (htau : tau < lagLimit size) :
    sumLoop (yinDiffTerm buffer tau) (halfN size) = .ok (yinD buffer size tau) := by
  unfold yinD
  apply sumLoop_ok
  intro i hi
  apply yinDiffTerm_ok
  have h1 := lagLimit_le_half size
  rcases two_halfN_le size buffer hlen with h | h <;> omega

theorem yinDiff_eq (buffer : List K) (size : Int) (hlen : size ≤ (buffer.length : Int)) :
    yinDiff buffer size = .ok (prefixArray (max 1 (lagLimit size)) (diffCell buffer size)) := by
  unfold yinDiff
  have h0 : LocalArray.write (LocalArray.empty : LocalArray K) 0 1
      = .ok (prefixArray 1 (diffCell buffer size)) := by
    rw [← prefixArray_zero (diffCell buffer size)]
    exact prefixArray_write 0 _ 1 (by decide) (by simp [diffCell])
  rw [h0, bind_ok_eq]
  obtain ⟨s', hs, hinv⟩ := forLoop_spec (lagCond size)
    (fun tau diff =>
        (sumLoop (yinDiffTerm buffer tau) (halfSize size).toNat).bind (fun sum =>
          LocalArray.write diff tau sum))
    (lagLimit size) 1 (lagCond_iff size)
    (fun i arr => arr = prefixArray i (diffCell buffer size))
    (by
      intro i arr h1 hL hinv
      refine ⟨prefixArray (i + 1) (diffCell buffer size), ?_, rfl⟩
      have hs := yinDiff_sum_ok buffer size i hlen hL
      unfold halfN at hs
      simp only [hs, bind_ok_eq, hinv]
      apply prefixArray_write
      · have := lagLimit_le_max size; omega
      · have : i ≠ 0 := by omega
        simp [diffCell, this])
    (MAX_LAG + 1) 1 (prefixArray 1 (diffCell buffer size)) (le_refl 1)
    (by have := lagLimit_le_max size; omega) (by omega) rfl
  rw [hs, hinv]

theorem yinCumulativeStep_ok (buffer : List K) (size : Int) (i : Nat) (h1 : 1 ≤ i)
    (hL : i < lagLimit size) :
    yinCumulativeStep (prefixArray (max 1 (lagLimit size)) (diffCell buffer size)) i
        (yinS buffer size (i - 1), prefixArray i (cmnd buffer size))
      = .ok (yinS buffer size i, prefixArray (i + 1) (cmnd buffer size)) := by
  have hmax : i < MAX_LAG := by have := lagLimit_le_max size; omega
  have hne : i ≠ 0 := by omega
  unfold yinCumulativeStep
  rw [prefixArray_read _ _ i (lt_of_lt_of_le hL (le_max_right _ _)) hmax, bind_ok_eq]
  have hd : diffCell buffer size i = yinD buffer size i := by simp [diffCell, hne]
  have hS : yinS buffer size (i - 1) + yinD buffer size i = yinS buffer size i := by
    obtain ⟨m, rfl⟩ : ∃ m, i = m + 1 := ⟨i - 1, by omega⟩
    simp [yinS_succ]
  simp only [hd, hS]
  by_cases hpos : yinS buffer size i > 0
  · rw [if_pos hpos]
    have hnz : yinS buffer size i ≠ 0 := ne_of_gt hpos
    unfold fdiv
    rw [if_neg hnz, bind_ok_eq]
    rw [prefixArray_write i _ _ hmax (by simp [cmnd, hne, hnz]), bind_ok_eq]
  · rw [if_neg hpos]
    have hz : yinS buffer size i = 0 := le_antisymm (not_lt.1 hpos) (yinS_nonneg _ _ _)
    rw [prefixArray_write i _ _ hmax (by simp [cmnd, hne, hz]), bind_ok_eq]

theorem yinCumulative_eq (buffer : List K) (size : Int) :
    yinCumulative (prefixArray (max 1 (lagLimit size)) (diffCell buffer size)) size
      = .ok (prefixArray (max 1 (lagLimit size)) (cmnd buffer size)) := by
  unfold yinCumulative
  have h0 : LocalArray.write (LocalArray.empty : LocalArray K) 0 1
      = .ok (prefixArray 1 (cmnd buffer size)) := by
    rw [← prefixArray_zero (cmnd buffer size)]
    exact prefixArray_write 0 _ 1 (by decide) (by simp [cmnd])
  rw [h0, bind_ok_eq]
  obtain ⟨s', hs, hinv⟩ := forLoop_spec (lagCond size)
    (yinCumulativeStep (prefixArray (max 1 (lagLimit size)) (diffCell buffer size)))
    (lagLimit size) 1 (lagCond_iff size)
    (fun i st => st = (yinS buffer size (i - 1), prefixArray i (cmnd buffer size)))
    (by
      intro i st h1 hL hinv
      refine ⟨_, ?_, rfl⟩
      rw [hinv]
      simpa using yinCumulativeStep_ok buffer size i h1 hL)
    (MAX_LAG + 1) 1 (0, prefixArray 1 (cmnd buffer size)) (le_refl 1)
    (by have := lagLimit_le_max size; omega) (by omega)
    (by simp [yinS_zero])
  rw [hs, bind_ok_eq, hinv]

end YinArrays

/-! ## The lag search of `detect_pitch_yin` -/

section YinSearch

variable {K : Type} [LinearOrderedField K]

theorem succ_lt_halfSize_iff (size : Int) (i : Nat) :
    (i : Int) + 1 < halfSize size ↔ i + 1 < halfN size := by
  rw [← lt_halfSize_iff]; push_cast; rfl

/-- The descent loop on an array holding `c` in its first `Lm` cells: it stops at the
first lag from which `c` does not strictly decrease, or runs off the written cells. -/
theorem yinDescend_spec (c : Nat → K) (size : Int) (Lm : Nat) (hLm : Lm ≤ MAX_LAG)
    (hfull : Lm < halfN size → Lm = MAX_LAG) :
    ∀ fuel i, i < Lm → MAX_LAG < i + fuel →
      (∃ tau, yinDescend (prefixArray Lm c) size fuel i = .ok tau ∧ i ≤ tau ∧ tau < Lm ∧
          (∀ j, i ≤ j → j < tau → c (j + 1) < c j) ∧
          (tau + 1 < halfN size → tau + 1 < Lm ∧ c tau ≤ c (tau + 1)))
      ∨ (yinDescend (prefixArray Lm c) size fuel i = .error .outOfBounds ∧ Lm < halfN size ∧
          (∀ j, i ≤ j → j + 1 < Lm → c (j + 1) < c j)) := by
  intro fuel
  induction fuel with
  | zero => intro i h1 h2; omega
  | succ fuel ih =>
    intro i hi hfuel
    unfold yinDescend
    by_cases hh : i + 1 < halfN size
    · rw [if_pos ((succ_lt_halfSize_iff size i).2 hh)]
      by_cases hw : i + 1 < Lm
      · rw [prefixArray_read Lm c (i + 1) hw (by omega), bind_ok_eq,
          prefixArray_read Lm c i hi (by omega), bind_ok_eq]
        by_cases hlt : c (i + 1) < c i
        · rw [if_pos hlt]
          rcases ih (i + 1) hw (by omega) with ⟨tau, h1, h2, h3, h4, h5⟩ | ⟨h1, h2, h3⟩
          · left
            refine ⟨tau, h1, by omega, h3, ?_, h5⟩
            intro j hj1 hj2
            rcases Nat.eq_or_lt_of_le hj1 with h | h
            · rw [← h]; exact hlt
            · exact h4 j (by omega) hj2
          · right
            refine ⟨h1, h2, ?_⟩
            intro j hj1 hj2
            rcases Nat.eq_or_lt_of_le hj1 with h | h
            · rw [← h]; exact hlt
            · exact h3 j (by omega) hj2
        · rw [if_neg hlt]
          left
          exact ⟨i, rfl, le_refl i, hi, fun j h1 h2 => by omega, fun _ => ⟨hw, not_lt.1 hlt⟩⟩
      · right
        have hLh : Lm < halfN size := by omega
        have hM := hfull hLh
        have hr : LocalArray.read (prefixArray Lm c) (i + 1) = .error .outOfBounds := by
          have : ¬ i + 1 < MAX_LAG := by omega
          simp [LocalArray.read, this]
        rw [hr, bind_error_eq]
        exact ⟨rfl, hLh, fun j h1 h2 => by omega⟩
    · rw [if_neg (fun h => hh ((succ_lt_halfSize_iff size i).1 h))]
      left
      exact ⟨i, rfl, le_refl i, hi, fun j h1 h2 => by omega, fun h => absurd h hh⟩

/-- The threshold scan finds no lag: `tau` stays `-1`. -/
theorem yinThresholdScan_none (c : Nat → K) (size : Int) (threshold : K) :
    ∀ fuel i, 1 ≤ i → MAX_LAG < i + fuel → 0 < fuel →
      (∀ j, i ≤ j → j < lagLimit size → ¬ c j < threshold) →
      yinThresholdScan (prefixArray (max 1 (lagLimit size)) c) size threshold fuel i
        = .ok (-1) := by
  intro fuel
  induction fuel with
  | zero => intro i h1 h2 h3 _; omega
  | succ fuel ih =>
    intro i h1 hfuel _ hno
    have hLM := lagLimit_le_max size
    unfold yinThresholdScan
    by_cases hc : i < lagLimit size
    · rw [if_pos ((lagCond_iff size i).2 hc)]
      rw [prefixArray_read _ c i (lt_of_lt_of_le hc (le_max_right _ _)) (by omega), bind_ok_eq]
      rw [if_neg (hno i (le_refl i) hc)]
      exact ih (i + 1) (by omega) (by omega) (by omega) (fun j h2 h3 => hno j (by omega) h3)
    · rw [if_neg (fun h => hc ((lagCond_iff size i).1 h))]

/-- The threshold scan finds the least lag `k` below the threshold and hands over to
the descent loop. -/
theorem yinThresholdScan_hit (c : Nat → K) (size : Int) (threshold : K) (k : Nat)
    (hk : k < lagLimit size) (hck : c k < threshold) :
    ∀ fuel i, 1 ≤ i → i ≤ k → MAX_LAG < i + fuel →
      (∀ j, i ≤ j → j < k → ¬ c j < threshold) →
      yinThresholdScan (prefixArray (max 1 (lagLimit size)) c) size threshold fuel i
        = (yinDescend (prefixArray (max 1 (lagLimit size)) c) size (MAX_LAG + 1) k).bind
            (fun j => .ok (j : Int)) := by
  intro fuel
  have hLM := lagLimit_le_max size
  induction fuel with
  | zero => intro i h1 h2 h3 _; omega
  | succ fuel ih =>
    intro i h1 hik hfuel hno
    unfold yinThresholdScan
    have hc : i < lagLimit size := by omega
    rw [if_pos ((lagCond_iff size i).2 hc)]
    rw [prefixArray_read _ c i (lt_of_lt_of_le hc (le_max_right _ _)) (by omega), bind_ok_eq]
    rcases Nat.eq_or_lt_of_le hik with h | h
    · subst h
      rw [if_pos hck]
    · rw [if_neg (hno i (le_refl i) h)]
      exact ih (i + 1) (by omega) (by omega) (by omega) (fun j h2 h3 => hno j (by omega) h3)

theorem yinFallbackStep_inv (c : Nat → K) (size : Int) (a i : Nat) (st : K × Int)
    (ha : 1 ≤ a) (hai : a ≤ i) (hi : i < lagLimit size) (hinv : FallbackInv c a i st) :
    ∃ st', yinFallbackStep (prefixArray (max 1 (lagLimit size)) c) i st = .ok st' ∧
      FallbackInv c a (i + 1) st' := by
  have hLM := lagLimit_le_max size
  unfold yinFallbackStep
  rw [prefixArray_read _ c i (lt_of_lt_of_le hi (le_max_right _ _)) (by omega), bind_ok_eq]
  rcases hinv with ⟨hst, hall⟩ | ⟨t, hst, hat, hti, ht1, hmin, hfirst⟩
  · subst hst
    by_cases hlt : c i < 1
    · refine ⟨(c i, (i : Int)), by simp [hlt], Or.inr ⟨i, rfl, hai, by omega, hlt, ?_, ?_⟩⟩
      · intro j h1 h2
        rcases Nat.eq_or_lt_of_le (Nat.le_of_lt_succ h2) with h | h
        · rw [h]
        · exact le_trans hlt.le (hall j h1 h)
      · intro j h1 h2
        exact lt_of_lt_of_le hlt (hall j h1 h2)
    · refine ⟨(1, -1), by simp [hlt], Or.inl ⟨rfl, ?_⟩⟩
      intro j h1 h2
      rcases Nat.eq_or_lt_of_le (Nat.le_of_lt_succ h2) with h | h
      · rw [h]; exact not_lt.1 hlt
      · exact hall j h1 h
  · subst hst
    by_cases hlt : c i < c t
    · refine ⟨(c i, (i : Int)), by simp [hlt], Or.inr ⟨i, rfl, hai, by omega, lt_trans hlt ht1, ?_, ?_⟩⟩
      · intro j h1 h2
        rcases Nat.eq_or_lt_of_le (Nat.le_of_lt_succ h2) with h | h
        · rw [h]
        · exact le_trans hlt.le (hmin j h1 h)
      · intro j h1 h2
        exact lt_of_lt_of_le hlt (hmin j h1 h2)
    · refine ⟨(c t, (t : Int)), by simp [hlt], Or.inr ⟨t, rfl, hat, by omega, ht1, ?_, hfirst⟩⟩
      intro j h1 h2
      rcases Nat.eq_or_lt_of_le (Nat.le_of_lt_succ h2) with h | h
      · rw [h]; exact not_lt.1 hlt
      · exact hmin j h1 h

theorem yinFallback_spec (c : Nat → K) (size : Int) (a : Nat) (ha : 1 ≤ a) :
    ∃ st, forLoop (lagCond size) (yinFallbackStep (prefixArray (max 1 (lagLimit size)) c))
        (MAX_LAG + 1) a (1, -1) = .ok st ∧ FallbackInv c a (max a (lagLimit size)) st := by
  have hLM := lagLimit_le_max size
  exact forLoop_spec (lagCond size) _ (lagLimit size) a (lagCond_iff size)
    (fun i st => FallbackInv c a i st)
    (fun i st h1 h2 h3 => yinFallbackStep_inv c size a i st ha h1 h2 h3)
    (MAX_LAG + 1) a (1, -1) (le_refl a) (by omega) (by omega)
    (Or.inl ⟨rfl, fun j h1 h2 => by omega⟩)

theorem min_lag_eq : MIN_LAG = 48 := rfl

theorem max_lag_eq : MAX_LAG = 2048 := rfl

theorem strictDescent_le (c : Nat → K) (k : Nat) :
    ∀ tau, k ≤ tau → (∀ j, k ≤ j → j < tau → c (j + 1) < c j) → c tau ≤ c k := by
  intro tau
  induction tau with
  | zero => intro h _; have : k = 0 := by omega
            rw [this]
  | succ t ih =>
    intro h hd
    rcases Nat.eq_or_lt_of_le h with h1 | h1
    · rw [h1]
    · have h2 := ih (by omega) (fun j hj1 hj2 => hd j hj1 (by omega))
      exact le_trans (hd t (by omega) (by omega)).le h2

/-- The four possible outcomes of lines 48-70 on an array holding the curve `c`. -/
theorem yinSelectTau_cases (c : Nat → K) (size : Int) (threshold : K) :
    (∃ k tau, DipAt c size threshold k tau ∧
        yinSelectTau (prefixArray (max 1 (lagLimit size)) c) size threshold = .ok (tau : Int))
    ∨ (∃ k, OverrunAt c size threshold k ∧
        yinSelectTau (prefixArray (max 1 (lagLimit size)) c) size threshold
          = .error .outOfBounds)
    ∨ (∃ tau, GlobalMinAt c size threshold tau ∧
        yinSelectTau (prefixArray (max 1 (lagLimit size)) c) size threshold = .ok (tau : Int))
    ∨ (NoLag c size threshold ∧
        yinSelectTau (prefixArray (max 1 (lagLimit size)) c) size threshold = .ok (-1)) := by
  have hLM := lagLimit_le_max size
  have hLH := lagLimit_le_half size
  have hM : SAMPLE_RATE / 1000 = 48 := rfl
  have hmin := min_lag_eq
  have hmax := max_lag_eq
  by_cases hex : ∃ k, MIN_LAG ≤ k ∧ k < lagLimit size ∧ c k < threshold
  · -- a dip exists: take the least one
    classical
    have hk := Nat.find_spec hex
    have hleast : ∀ j, MIN_LAG ≤ j → j < Nat.find hex → ¬ c j < threshold := by
      intro j hj1 hj2 hj3
      exact Nat.find_min hex hj2 ⟨hj1, by omega, hj3⟩
    generalize Nat.find hex = k at hk hleast
    obtain ⟨hk1, hk2, hk3⟩ := hk
    have hscan := yinThresholdScan_hit c size threshold k hk2 hk3 (MAX_LAG + 1) 48
      (by omega) (by omega) (by omega) (fun j h1 h2 => hleast j (by omega) h2)
    have hLm : max 1 (lagLimit size) = lagLimit size := max_eq_right (by omega)
    have hdesc := yinDescend_spec c size (max 1 (lagLimit size)) (by rw [hLm]; exact hLM)
      (by
        rw [hLm]; intro h
        unfold lagLimit at h ⊢
        rcases le_total MAX_LAG (halfN size) with h1 | h1
        · exact min_eq_left h1
        · rw [min_eq_right h1] at h; omega)
      (MAX_LAG + 1) k (by rw [hLm]; exact hk2) (by omega)
    rcases hdesc with ⟨tau, h1, h2, h3, h4, h5⟩ | ⟨h1, h2, h3⟩
    · left
      refine ⟨k, tau, ⟨hk1, hk2, hk3, hleast, h2, by rw [hLm] at h3; exact h3, h4, ?_⟩, ?_⟩
      · intro h; have := h5 h; rw [hLm] at this; exact this
      · unfold yinSelectTau
        simp only [hM]
        rw [hscan, h1]
        simp only [bind_ok_eq]
        have : ¬ ((tau : Int) = -1) := by omega
        rw [if_neg this]
    · right; left
      rw [hLm] at h2 h3
      have hfull : lagLimit size = MAX_LAG := by
        unfold lagLimit at h2 ⊢
        rcases le_total MAX_LAG (halfN size) with h1 | h1
        · exact min_eq_left h1
        · rw [min_eq_right h1] at h2; omega
      refine ⟨k, ⟨hk1, hk2, hk3, hleast, by omega, ?_⟩, ?_⟩
      · intro j hj1 hj2; exact h3 j hj1 (by omega)
      · unfold yinSelectTau
        simp only [hM]
        rw [hscan, h1]
        rfl
  · -- no dip: the global-minimum loop decides
    have hno : ∀ j, MIN_LAG ≤ j → j < lagLimit size → ¬ c j < threshold := by
      intro j h1 h2 h3; exact hex ⟨j, h1, h2, h3⟩
    have hscan := yinThresholdScan_none c size threshold (MAX_LAG + 1) 48 (by omega)
      (by omega) (by omega) (fun j h1 h2 => hno j (by omega) h2)
    obtain ⟨st, hloop, hinv⟩ := yinFallback_spec c size 48 (by omega)
    have hsel : yinSelectTau (prefixArray (max 1 (lagLimit size)) c) size threshold
        = .ok st.2 := by
      unfold yinSelectTau
      simp only [hM]
      rw [hscan]
      simp only [bind_ok_eq, if_true]
      rw [hloop]
      rfl
    rcases hinv with ⟨hst, hall⟩ | ⟨t, hst, hat, hti, ht1, hmn, hfirst⟩
    · right; right; right
      refine ⟨⟨hno, ?_⟩, by rw [hsel, hst]⟩
      intro j h1 h2
      exact hall j (by omega) (lt_of_lt_of_le h2 (le_max_right _ _))
    · right; right; left
      have htL : t < lagLimit size := by
        rcases le_total 48 (lagLimit size) with h | h
        · rw [max_eq_right h] at hti; exact hti
        · rw [max_eq_left h] at hti; omega
      refine ⟨t, ⟨hno, by omega, htL, ht1, ?_, ?_⟩, by rw [hsel, hst]⟩
      · intro j h1 h2
        exact hmn j (by omega) (lt_of_lt_of_le h2 (le_max_right _ _))
      · intro j h1 h2
        exact hfirst j (by omega) h2

end YinSearch

/-! ## The result of `detect_pitch_yin` in closed form -/

section YinResult

variable {K : Type} [LinearOrderedField K]

theorem interp_guard_iff (size : Int) (tau : Nat) (h1 : 1 ≤ tau) :
    ((tau : Int) > 0 ∧ (tau : Int) < halfSize size - 1) ↔ tau + 1 < halfN size := by
  rw [← succ_lt_halfSize_iff]
  constructor
  · intro h; omega
  · intro h; omega

theorem yinBetterTau_eq (c : Nat → K) (size : Int) (tau : Nat) (h1 : 1 ≤ tau)
    (hL : tau < lagLimit size) (hnext : tau + 1 < halfN size → tau + 1 < lagLimit size) :
    yinBetterTau (prefixArray (max 1 (lagLimit size)) c) size (tau : Int)
      = .ok (betterTau c size tau) := by
  have hLM := lagLimit_le_max size
  have hLm : max 1 (lagLimit size) = lagLimit size := max_eq_right (by omega)
  unfold yinBetterTau betterTau
  by_cases hg : tau + 1 < halfN size
  · rw [if_pos ((interp_guard_iff size tau h1).2 hg), if_pos hg]
    have e0 : ((tau : Int) - 1).toNat = tau - 1 := by omega
    have e1 : ((tau : Int)).toNat = tau := by omega
    have e2 : ((tau : Int) + 1).toNat = tau + 1 := by omega
    rw [e0, e1, e2, hLm]
    rw [prefixArray_read _ c (tau - 1) (by omega) (by omega), bind_ok_eq,
      prefixArray_read _ c tau hL (by omega), bind_ok_eq,
      prefixArray_read _ c (tau + 1) (hnext hg) (by have := hnext hg; omega), bind_ok_eq]
    simp only []
    by_cases hd : |2 * (2 * c tau - c (tau + 1) - c (tau - 1))| > 1 / 10000
    · rw [if_pos hd, if_pos hd]
      have hne : 2 * (2 * c tau - c (tau + 1) - c (tau - 1)) ≠ 0 := by
        intro h0
        rw [h0, abs_zero] at hd
        exact absurd hd (not_lt.2 (by positivity))
      unfold fdiv
      rw [if_neg hne, bind_ok_eq]
      simp
    · rw [if_neg hd, if_neg hd]
      simp
  · rw [if_neg (fun h => hg ((interp_guard_iff size tau h1).1 h)), if_neg hg]
    simp

/-- With `size / 2 > MAX_LAG` and the selected lag `MAX_LAG - 1`, line 81 reads
`cumulative[MAX_LAG]`. -/
theorem yinBetterTau_overrun (c : Nat → K) (size : Int) (tau : Nat) (h1 : 1 ≤ tau)
    (hL : tau < lagLimit size) (hg : tau + 1 < halfN size) (hnext : ¬ tau + 1 < lagLimit size) :
    yinBetterTau (prefixArray (max 1 (lagLimit size)) c) size (tau : Int)
      = .error .outOfBounds := by
  have hLM := lagLimit_le_max size
  have hLm : max 1 (lagLimit size) = lagLimit size := max_eq_right (by omega)
  have hfull : lagLimit size = MAX_LAG := by
    unfold lagLimit at hnext hL ⊢
    rcases le_total MAX_LAG (halfN size) with h | h
    · exact min_eq_left h
    · rw [min_eq_right h] at hnext; omega
  unfold yinBetterTau
  rw [if_pos ((interp_guard_iff size tau h1).2 hg)]
  have e0 : ((tau : Int) - 1).toNat = tau - 1 := by omega
  have e1 : ((tau : Int)).toNat = tau := by omega
  have e2 : ((tau : Int) + 1).toNat = tau + 1 := by omega
  rw [e0, e1, e2, hLm]
  rw [prefixArray_read _ c (tau - 1) (by omega) (by omega), bind_ok_eq,
    prefixArray_read _ c tau hL (by omega), bind_ok_eq]
  have hr : LocalArray.read (prefixArray (lagLimit size) c) (tau + 1) = .error .outOfBounds := by
    have : ¬ tau + 1 < MAX_LAG := by omega
    simp [LocalArray.read, this]
  rw [hr, bind_error_eq]

theorem countCrossings_eq (buffer : List K) :
    ∀ n, n < buffer.length → countCrossings buffer n = .ok (crossingCount buffer n) := by
  intro n
  induction n with
  | zero => intro _; rfl
  | succ n ih =>
    intro h
    unfold countCrossings crossingCount
    rw [ih (by omega), bind_ok_eq, readBuf_of_lt buffer n (by omega), bind_ok_eq,
      readBuf_of_lt buffer (n + 1) h, bind_ok_eq]
    split_ifs <;> rfl

theorem crossingCount_le (buffer : List K) : ∀ n, crossingCount buffer n ≤ n := by
  intro n
  induction n with
  | zero => exact le_refl 0
  | succ n ih =>
    unfold crossingCount
    split_ifs <;> omega

theorem yinResult_eq (buffer : List K) (c : Nat → K) (size : Int) (tau : Nat)
    (hlen : size ≤ (buffer.length : Int)) (h1 : 1 ≤ tau)
    (hL : tau < lagLimit size) (hnext : tau + 1 < halfN size → tau + 1 < lagLimit size) :
    yinResult buffer (prefixArray (max 1 (lagLimit size)) c) size (tau : Int)
      = .ok ⟨(SAMPLE_RATE : K) / betterTau c size tau, 1 - c tau, clarityValue buffer size⟩ := by
  have hLM := lagLimit_le_max size
  have hLH := lagLimit_le_half size
  have hLm : max 1 (lagLimit size) = lagLimit size := max_eq_right (by omega)
  have hpos : 0 < halfN size := by omega
  have hsz : 0 < size := by
    have hc := halfN_cast size hpos
    rcases halfSize_le size with h | h <;> omega
  unfold yinResult
  rw [yinBetterTau_eq c size tau h1 hL hnext, bind_ok_eq]
  have e1 : ((tau : Int)).toNat = tau := by omega
  simp only [e1, hLm]
  rw [prefixArray_read _ c tau hL (by omega), bind_ok_eq]
  rw [countCrossings_eq buffer (size - 1).toNat (by omega), bind_ok_eq]
  have hne : (size : K) ≠ 0 := by
    have : (0 : K) < (size : K) := by exact_mod_cast hsz
    exact ne_of_gt this
  unfold fdiv
  rw [if_neg hne, bind_ok_eq]
  rfl

theorem detect_pitch_yin_eq (buffer : List K) (size : Int) (threshold : K)
    (hlen : size ≤ (buffer.length : Int)) :
    detect_pitch_yin buffer size threshold
      = (yinSelectTau (prefixArray (max 1 (lagLimit size)) (cmnd buffer size)) size threshold).bind
          (fun tau =>
            if tau ≤ 0 ∨ tau ≥ halfSize size then .ok PitchResult.null
            else yinResult buffer (prefixArray (max 1 (lagLimit size)) (cmnd buffer size))
              size tau) := by
  unfold detect_pitch_yin
  rw [yinDiff_eq buffer size hlen, bind_ok_eq, yinCumulative_eq buffer size, bind_ok_eq]

theorem selected_guard (size : Int) (tau : Nat) (h1 : 1 ≤ tau) (hL : tau < lagLimit size) :
    ¬ ((tau : Int) ≤ 0 ∨ (tau : Int) ≥ halfSize size) := by
  have hLH := lagLimit_le_half size
  have h2 : (tau : Int) < halfSize size := (lt_halfSize_iff size tau).2 (by omega)
  omega

theorem crossingCount_eq_card (buffer : List K) (n : Nat) :
    crossingCount buffer n
      = ((Finset.range n).filter
          (fun j => signChange (sample buffer j) (sample buffer (j + 1)) = true)).card := by
  induction n with
  | zero => simp [crossingCount]
  | succ n ih =>
    unfold crossingCount
    rw [Finset.range_succ, Finset.filter_insert]
    by_cases h : (sample buffer n ≥ 0 ∧ sample buffer (n + 1) < 0)
        ∨ (sample buffer n < 0 ∧ sample buffer (n + 1) ≥ 0)
    · have hs : signChange (sample buffer n) (sample buffer (n + 1)) = true := by
        unfold signChange; exact decide_eq_true h
      rw [if_pos h, if_pos hs, Finset.card_insert_of_not_mem (by simp), ih]
    · have hs : ¬ signChange (sample buffer n) (sample buffer (n + 1)) = true := by
        unfold signChange; simpa using h
      rw [if_neg h, if_neg hs, ih]

theorem clarityValue_eq (buffer : List K) (size : Int) :
    clarityValue buffer size
      = max 0 (1 - 10 * (((crossingPairs buffer size).card : K) / (size : K))) := by
  unfold clarityValue crossingPairs
  rw [crossingCount_eq_card, mul_comm]

end YinResult

/-! ## `detect_pitch_autocorr` in closed form -/

section Autocorr

variable {K : Type} [LinearOrderedField K]

/-- The loop rule for a `forLoop` whose body may stop the run with the fault `e0`. -/
theorem forLoop_spec_fault {σ : Type} (cond : Nat → Bool) (body : Nat → σ → Except Fault σ)
    (L a : Nat) (hcond : ∀ i, cond i = true ↔ i < L) (Inv : Nat → σ → Prop) (e0 : Fault)
    (Q : Prop)
    (hstep : ∀ i s, a ≤ i → i < L → Inv i s →
      (∃ s', body i s = .ok s' ∧ Inv (i + 1) s') ∨ (body i s = .error e0 ∧ Q)) :
    ∀ fuel i s, a ≤ i → L < i + fuel → 0 < fuel → Inv i s →
      (∃ s', forLoop cond body fuel i s = .ok s' ∧ Inv (max i L) s')
      ∨ (forLoop cond body fuel i s = .error e0 ∧ Q) := by
  intro fuel
  induction fuel with
  | zero => intro i s _ _ h0; omega
  | succ fuel ih =>
    intro i s hai hfuel _ hinv
    unfold forLoop
    by_cases hc : i < L
    · rw [if_pos ((hcond i).2 hc)]
      rcases hstep i s hai hc hinv with ⟨s', hb, hinv'⟩ | ⟨hb, hq⟩
      · rw [hb, bind_ok_eq]
        rcases ih (i + 1) s' (by omega) (by omega) (by omega) hinv' with
          ⟨s'', hl, hfin⟩ | ⟨hl, hq⟩
        · left
          refine ⟨s'', hl, ?_⟩
          have h1 : max (i + 1) L = L := max_eq_right (by omega)
          have h2 : max i L = L := max_eq_right (by omega)
          rw [h2]; rw [h1] at hfin; exact hfin
        · right; exact ⟨hl, hq⟩
      · right
        rw [hb, bind_error_eq]
        exact ⟨rfl, hq⟩
    · have hc' : ¬ cond i = true := fun h => hc ((hcond i).1 h)
      rw [if_neg hc']
      left
      refine ⟨s, rfl, ?_⟩
      have h2 : max i L = i := max_eq_left (by omega)
      rw [h2]; exact hinv

theorem autocorrTerm_ok (buffer : List K) (lag i : Nat) (h : i + lag < buffer.length) :
    autocorrTerm buffer lag i = .ok (sample buffer i * sample buffer (i + lag)) := by
  unfold autocorrTerm
  rw [readBuf_of_lt buffer i (by omega), bind_ok_eq, readBuf_of_lt buffer (i + lag) h, bind_ok_eq]

theorem autocorr_sum_ok (buffer : List K) (size : Int) (lag : Nat)
    (hlen : size ≤ (buffer.length : Int)) (hlag : lag < lagLimit size) :
    sumLoop (autocorrTerm buffer lag) (halfN size) = .ok (corr buffer size lag) := by
  unfold corr
  apply sumLoop_ok
  intro i hi
  apply autocorrTerm_ok
  have h1 := lagLimit_le_half size
  rcases two_halfN_le size buffer hlen with h | h <;> omega

theorem autocorrFill_eq (buffer : List K) (size : Int) (hlen : size ≤ (buffer.length : Int)) :
    autocorrFill buffer size = .ok (prefixArray (lagLimit size) (corr buffer size)) := by
  unfold autocorrFill
  obtain ⟨s', hs, hinv⟩ := forLoop_spec (corrCond size)
    (fun lag correlations =>
      (sumLoop (autocorrTerm buffer lag) (halfSize size).toNat).bind (fun sum =>
        LocalArray.write correlations lag sum))
    (lagLimit size) 0 (corrCond_iff size)
    (fun i arr => arr = prefixArray i (corr buffer size))
    (by
      intro i arr h1 hL hinv
      refine ⟨prefixArray (i + 1) (corr buffer size), ?_, rfl⟩
      have hs := autocorr_sum_ok buffer size i hlen hL
      unfold halfN at hs
      simp only [hs, bind_ok_eq, hinv]
      apply prefixArray_write
      · have := lagLimit_le_max size; omega
      · rfl)
    (MAX_LAG + 1) 0 LocalArray.empty (le_refl 0)
    (by have := lagLimit_le_max size; omega) (by omega)
    (prefixArray_zero _).symm
  rw [hs, hinv, max_eq_right (Nat.zero_le _)]

theorem autocorrPeakStep_inv (c : Nat → K) (size : Int) (a i : Nat) (st : K × Int)
    (ha : 1 ≤ a) (hai : a ≤ i) (hi : i < lagLimit size) (hinv : PeakInv c size a i st) :
    (∃ st', autocorrPeakStep (prefixArray (lagLimit size) c) size i st = .ok st' ∧
      PeakInv c size a (i + 1) st')
    ∨ (autocorrPeakStep (prefixArray (lagLimit size) c) size i st = .error .outOfBounds ∧
      PeakOverrun c size) := by
  have hLM := lagLimit_le_max size
  have hbest : 0 ≤ st.1 ∧ (∀ j, a ≤ j → j < i → PeakCandidate c size j → c j ≤ st.1) := by
    rcases hinv with ⟨hst, hall⟩ | ⟨t, hst, hat, hti, ht0, htc, hmx, hfirst⟩
    · subst hst; exact ⟨le_refl _, hall⟩
    · subst hst; exact ⟨ht0.le, hmx⟩
  -- the state is kept
  have keep : ¬ (c i > st.1 ∧ PeakCandidate c size i) → PeakInv c size a (i + 1) st := by
    intro hnot
    have hnew : PeakCandidate c size i → c i ≤ st.1 := fun hp => not_lt.1 (fun h => hnot ⟨h, hp⟩)
    rcases hinv with ⟨hst, hall⟩ | ⟨t, hst, hat, hti, ht0, htc, hmx, hfirst⟩
    · left
      refine ⟨hst, ?_⟩
      intro j h1 h2 hp
      rcases Nat.eq_or_lt_of_le (Nat.le_of_lt_succ h2) with h | h
      · subst h; subst hst; exact hnew hp
      · exact hall j h1 h hp
    · right
      refine ⟨t, hst, hat, by omega, ht0, htc, ?_, hfirst⟩
      intro j h1 h2 hp
      rcases Nat.eq_or_lt_of_le (Nat.le_of_lt_succ h2) with h | h
      · subst h; subst hst; exact hnew hp
      · exact hmx j h1 h hp
  unfold autocorrPeakStep
  rw [prefixArray_read _ c i hi (by omega), bind_ok_eq]
  by_cases h1 : c i > st.1
  · rw [if_pos h1, prefixArray_read _ c (i - 1) (by omega) (by omega), bind_ok_eq]
    by_cases h2 : c i > c (i - 1)
    · rw [if_pos h2]
      by_cases h3 : i + 1 < halfN size
      · rw [if_pos ((succ_lt_halfSize_iff size i).2 h3)]
        by_cases hw : i + 1 < lagLimit size
        · rw [prefixArray_read _ c (i + 1) hw (by omega), bind_ok_eq]
          by_cases h4 : c i > c (i + 1)
          · rw [if_pos h4]
            left
            refine ⟨_, rfl, Or.inr ⟨i, rfl, hai, by omega, lt_of_le_of_lt hbest.1 h1,
              ⟨h2, h3, h4⟩, ?_, ?_⟩⟩
            · intro j hj1 hj2 hp
              rcases Nat.eq_or_lt_of_le (Nat.le_of_lt_succ hj2) with h | h
              · rw [h]
              · exact le_trans (hbest.2 j hj1 h hp) h1.le
            · intro j hj1 hj2 hp
              exact lt_of_le_of_lt (hbest.2 j hj1 hj2 hp) h1
          · rw [if_neg h4]
            left
            exact ⟨st, rfl, keep (fun h => h4 h.2.2.2)⟩
        · right
          have hfull : lagLimit size = MAX_LAG := by
            unfold lagLimit at hw hi ⊢
            rcases le_total MAX_LAG (halfN size) with h | h
            · exact min_eq_left h
            · rw [min_eq_right h] at hw; omega
          have hr : LocalArray.read (prefixArray (lagLimit size) c) (i + 1)
              = .error .outOfBounds := by
            have : ¬ i + 1 < MAX_LAG := by omega
            simp [LocalArray.read, this]
          rw [hr, bind_error_eq]
          have hi1 : MAX_LAG - 1 = i := by omega
          have hi2 : MAX_LAG - 2 = i - 1 := by omega
          refine ⟨rfl, by omega, ?_, ?_⟩
          · rw [hi1]; exact lt_of_le_of_lt hbest.1 h1
          · rw [hi1, hi2]; exact h2
      · rw [if_neg (fun h => h3 ((succ_lt_halfSize_iff size i).1 h))]
        left
        exact ⟨st, rfl, keep (fun h => h3 h.2.2.1)⟩
    · rw [if_neg h2]
      left
      exact ⟨st, rfl, keep (fun h => h2 h.2.1)⟩
  · rw [if_neg h1]
    left
    exact ⟨st, rfl, keep (fun h => h1 h.1)⟩

theorem autocorrPeak_spec (c : Nat → K) (size : Int) :
    (∃ st, autocorrPeak (prefixArray (lagLimit size) c) size = .ok st ∧
      PeakInv c size MIN_LAG (max MIN_LAG (lagLimit size)) st)
    ∨ (autocorrPeak (prefixArray (lagLimit size) c) size = .error .outOfBounds ∧
      PeakOverrun c size) := by
  have hLM := lagLimit_le_max size
  have hmin := min_lag_eq
  unfold autocorrPeak
  exact forLoop_spec_fault (corrCond size) _ (lagLimit size) MIN_LAG (corrCond_iff size)
    (fun i st => PeakInv c size MIN_LAG i st) .outOfBounds (PeakOverrun c size)
    (fun i st h1 h2 h3 => autocorrPeakStep_inv c size MIN_LAG i st (by omega) h1 h2 h3)
    (MAX_LAG + 1) MIN_LAG (0, -1) (le_refl _) (by omega) (by omega)
    (Or.inl ⟨rfl, fun j h1 h2 => by omega⟩)

theorem corr_zero_pos (buffer : List K) (size : Int) (t : Nat)
    (ht : 0 < corr buffer size t) : 0 < corr buffer size 0 := by
  have hnn : 0 ≤ corr buffer size 0 := by
    unfold corr
    exact Finset.sum_nonneg (fun i _ => by simpa using mul_self_nonneg (sample buffer i))
  rcases lt_or_eq_of_le hnn with h | h
  · exact h
  · exfalso
    have hz : ∀ i ∈ Finset.range (halfN size), sample buffer i = 0 := by
      have h0 := (Finset.sum_eq_zero_iff_of_nonneg
        (fun i _ => by simpa using mul_self_nonneg (sample buffer i))).1 h.symm
      intro i hi
      have := h0 i hi
      simpa using this
    have : corr buffer size t = 0 := by
      unfold corr
      apply Finset.sum_eq_zero
      intro i hi
      rw [hz i hi, zero_mul]
    rw [this] at ht
    exact lt_irrefl _ ht

/-- The three possible outcomes of `detect_pitch_autocorr` on a window of at least
`size` samples. -/
theorem detect_pitch_autocorr_cases (buffer : List K) (size : Int)
    (hlen : size ≤ (buffer.length : Int)) :
    (NoPeak (corr buffer size) size ∧ detect_pitch_autocorr buffer size = .ok PitchResult.null)
    ∨ (∃ t, BestPeakAt (corr buffer size) size t ∧
        detect_pitch_autocorr buffer size = .ok (autocorrOutput buffer size t))
    ∨ (PeakOverrun (corr buffer size) size ∧
        detect_pitch_autocorr buffer size = .error .outOfBounds) := by
  have hLM := lagLimit_le_max size
  have hmin := min_lag_eq
  unfold detect_pitch_autocorr
  rw [autocorrFill_eq buffer size hlen, bind_ok_eq]
  rcases autocorrPeak_spec (corr buffer size) size with ⟨st, hst, hinv⟩ | ⟨herr, hbig⟩
  · rw [hst, bind_ok_eq]
    rcases hinv with ⟨hs, hall⟩ | ⟨t, hs, hat, hti, ht0, htc, hmx, hfirst⟩
    · left
      subst hs
      refine ⟨?_, by simp⟩
      intro j h1 h2 hp
      exact hall j h1 (lt_of_lt_of_le h2 (le_max_right _ _)) hp
    · right; left
      subst hs
      have htL : t < lagLimit size := by
        rcases le_total MIN_LAG (lagLimit size) with h | h
        · rw [max_eq_right h] at hti; exact hti
        · rw [max_eq_left h] at hti; omega
      refine ⟨t, ⟨hat, htL, ht0, htc, ?_, hfirst⟩, ?_⟩
      · intro j h1 h2 hp
        exact hmx j h1 (lt_of_lt_of_le h2 (le_max_right _ _)) hp
      · have hne : ¬ ((t : Int) = -1) := by omega
        simp only [hne, if_false]
        rw [prefixArray_read _ _ 0 (by omega) (by omega), bind_ok_eq]
        have h0 := corr_zero_pos buffer size t ht0
        unfold fdiv
        rw [if_neg (ne_of_gt h0), bind_ok_eq]
        simp [autocorrOutput]
  · right; right
    rw [herr, bind_error_eq]
    exact ⟨hbig, rfl⟩

end Autocorr

/-! ## `detect_pitch_yin`: the possible runs -/

section YinRuns

variable {K : Type} [LinearOrderedField K]

/-- The possible runs of `detect_pitch_yin` on a window of at least `size` samples:
a dip and its descent, a descent that leaves the array, a global minimum (whose
refinement may leave the array), or no lag at all. -/
theorem detect_pitch_yin_cases (buffer : List K) (size : Int) (threshold : K)
    (hlen : size ≤ (buffer.length : Int)) :
    (∃ k tau, DipAt (cmnd buffer size) size threshold k tau ∧
        detect_pitch_yin buffer size threshold = .ok (yinOutput buffer size tau))
    ∨ (∃ k, OverrunAt (cmnd buffer size) size threshold k ∧
        detect_pitch_yin buffer size threshold = .error .outOfBounds)
    ∨ (∃ tau, GlobalMinAt (cmnd buffer size) size threshold tau ∧
        (tau + 1 < halfN size → tau + 1 < lagLimit size) ∧
        detect_pitch_yin buffer size threshold = .ok (yinOutput buffer size tau))
    ∨ (∃ tau, GlobalMinAt (cmnd buffer size) size threshold tau ∧
        tau + 1 = MAX_LAG ∧ MAX_LAG < halfN size ∧
        detect_pitch_yin buffer size threshold = .error .outOfBounds)
    ∨ (NoLag (cmnd buffer size) size threshold ∧
        detect_pitch_yin buffer size threshold = .ok PitchResult.null) := by
  have hLM := lagLimit_le_max size
  have hmin := min_lag_eq
  rw [detect_pitch_yin_eq buffer size threshold hlen]
  rcases yinSelectTau_cases (cmnd buffer size) size threshold with
    ⟨k, tau, hd, hs⟩ | ⟨k, ho, hs⟩ | ⟨tau, hg, hs⟩ | ⟨hn, hs⟩
  · left
    refine ⟨k, tau, hd, ?_⟩
    obtain ⟨h1, h2, h3, h4, h5, h6, h7, h8⟩ := hd
    rw [hs, bind_ok_eq, if_neg (selected_guard size tau (by omega) h6)]
    exact yinResult_eq buffer _ size tau hlen (by omega) h6 (fun h => (h8 h).1)
  · right; left
    exact ⟨k, ho, by rw [hs, bind_error_eq]⟩
  · obtain ⟨h1, h2, h3, h4, h5, h6⟩ := hg
    by_cases hnext : tau + 1 < halfN size → tau + 1 < lagLimit size
    · right; right; left
      refine ⟨tau, ⟨h1, h2, h3, h4, h5, h6⟩, hnext, ?_⟩
      rw [hs, bind_ok_eq, if_neg (selected_guard size tau (by omega) h3)]
      exact yinResult_eq buffer _ size tau hlen (by omega) h3 hnext
    · right; right; right; left
      have hg1 : tau + 1 < halfN size := by
        by_contra h; exact hnext (fun h' => absurd h' h)
      have hg2 : ¬ tau + 1 < lagLimit size := fun h => hnext (fun _ => h)
      have hfull : lagLimit size = MAX_LAG := by
        unfold lagLimit at hg2 h3 ⊢
        rcases le_total MAX_LAG (halfN size) with h | h
        · exact min_eq_left h
        · rw [min_eq_right h] at hg2; omega
      refine ⟨tau, ⟨h1, h2, h3, h4, h5, h6⟩, by omega, by omega, ?_⟩
      rw [hs, bind_ok_eq, if_neg (selected_guard size tau (by omega) h3)]
      unfold yinResult
      rw [yinBetterTau_overrun _ size tau (by omega) h3 hg1 hg2, bind_error_eq]
  · right; right; right; right
    refine ⟨hn, ?_⟩
    rw [hs, bind_ok_eq]
    simp

theorem halfN_le_max_of_halfSize (size : Int) (h : halfSize size ≤ (MAX_LAG : Int)) :
    halfN size ≤ MAX_LAG := by
  unfold halfN; omega

theorem halfSize_le_of_size_le (size : Int) (h : size ≤ 2 * (MAX_LAG : Int)) :
    halfSize size ≤ (MAX_LAG : Int) := by
  have hmax := max_lag_eq
  rcases halfSize_le size with h1 | h1 <;> omega

theorem lagLimit_eq_half (size : Int) (h : halfN size ≤ MAX_LAG) : lagLimit size = halfN size := by
  unfold lagLimit; exact min_eq_right h

theorem clarityValue_nonneg (buffer : List K) (size : Int) : 0 ≤ clarityValue buffer size := by
  unfold clarityValue; exact le_max_left _ _

theorem clarityValue_le_one (buffer : List K) (size : Int) (hs : 0 < size) :
    clarityValue buffer size ≤ 1 := by
  unfold clarityValue
  apply max_le zero_le_one
  have h1 : (0 : K) < (size : K) := by exact_mod_cast hs
  have h2 : (0 : K) ≤ ((crossingCount buffer (size - 1).toNat : Nat) : K) / (size : K) :=
    div_nonneg (Nat.cast_nonneg _) h1.le
  linarith

theorem size_pos_of_lt_lagLimit (size : Int) (tau : Nat) (h : tau < lagLimit size) : 0 < size := by
  have hLH := lagLimit_le_half size
  have hc := halfN_cast size (by omega)
  rcases halfSize_le size with h1 | h1 <;> omega

theorem yinOutput_bounds (buffer : List K) (size : Int) (tau : Nat) (hL : tau < lagLimit size)
    (h1 : cmnd buffer size tau ≤ 1) :
    0 ≤ (yinOutput buffer size tau).confidence ∧ (yinOutput buffer size tau).confidence ≤ 1 ∧
    0 ≤ (yinOutput buffer size tau).clarity ∧ (yinOutput buffer size tau).clarity ≤ 1 := by
  have h0 := cmnd_nonneg buffer size tau
  have hs := size_pos_of_lt_lagLimit size tau hL
  refine ⟨?_, ?_, clarityValue_nonneg buffer size, clarityValue_le_one buffer size hs⟩
  · show 0 ≤ 1 - cmnd buffer size tau
    linarith
  · show 1 - cmnd buffer size tau ≤ 1
    linarith

theorem null_bounds :
    0 ≤ (PitchResult.null : PitchResult K).confidence ∧
    (PitchResult.null : PitchResult K).confidence ≤ 1 ∧
    0 ≤ (PitchResult.null : PitchResult K).clarity ∧
    (PitchResult.null : PitchResult K).clarity ≤ 1 :=
  ⟨le_refl _, zero_le_one, le_refl _, zero_le_one⟩

theorem autocorrOutput_bounds (buffer : List K) (size : Int) (t : Nat)
    (h : BestPeakAt (corr buffer size) size t) :
    0 ≤ (autocorrOutput buffer size t).confidence ∧ (autocorrOutput buffer size t).confidence ≤ 1 ∧
    0 ≤ (autocorrOutput buffer size t).clarity ∧ (autocorrOutput buffer size t).clarity ≤ 1 := by
  have h0 := corr_zero_pos buffer size t h.2.2.1
  refine ⟨?_, min_le_right _ _, le_refl _, zero_le_one⟩
  show 0 ≤ min (corr buffer size t / corr buffer size 0) 1
  exact le_min (div_nonneg h.2.2.1.le h0.le) zero_le_one

end YinRuns

/-! ## Silent windows and short windows -/

section Silence

variable {K : Type} [LinearOrderedField K]

theorem sample_of_zero (buffer : List K) (hz : ∀ v ∈ buffer, v = 0) (i : Nat) :
    sample buffer i = 0 := by
  unfold sample
  by_cases h : i < buffer.length
  · rw [List.getD_eq_getElem buffer 0 h]
    exact hz _ (List.getElem_mem h)
  · rw [List.getD_eq_default buffer 0 (by omega)]

theorem yinD_of_zero (buffer : List K) (hz : ∀ v ∈ buffer, v = 0) (size : Int) (tau : Nat) :
    yinD buffer size tau = 0 := by
  unfold yinD
  apply Finset.sum_eq_zero
  intro i _
  rw [sample_of_zero buffer hz, sample_of_zero buffer hz]
  simp

theorem cmnd_of_zero (buffer : List K) (hz : ∀ v ∈ buffer, v = 0) (size : Int) (tau : Nat) :
    cmnd buffer size tau = 1 := by
  have hS : yinS buffer size tau = 0 := by
    unfold yinS
    exact Finset.sum_eq_zero (fun j _ => yinD_of_zero buffer hz size j)
  unfold cmnd
  rw [if_pos hS]
  simp

theorem corr_of_zero (buffer : List K) (hz : ∀ v ∈ buffer, v = 0) (size : Int) (lag : Nat) :
    corr buffer size lag = 0 := by
  unfold corr
  apply Finset.sum_eq_zero
  intro i _
  rw [sample_of_zero buffer hz, zero_mul]

/-- When no lag of the search range has a CMND value below `min(threshold, 1)`,
`detect_pitch_yin` returns the null result. -/
theorem detect_pitch_yin_null (buffer : List K) (size : Int) (threshold : K)
    (hlen : size ≤ (buffer.length : Int))
    (h1 : ∀ j, MIN_LAG ≤ j → j < lagLimit size → 1 ≤ cmnd buffer size j)
    (h2 : ∀ j, MIN_LAG ≤ j → j < lagLimit size → threshold ≤ cmnd buffer size j) :
    detect_pitch_yin buffer size threshold = .ok PitchResult.null := by
  rcases detect_pitch_yin_cases buffer size threshold hlen with
    ⟨k, tau, hd, hr⟩ | ⟨k, ho, hr⟩ | ⟨tau, hg, _, hr⟩ | ⟨tau, hg, _, hbig, hr⟩ | ⟨hn, hr⟩
  · exact absurd hd.2.2.1 (not_lt.2 (h2 k hd.1 hd.2.1))
  · exact absurd ho.2.2.1 (not_lt.2 (h2 k ho.1 ho.2.1))
  · exact absurd hg.2.2.2.1 (not_lt.2 (h1 tau hg.2.1 hg.2.2.1))
  · exact absurd hg.2.2.2.1 (not_lt.2 (h1 tau hg.2.1 hg.2.2.1))
  · exact hr

/-- When no lag of the search range has a positive correlation,
`detect_pitch_autocorr` returns the null result. -/
theorem detect_pitch_autocorr_null (buffer : List K) (size : Int)
    (hlen : size ≤ (buffer.length : Int))
    (h : ∀ j, MIN_LAG ≤ j → j < lagLimit size → corr buffer size j ≤ 0) :
    detect_pitch_autocorr buffer size = .ok PitchResult.null := by
  have hLM := lagLimit_le_max size
  have hmin := min_lag_eq
  have hmax := max_lag_eq
  rcases detect_pitch_autocorr_cases buffer size hlen with ⟨_, hr⟩ | ⟨t, hb, hr⟩ | ⟨ho, hr⟩
  · exact hr
  · exact absurd hb.2.2.1 (not_lt.2 (h t hb.1 hb.2.1))
  · have hfull : lagLimit size = MAX_LAG := by
      unfold lagLimit; exact min_eq_left (le_of_lt ho.1)
    exact absurd ho.2.1 (not_lt.2 (h (MAX_LAG - 1) (by omega) (by omega)))

theorem rms_sum_ok (buffer : List K) (n : Nat) (hn : n ≤ buffer.length) :
    sumLoop (rmsTerm buffer) n
      = .ok (∑ i in Finset.range n, sample buffer i * sample buffer i) := by
  apply sumLoop_ok
  intro i hi
  unfold rmsTerm
  rw [readBuf_of_lt buffer i (by omega), bind_ok_eq]

theorem lagLimit_le_of_halfSize_le (size : Int) (h : halfSize size ≤ (MIN_LAG : Int)) :
    lagLimit size ≤ MIN_LAG := by
  have h1 := lagLimit_le_half size
  unfold halfN at h1
  omega

end Silence

/-! ## Further outcomes of the two searches -/

section Outcomes

variable {K : Type} [LinearOrderedField K]

/-- When no lag of the search range is below `min(threshold, 1)`, the search of
lines 48-70 leaves `tau == -1`. -/
theorem yinSelectTau_none (c : Nat → K) (size : Int) (threshold : K)
    (h1 : ∀ j, MIN_LAG ≤ j → j < lagLimit size → 1 ≤ c j)
    (h2 : ∀ j, MIN_LAG ≤ j → j < lagLimit size → threshold ≤ c j) :
    yinSelectTau (prefixArray (max 1 (lagLimit size)) c) size threshold = .ok (-1) := by
  rcases yinSelectTau_cases c size threshold with
    ⟨k, tau, hd, hs⟩ | ⟨k, ho, hs⟩ | ⟨tau, hg, hs⟩ | ⟨hn, hs⟩
  · exact absurd hd.2.2.1 (not_lt.2 (h2 k hd.1 hd.2.1))
  · exact absurd ho.2.2.1 (not_lt.2 (h2 k ho.1 ho.2.1))
  · exact absurd hg.2.2.2.1 (not_lt.2 (h1 tau hg.2.1 hg.2.2.1))
  · exact hs

/-- When no lag of the search range is below the threshold but one is below `1`, the
search of lines 48-70 selects the first global minimum of the range. -/
theorem yinSelectTau_globalMin (c : Nat → K) (size : Int) (threshold : K)
    (hno : ∀ j, MIN_LAG ≤ j → j < lagLimit size → ¬ c j < threshold)
    (hex : ∃ j, MIN_LAG ≤ j ∧ j < lagLimit size ∧ c j < 1) :
    ∃ tau, GlobalMinAt c size threshold tau ∧
      yinSelectTau (prefixArray (max 1 (lagLimit size)) c) size threshold = .ok (tau : Int) := by
  rcases yinSelectTau_cases c size threshold with
    ⟨k, tau, hd, hs⟩ | ⟨k, ho, hs⟩ | ⟨tau, hg, hs⟩ | ⟨hn, hs⟩
  · exact absurd hd.2.2.1 (hno k hd.1 hd.2.1)
  · exact absurd ho.2.2.1 (hno k ho.1 ho.2.1)
  · exact ⟨tau, hg, hs⟩
  · obtain ⟨j, hj1, hj2, hj3⟩ := hex
    exact absurd hj3 (not_lt.2 (hn.2 j hj1 hj2))

theorem yinOutput_ne_null (buffer : List K) (size : Int) (tau : Nat)
    (h : cmnd buffer size tau < 1) : yinOutput buffer size tau ≠ PitchResult.null := by
  intro heq
  have h1 : (yinOutput buffer size tau).confidence = (PitchResult.null : PitchResult K).confidence := by
    rw [heq]
  have h2 : 1 - cmnd buffer size tau = 0 := h1
  linarith

/-- The three possible outcomes of the peak scan of lines 122-134. -/
theorem autocorrPeak_cases (c : Nat → K) (size : Int) :
    (NoPeak c size ∧ autocorrPeak (prefixArray (lagLimit size) c) size = .ok (0, -1))
    ∨ (∃ t : Nat, BestPeakAt c size t ∧
        autocorrPeak (prefixArray (lagLimit size) c) size = .ok (c t, (t : Int)))
    ∨ (PeakOverrun c size ∧
        autocorrPeak (prefixArray (lagLimit size) c) size = .error .outOfBounds) := by
  have hmin := min_lag_eq
  rcases autocorrPeak_spec c size with ⟨st, hst, hinv⟩ | ⟨herr, hbig⟩
  · rcases hinv with ⟨hs, hall⟩ | ⟨t, hs, hat, hti, ht0, htc, hmx, hfirst⟩
    · left
      subst hs
      exact ⟨fun j h1 h2 hp => hall j h1 (lt_of_lt_of_le h2 (le_max_right _ _)) hp, hst⟩
    · right; left
      subst hs
      have htL : t < lagLimit size := by
        rcases le_total MIN_LAG (lagLimit size) with h | h
        · rw [max_eq_right h] at hti; exact hti
        · rw [max_eq_left h] at hti; omega
      exact ⟨t, ⟨hat, htL, ht0, htc,
        fun j h1 h2 hp => hmx j h1 (lt_of_lt_of_le h2 (le_max_right _ _)) hp, hfirst⟩, hst⟩
  · right; right
    exact ⟨hbig, herr⟩

theorem peakCandidate_lt_lagLimit (c : Nat → K) (size : Int) (j : Nat)
    (hN : halfN size ≤ MAX_LAG) (hp : PeakCandidate c size j) : j < lagLimit size := by
  rw [lagLimit_eq_half size hN]
  have := hp.2.1
  omega

end Outcomes

/-! ## The parabolic refinement at a local minimum -/

section Refinement

variable {K : Type} [LinearOrderedField K]

/-- At a lag where the curve has a local minimum the refinement moves the lag by at
most half a sample. -/
theorem betterTau_close (c : Nat → K) (size : Int) (tau : Nat)
    (h0 : c tau ≤ c (tau - 1)) (h2 : tau + 1 < halfN size → c tau ≤ c (tau + 1)) :
    |betterTau c size tau - (tau : K)| ≤ 1 / 2 := by
  unfold betterTau
  by_cases hg : tau + 1 < halfN size
  · rw [if_pos hg]
    have h2' := h2 hg
    by_cases hd : |2 * (2 * c tau - c (tau + 1) - c (tau - 1))| > 1 / 10000
    · rw [if_pos hd, add_sub_cancel_left, abs_div]
      have hpos : (0 : K) < |2 * (2 * c tau - c (tau + 1) - c (tau - 1))| :=
        lt_trans (by positivity) hd
      rw [div_le_iff₀ hpos]
      have hden : |2 * (2 * c tau - c (tau + 1) - c (tau - 1))|
          = 2 * ((c (tau + 1) - c tau) + (c (tau - 1) - c tau)) := by
        rw [abs_of_nonpos (by linarith)]; ring
      rw [hden, abs_le]
      constructor <;> linarith
    · rw [if_neg hd]; simp
  · rw [if_neg hg]; simp

theorem betterTau_pos_of_close (c : Nat → K) (size : Int) (tau : Nat) (h1 : 1 ≤ tau)
    (h : |betterTau c size tau - (tau : K)| ≤ 1 / 2) : 0 < betterTau c size tau := by
  have h2 : (1 : K) ≤ (tau : K) := by exact_mod_cast h1
  have h3 := (abs_le.1 h).1
  linarith

theorem dip_local_min (c : Nat → K) (size : Int) (threshold : K) (k tau : Nat)
    (hd : DipAt c size threshold k tau) (h : MIN_LAG < tau) :
    c tau ≤ c (tau - 1) ∧ (tau + 1 < halfN size → c tau ≤ c (tau + 1)) := by
  obtain ⟨h1, h2, h3, h4, h5, h6, h7, h8⟩ := hd
  refine ⟨?_, fun hn => (h8 hn).2⟩
  rcases Nat.eq_or_lt_of_le h5 with hk | hk
  · subst hk
    have := h4 (k - 1) (by omega) (by omega)
    exact le_trans h3.le (not_lt.1 this)
  · have := h7 (tau - 1) (by omega) (by omega)
    have e : tau - 1 + 1 = tau := by omega
    rw [e] at this
    exact this.le

theorem globalMin_local_min (c : Nat → K) (size : Int) (threshold : K) (tau : Nat)
    (hg : GlobalMinAt c size threshold tau) (h : MIN_LAG < tau)
    (hnext : tau + 1 < halfN size → tau + 1 < lagLimit size) :
    c tau ≤ c (tau - 1) ∧ (tau + 1 < halfN size → c tau ≤ c (tau + 1)) := by
  obtain ⟨h1, h2, h3, h4, h5, h6⟩ := hg
  exact ⟨(h6 (tau - 1) (by omega) (by omega)).le, fun hn => h5 (tau + 1) (by omega) (hnext hn)⟩

theorem yinOutput_pitch_pos (buffer : List K) (size : Int) (tau : Nat)
    (h : 0 < betterTau (cmnd buffer size) size tau) :
    0 < (yinOutput buffer size tau).pitch_hz := by
  show 0 < (SAMPLE_RATE : K) / betterTau (cmnd buffer size) size tau
  exact div_pos (by simp [SAMPLE_RATE]) h

theorem lt_halfSize_of_lt_lagLimit (size : Int) (tau : Nat) (h : tau < lagLimit size) :
    (tau : Int) < halfSize size :=
  (lt_halfSize_iff size tau).2 (lt_of_lt_of_le h (lagLimit_le_half size))

theorem max_lag_lt_halfSize (size : Int) (h : MAX_LAG < halfN size) :
    (MAX_LAG : Int) < halfSize size :=
  (lt_halfSize_iff size MAX_LAG).2 h

/-- What `detect_pitch_yin` says about the sign of `pitch_hz` when it selected `tau`. -/
theorem yin_pitch_facts (buffer : List K) (size : Int) (tau : Nat) (h48 : MIN_LAG ≤ tau)
    (hloc : MIN_LAG < tau → cmnd buffer size tau ≤ cmnd buffer size (tau - 1) ∧
      (tau + 1 < halfN size → cmnd buffer size tau ≤ cmnd buffer size (tau + 1))) :
    (yinOutput buffer size tau).pitch_hz
        = (48000 : K) / betterTau (cmnd buffer size) size tau ∧
    (MIN_LAG < tau →
      |betterTau (cmnd buffer size) size tau - (tau : K)| ≤ 1 / 2 ∧
      0 < (yinOutput buffer size tau).pitch_hz) ∧
    (betterTau (cmnd buffer size) size tau = (tau : K) →
      0 < (yinOutput buffer size tau).pitch_hz) := by
  have hmin := min_lag_eq
  refine ⟨by simp [yinOutput, SAMPLE_RATE], ?_, ?_⟩
  · intro h
    have hc := betterTau_close (cmnd buffer size) size tau (hloc h).1 (hloc h).2
    exact ⟨hc, yinOutput_pitch_pos buffer size tau
      (betterTau_pos_of_close _ size tau (by omega) hc)⟩
  · intro h
    apply yinOutput_pitch_pos
    rw [h]
    have : (1 : K) ≤ (tau : K) := by exact_mod_cast (by omega : 1 ≤ tau)
    linarith

/-- The result of `detect_pitch_autocorr` is the null result or lies on the lag grid
`48000 / t`, with a confidence in `(0, 1]`. -/
theorem autocorr_grid (buffer : List K) (size : Int) (hlen : size ≤ (buffer.length : Int)) :
    (∃ r, detect_pitch_autocorr buffer size = .ok r ∧
      (r = PitchResult.null ∨ ∃ t : Nat, MIN_LAG ≤ t ∧ (t : Int) + 1 < halfSize size ∧
        r.pitch_hz = (48000 : K) / (t : K) ∧ 0 < r.confidence ∧ r.confidence ≤ 1))
    ∨ ((MAX_LAG : Int) < halfSize size ∧
        detect_pitch_autocorr buffer size = .error .outOfBounds) := by
  rcases detect_pitch_autocorr_cases buffer size hlen with ⟨_, hr⟩ | ⟨t, hb, hr⟩ | ⟨ho, hr⟩
  · exact Or.inl ⟨_, hr, Or.inl rfl⟩
  · left
    refine ⟨_, hr, Or.inr ⟨t, hb.1, (succ_lt_halfSize_iff size t).2 hb.2.2.2.1.2.1, ?_, ?_, ?_⟩⟩
    · simp [autocorrOutput, SAMPLE_RATE]
    · show 0 < min (corr buffer size t / corr buffer size 0) 1
      exact lt_min (div_pos hb.2.2.1 (corr_zero_pos buffer size t hb.2.2.1)) zero_lt_one
    · exact min_le_right _ _
  · exact Or.inr ⟨max_lag_lt_halfSize size ho.1, hr⟩

theorem lt_lagLimit_iff (size : Int) (hmax : halfSize size ≤ (MAX_LAG : Int)) (j : Nat) :
    j < lagLimit size ↔ (j : Int) < halfSize size := by
  rw [lagLimit_eq_half size (halfN_le_max_of_halfSize size hmax), lt_halfSize_iff]

theorem yinD_of_periodic (buffer : List K) (size : Int) (P : Nat)
    (hper : ∀ i : Nat, (i : Int) < halfSize size → sample buffer (i + P) = sample buffer i) :
    yinD buffer size P = 0 := by
  unfold yinD
  apply Finset.sum_eq_zero
  intro i hi
  rw [hper i ((lt_halfSize_iff size i).2 (Finset.mem_range.1 hi))]
  simp

theorem cmnd_of_periodic (buffer : List K) (size : Int) (P : Nat)
    (hper : ∀ i : Nat, (i : Int) < halfSize size → sample buffer (i + P) = sample buffer i) :
    cmnd buffer size P = 0 ∨ cmnd buffer size P = 1 := by
  unfold cmnd
  rw [yinD_of_periodic buffer size P hper]
  split_ifs
  · exact Or.inr rfl
  · exact Or.inr rfl
  · left; simp

theorem yinS_pos_of_term (buffer : List K) (size : Int) (P j : Nat) (h1 : 1 ≤ j) (h2 : j ≤ P)
    (hj : 0 < yinD buffer size j) : 0 < yinS buffer size P := by
  unfold yinS
  have hmem : j ∈ Finset.Icc 1 P := Finset.mem_Icc.2 ⟨h1, h2⟩
  exact lt_of_lt_of_le hj
    (Finset.single_le_sum (fun i _ => yinD_nonneg buffer size i) hmem)

theorem yinD_pos_of_term (buffer : List K) (size : Int) (tau i : Nat) (hi : i < halfN size)
    (hne : sample buffer i ≠ sample buffer (i + tau)) : 0 < yinD buffer size tau := by
  unfold yinD
  have hmem : i ∈ Finset.range (halfN size) := Finset.mem_range.2 hi
  have hpos : 0 < (sample buffer i - sample buffer (i + tau)) ^ 2 :=
    lt_of_le_of_ne (sq_nonneg _) (Ne.symm (pow_ne_zero 2 (sub_ne_zero.2 hne)))
  exact lt_of_lt_of_le hpos
    (Finset.single_le_sum (fun j _ => sq_nonneg (sample buffer j - sample buffer (j + tau))) hmem)

theorem cmnd_pos_of_yinD (buffer : List K) (size : Int) (tau : Nat)
    (hd : 0 < yinD buffer size tau) : 0 < cmnd buffer size tau := by
  unfold cmnd
  split_ifs with h0 hS
  · exact zero_lt_one
  · exact zero_lt_one
  · have hS1 : 0 < yinS buffer size tau := lt_of_le_of_ne (yinS_nonneg _ _ _) (Ne.symm hS)
    have ht : (0 : K) < (tau : K) := by exact_mod_cast Nat.pos_of_ne_zero h0
    exact div_pos (mul_pos hd ht) hS1

/-- On a window that repeats with the period `MIN_LAG + 1 = 49` over the lags read and
whose difference function is positive at `MIN_LAG`, the search of lines 48-70 selects
the lag `49`, whatever the positive threshold: `d'(48) > 0 = d'(49) <= d'(50)`. -/
theorem select_of_period_above_floor (buffer : List K) (size : Int) (threshold : K)
    (hmax : halfSize size ≤ (MAX_LAG : Int)) (hP : (49 : Int) < halfSize size)
    (hper : ∀ i : Nat, (i : Int) < halfSize size → sample buffer (i + 49) = sample buffer i)
    (hd : 0 < yinD buffer size 48) (ht : 0 < threshold) :
    yinSelectTau (prefixArray (max 1 (lagLimit size)) (cmnd buffer size)) size threshold
      = .ok ((49 : Nat) : Int) := by
  have hmin := min_lag_eq
  have hN := halfN_le_max_of_halfSize size hmax
  have hL := lagLimit_eq_half size hN
  have hPL : 49 < lagLimit size := (lt_lagLimit_iff size hmax 49).2 (by exact_mod_cast hP)
  have hS := yinS_pos_of_term buffer size 49 48 (by omega) (by omega) hd
  have hzero : cmnd buffer size 49 = 0 := by
    unfold cmnd
    rw [if_neg (by omega), if_neg (ne_of_gt hS), yinD_of_periodic buffer size 49 hper]
    simp
  have h48 : 0 < cmnd buffer size 48 := cmnd_pos_of_yinD buffer size 48 hd
  have hlt : cmnd buffer size 49 < threshold := by rw [hzero]; exact ht
  rcases yinSelectTau_cases (cmnd buffer size) size threshold with
    ⟨k, tau, hdip, hs⟩ | ⟨k, ho, hs⟩ | ⟨tau, hg, hs⟩ | ⟨hn, hs⟩
  · obtain ⟨h1, h2, h3, h4, h5, h6, h7, h8⟩ := hdip
    have hk : k ≤ 49 := by
      by_contra hne
      exact h4 49 (by omega) (by omega) hlt
    have htle : tau ≤ 49 := by
      by_contra hne
      have h := h7 49 hk (by omega)
      rw [hzero] at h
      exact absurd h (not_lt.2 (cmnd_nonneg buffer size (49 + 1)))
    have htge : 49 ≤ tau := by
      by_contra hne
      have ht48 : tau = 48 := by omega
      rw [ht48] at h8
      have h := (h8 (by omega)).2
      have e : cmnd buffer size (48 + 1) = 0 := hzero
      rw [e] at h
      exact absurd h48 (not_lt.2 h)
    have e : tau = 49 := by omega
    rw [hs, e]
  · exact absurd ho.2.2.2.2.1 (by omega)
  · exact absurd hlt (hg.1 49 (by omega) hPL)
  · exact absurd hlt (hn.1 49 (by omega) hPL)

end Refinement

/-! ## The rounded kernels in closed form -/

section Rounded

variable {K : Type} [LinearOrderedField K]

theorem isRounding_id : IsRounding (fun x : K => x) :=
  ⟨rfl, rfl, fun _ _ h => h, fun _ => rfl, fun a b _ _ h => sub_ne_zero.2 h⟩

theorem IsRounding.nonneg {rnd : K → K} (h : IsRounding rnd) (a : K) (ha : 0 ≤ a) :
    0 ≤ rnd a := by
  have := h.mono 0 a ha
  rw [h.zero] at this
  exact this

theorem sumLoopR_ok (rnd : K → K) (term : Nat → Except Fault K) (f : Nat → K) :
    ∀ n, (∀ i, i < n → term i = .ok (f i)) → sumLoopR rnd term n = .ok (sumR rnd f n) := by
  intro n
  induction n with
  | zero => intro _; rfl
  | succ n ih =>
    intro h
    have h1 := ih (fun i hi => h i (Nat.lt_succ_of_lt hi))
    simp [sumLoopR, sumR, h1, h n (Nat.lt_succ_self n)]

theorem sumR_zero (rnd : K → K) (h0 : rnd 0 = 0) (f : Nat → K) :
    ∀ n, (∀ i, i < n → f i = 0) → sumR rnd f n = 0 := by
  intro n
  induction n with
  | zero => intro _; rfl
  | succ n ih =>
    intro h
    unfold sumR
    rw [ih (fun i hi => h i (Nat.lt_succ_of_lt hi)), h n (Nat.lt_succ_self n), add_zero, h0]

theorem sumR_nonneg {rnd : K → K} (h : IsRounding rnd) (f : Nat → K) (hf : ∀ i, 0 ≤ f i) :
    ∀ n, 0 ≤ sumR rnd f n := by
  intro n
  induction n with
  | zero => exact le_refl _
  | succ n ih =>
    unfold sumR
    exact h.nonneg _ (add_nonneg ih (hf n))

theorem sumR_fixed {rnd : K → K} (h : IsRounding rnd) (f : Nat → K) :
    ∀ n, rnd (sumR rnd f n) = sumR rnd f n := by
  intro n
  cases n with
  | zero => exact h.zero
  | succ n => unfold sumR; exact h.idem _

theorem sumR_id (f : Nat → K) : ∀ n, sumR (fun x : K => x) f n = ∑ i in Finset.range n, f i := by
  intro n
  induction n with
  | zero => simp [sumR]
  | succ n ih => simp [sumR, ih, Finset.sum_range_succ]

theorem yinDR_id (buffer : List K) (size : Int) (tau : Nat) :
    yinDR (fun x : K => x) buffer size tau = yinD buffer size tau := by
  unfold yinDR yinD
  rw [sumR_id]
  apply Finset.sum_congr rfl
  intro i _
  ring

theorem yinDR_nonneg {rnd : K → K} (h : IsRounding rnd) (buffer : List K) (size : Int)
    (tau : Nat) : 0 ≤ yinDR rnd buffer size tau := by
  unfold yinDR
  exact sumR_nonneg h _ (fun i => h.nonneg _ (mul_self_nonneg _)) _

theorem yinDR_fixed {rnd : K → K} (h : IsRounding rnd) (buffer : List K) (size : Int)
    (tau : Nat) : rnd (yinDR rnd buffer size tau) = yinDR rnd buffer size tau := by
  unfold yinDR
  exact sumR_fixed h _ _

theorem yinSR_nonneg {rnd : K → K} (h : IsRounding rnd) (buffer : List K) (size : Int) :
    ∀ tau, 0 ≤ yinSR rnd buffer size tau := by
  intro tau
  induction tau with
  | zero => exact le_refl _
  | succ t ih =>
    unfold yinSR
    exact h.nonneg _ (add_nonneg ih (yinDR_nonneg h buffer size _))

theorem yinSR_fixed {rnd : K → K} (h : IsRounding rnd) (buffer : List K) (size : Int) :
    ∀ tau, rnd (yinSR rnd buffer size tau) = yinSR rnd buffer size tau := by
  intro tau
  cases tau with
  | zero => exact h.zero
  | succ t => unfold yinSR; exact h.idem _

/-- The stored running sum is at least every stored difference it has accumulated. -/
theorem yinDR_le_yinSR {rnd : K → K} (h : IsRounding rnd) (buffer : List K) (size : Int)
    (j : Nat) (hj : 1 ≤ j) : ∀ tau, j ≤ tau → yinDR rnd buffer size j ≤ yinSR rnd buffer size tau := by
  intro tau
  induction tau with
  | zero => intro h0; omega
  | succ t ih =>
    intro hjt
    unfold yinSR
    rcases Nat.eq_or_lt_of_le hjt with h1 | h1
    · rw [h1]
      have := h.mono (yinDR rnd buffer size (t + 1))
        (yinSR rnd buffer size t + yinDR rnd buffer size (t + 1))
        (le_add_of_nonneg_left (yinSR_nonneg h buffer size t))
      rw [yinDR_fixed h] at this
      exact this
    · have h2 := ih (by omega)
      have := h.mono (yinSR rnd buffer size t)
        (yinSR rnd buffer size t + yinDR rnd buffer size (t + 1))
        (le_add_of_nonneg_right (yinDR_nonneg h buffer size _))
      rw [yinSR_fixed h] at this
      exact le_trans h2 this

theorem cmndR_fixed {rnd : K → K} (h : IsRounding rnd) (buffer : List K) (size : Int)
    (tau : Nat) : rnd (cmndR rnd buffer size tau) = cmndR rnd buffer size tau := by
  unfold cmndR
  split_ifs
  · exact h.one
  · exact h.idem _
  · exact h.one

theorem yinDiffTermR_ok (rnd : K → K) (buffer : List K) (tau i : Nat)
    (h : i + tau < buffer.length) :
    yinDiffTermR rnd buffer tau i
      = .ok (rnd (rnd (sample buffer i - sample buffer (i + tau))
          * rnd (sample buffer i - sample buffer (i + tau)))) := by
  unfold yinDiffTermR
  rw [readBuf_of_lt buffer i (by omega), bind_ok_eq, readBuf_of_lt buffer (i + tau) h, bind_ok_eq]

theorem yinDiffR_sum_ok (rnd : K → K) (buffer : List K) (size : Int) (tau : Nat)
    (hlen : size ≤ (buffer.length : Int)) (htau : tau < lagLimit size) :
    sumLoopR rnd (yinDiffTermR rnd buffer tau) (halfN size)
      = .ok (yinDR rnd buffer size tau) := by
  unfold yinDR
  apply sumLoopR_ok
  intro i hi
  apply yinDiffTermR_ok
  have h1 := lagLimit_le_half size
  rcases two_halfN_le size buffer hlen with h | h <;> omega

theorem yinDiffR_eq (rnd : K → K) (buffer : List K) (size : Int)
    (hlen : size ≤ (buffer.length : Int)) :
    yinDiffR rnd buffer size
      = .ok (prefixArray (max 1 (lagLimit size)) (diffCellR rnd buffer size)) := by
  unfold yinDiffR
  have h0 : LocalArray.write (LocalArray.empty : LocalArray K) 0 1
      = .ok (prefixArray 1 (diffCellR rnd buffer size)) := by
    rw [← prefixArray_zero (diffCellR rnd buffer size)]
    exact prefixArray_write 0 _ 1 (by decide) (by simp [diffCellR])
  rw [h0, bind_ok_eq]
  obtain ⟨s', hs, hinv⟩ := forLoop_spec (lagCond size)
    (fun tau diff =>
        (sumLoopR rnd (yinDiffTermR rnd buffer tau) (halfSize size).toNat).bind (fun sum =>
          LocalArray.write diff tau sum))
    (lagLimit size) 1 (lagCond_iff size)
    (fun i arr => arr = prefixArray i (diffCellR rnd buffer size))
    (by
      intro i arr h1 hL hinv
      refine ⟨prefixArray (i + 1) (diffCellR rnd buffer size), ?_, rfl⟩
      have hs := yinDiffR_sum_ok rnd buffer size i hlen hL
      unfold halfN at hs
      simp only [hs, bind_ok_eq, hinv]
      apply prefixArray_write
      · have := lagLimit_le_max size; omega
      · have : i ≠ 0 := by omega
        simp [diffCellR, this])
    (MAX_LAG + 1) 1 (prefixArray 1 (diffCellR rnd buffer size)) (le_refl 1)
    (by have := lagLimit_le_max size; omega) (by omega) rfl
  rw [hs, hinv]

theorem yinCumulativeStepR_ok (rnd : K → K) (buffer : List K) (size : Int) (i : Nat)
    (h1 : 1 ≤ i) (hL : i < lagLimit size) :
    yinCumulativeStepR rnd (prefixArray (max 1 (lagLimit size)) (diffCellR rnd buffer size)) i
        (yinSR rnd buffer size (i - 1), prefixArray i (cmndR rnd buffer size))
      = .ok (yinSR rnd buffer size i, prefixArray (i + 1) (cmndR rnd buffer size)) := by
  have hmax : i < MAX_LAG := by have := lagLimit_le_max size; omega
  have hne : i ≠ 0 := by omega
  unfold yinCumulativeStepR
  rw [prefixArray_read _ _ i (lt_of_lt_of_le hL (le_max_right _ _)) hmax, bind_ok_eq]
  have hd : diffCellR rnd buffer size i = yinDR rnd buffer size i := by simp [diffCellR, hne]
  have hS : rnd (yinSR rnd buffer size (i - 1) + yinDR rnd buffer size i)
      = yinSR rnd buffer size i := by
    obtain ⟨m, rfl⟩ : ∃ m, i = m + 1 := ⟨i - 1, by omega⟩
    simp [yinSR]
  simp only [hd, hS]
  by_cases hpos : yinSR rnd buffer size i > 0
  · rw [if_pos hpos]
    have hnz : yinSR rnd buffer size i ≠ 0 := ne_of_gt hpos
    unfold fdivR
    rw [if_neg hnz, bind_ok_eq]
    rw [prefixArray_write i _ _ hmax (by simp [cmndR, hne, hpos]), bind_ok_eq]
  · rw [if_neg hpos]
    rw [prefixArray_write i _ _ hmax (by simp [cmndR, hne, hpos]), bind_ok_eq]

theorem yinCumulativeR_eq (rnd : K → K) (buffer : List K) (size : Int) :
    yinCumulativeR rnd (prefixArray (max 1 (lagLimit size)) (diffCellR rnd buffer size)) size
      = .ok (prefixArray (max 1 (lagLimit size)) (cmndR rnd buffer size)) := by
  unfold yinCumulativeR
  have h0 : LocalArray.write (LocalArray.empty : LocalArray K) 0 1
      = .ok (prefixArray 1 (cmndR rnd buffer size)) := by
    rw [← prefixArray_zero (cmndR rnd buffer size)]
    exact prefixArray_write 0 _ 1 (by decide) (by simp [cmndR])
  rw [h0, bind_ok_eq]
  obtain ⟨s', hs, hinv⟩ := forLoop_spec (lagCond size)
    (yinCumulativeStepR rnd (prefixArray (max 1 (lagLimit size)) (diffCellR rnd buffer size)))
    (lagLimit size) 1 (lagCond_iff size)
    (fun i st => st = (yinSR rnd buffer size (i - 1), prefixArray i (cmndR rnd buffer size)))
    (by
      intro i st h1 hL hinv
      refine ⟨_, ?_, rfl⟩
      rw [hinv]
      simpa using yinCumulativeStepR_ok rnd buffer size i h1 hL)
    (MAX_LAG + 1) 1 (0, prefixArray 1 (cmndR rnd buffer size)) (le_refl 1)
    (by have := lagLimit_le_max size; omega) (by omega)
    (by simp [yinSR])
  rw [hs, bind_ok_eq, hinv]

theorem detect_pitch_yin_rounded_eq (rnd : K → K) (buffer : List K) (size : Int)
    (threshold : K) (hlen : size ≤ (buffer.length : Int)) :
    detect_pitch_yin_rounded rnd buffer size threshold
      = (yinSelectTau (prefixArray (max 1 (lagLimit size)) (cmndR rnd buffer size))
          size threshold).bind
          (fun tau =>
            if tau ≤ 0 ∨ tau ≥ halfSize size then .ok PitchResult.null
            else yinResultR rnd buffer
              (prefixArray (max 1 (lagLimit size)) (cmndR rnd buffer size)) size tau) := by
  unfold detect_pitch_yin_rounded
  rw [yinDiffR_eq rnd buffer size hlen, bind_ok_eq, yinCumulativeR_eq rnd buffer size,
    bind_ok_eq]

theorem yinBetterTauR_eq {rnd : K → K} (h : IsRounding rnd) (c : Nat → K) (size : Int)
    (tau : Nat) (h1 : 1 ≤ tau) (hL : tau < lagLimit size)
    (hnext : tau + 1 < halfN size → tau + 1 < lagLimit size) :
    yinBetterTauR rnd (prefixArray (max 1 (lagLimit size)) c) size (tau : Int)
      = .ok (betterTauR rnd c size tau) := by
  have hLM := lagLimit_le_max size
  have hLm : max 1 (lagLimit size) = lagLimit size := max_eq_right (by omega)
  have hk : (0 : K) ≤ rnd (1 / 10000) := h.nonneg _ (by norm_num)
  unfold yinBetterTauR betterTauR
  by_cases hg : tau + 1 < halfN size
  · rw [if_pos ((interp_guard_iff size tau h1).2 hg), if_pos hg]
    have e0 : ((tau : Int) - 1).toNat = tau - 1 := by omega
    have e1 : ((tau : Int)).toNat = tau := by omega
    have e2 : ((tau : Int) + 1).toNat = tau + 1 := by omega
    rw [e0, e1, e2, hLm]
    rw [prefixArray_read _ c (tau - 1) (by omega) (by omega), bind_ok_eq,
      prefixArray_read _ c tau hL (by omega), bind_ok_eq,
      prefixArray_read _ c (tau + 1) (hnext hg) (by have := hnext hg; omega), bind_ok_eq]
    simp only []
    by_cases hd : |rnd (2 * rnd (rnd (rnd (2 * c tau) - c (tau + 1)) - c (tau - 1)))|
        > rnd (1 / 10000)
    · rw [if_pos hd, if_pos hd]
      have hne : rnd (2 * rnd (rnd (rnd (2 * c tau) - c (tau + 1)) - c (tau - 1))) ≠ 0 := by
        intro h0
        rw [h0, abs_zero] at hd
        exact absurd hd (not_lt.2 hk)
      unfold fdivR
      rw [if_neg hne, bind_ok_eq]
      simp
    · rw [if_neg hd, if_neg hd]
      simp
  · rw [if_neg (fun h => hg ((interp_guard_iff size tau h1).1 h)), if_neg hg]
    simp

theorem yinResultR_eq {rnd : K → K} (h : IsRounding rnd) (buffer : List K) (size : Int)
    (tau : Nat) (hlen : size ≤ (buffer.length : Int)) (h1 : 1 ≤ tau)
    (hL : tau < lagLimit size) (hnext : tau + 1 < halfN size → tau + 1 < lagLimit size) :
    yinResultR rnd buffer (prefixArray (max 1 (lagLimit size)) (cmndR rnd buffer size)) size
        (tau : Int)
      = .ok (yinOutputR rnd buffer size tau) := by
  have hLM := lagLimit_le_max size
  have hLH := lagLimit_le_half size
  have hLm : max 1 (lagLimit size) = lagLimit size := max_eq_right (by omega)
  have hpos : 0 < halfN size := by omega
  have hsz : 0 < size := by
    have hc := halfN_cast size hpos
    rcases halfSize_le size with h | h <;> omega
  unfold yinResultR
  rw [yinBetterTauR_eq h _ size tau h1 hL hnext, bind_ok_eq]
  have e1 : ((tau : Int)).toNat = tau := by omega
  simp only [e1, hLm]
  rw [prefixArray_read _ _ tau hL (by omega), bind_ok_eq]
  rw [countCrossings_eq buffer (size - 1).toNat (by omega), bind_ok_eq]
  have hne : rnd (size : K) ≠ 0 := by
    have h1 : (1 : K) ≤ (size : K) := by exact_mod_cast hsz
    have := h.mono 1 (size : K) h1
    rw [h.one] at this
    exact ne_of_gt (lt_of_lt_of_le zero_lt_one this)
  unfold fdivR
  rw [if_neg hne, bind_ok_eq]
  rfl

theorem yinDR_of_periodic {rnd : K → K} (h : IsRounding rnd) (buffer : List K) (size : Int)
    (P : Nat)
    (hper : ∀ i : Nat, (i : Int) < halfSize size → sample buffer (i + P) = sample buffer i) :
    yinDR rnd buffer size P = 0 := by
  unfold yinDR
  apply sumR_zero rnd h.zero
  intro i hi
  show rnd (rnd (sample buffer i - sample buffer (i + P))
    * rnd (sample buffer i - sample buffer (i + P))) = 0
  rw [hper i ((lt_halfSize_iff size i).2 hi), sub_self, h.zero, zero_mul, h.zero]

end Rounded

section RoundedIdentity

variable {K : Type} [LinearOrderedField K]

theorem sumLoopR_id (term : Nat → Except Fault K) :
    ∀ n, sumLoopR (fun x : K => x) term n = sumLoop term n := by
  intro n
  induction n with
  | zero => rfl
  | succ n ih => unfold sumLoopR sumLoop; rw [ih]

/-- With the identity as rounding function the rounded `detect_pitch_yin` is the exact
one. -/
theorem detect_pitch_yin_rounded_id (buffer : List K) (size : Int) (threshold : K) :
    detect_pitch_yin_rounded (fun x : K => x) buffer size threshold
      = detect_pitch_yin buffer size threshold := by
  have hterm : ∀ tau, yinDiffTermR (fun x : K => x) buffer tau = yinDiffTerm buffer tau :=
    fun _ => rfl
  have hdiff : yinDiffR (fun x : K => x) buffer size = yinDiff buffer size := by
    unfold yinDiffR yinDiff
    simp only [sumLoopR_id, hterm]
  have hstep : ∀ diff : LocalArray K,
      yinCumulativeStepR (fun x : K => x) diff = yinCumulativeStep diff := fun _ => rfl
  have hcum : ∀ diff : LocalArray K,
      yinCumulativeR (fun x : K => x) diff size = yinCumulative diff size := by
    intro diff
    unfold yinCumulativeR yinCumulative
    rw [hstep]
  have hres : ∀ (c : LocalArray K) (tau : Int),
      yinResultR (fun x : K => x) buffer c size tau = yinResult buffer c size tau :=
    fun _ _ => rfl
  unfold detect_pitch_yin_rounded detect_pitch_yin
  simp only [hdiff, hcum, hres]

/-- With the identity as rounding function the rounded `detect_pitch_autocorr` is the
exact one. -/
theorem detect_pitch_autocorr_rounded_id (buffer : List K) (size : Int) :
    detect_pitch_autocorr_rounded (fun x : K => x) buffer size
      = detect_pitch_autocorr buffer size := by
  have hterm : ∀ lag, autocorrTermR (fun x : K => x) buffer lag = autocorrTerm buffer lag :=
    fun _ => rfl
  have hfill : autocorrFillR (fun x : K => x) buffer size = autocorrFill buffer size := by
    unfold autocorrFillR autocorrFill
    simp only [sumLoopR_id, hterm]
  unfold detect_pitch_autocorr_rounded detect_pitch_autocorr
  rw [hfill]
  rfl

end RoundedIdentity

section PeriodSearch

variable {K : Type} [LinearOrderedField K]

/-- When the curve at the first lag `MIN_LAG = 48` is below the threshold and does not
decrease to lag 49, the search of lines 48-70 selects lag 48. -/
theorem select_of_floor_hit (c : Nat → K) (size : Int)
    (threshold : K) (hL : 48 < lagLimit size) (hN : halfN size ≤ MAX_LAG)
    (h48 : c 48 < threshold) (h49 : c 48 ≤ c 49) :
    yinSelectTau (prefixArray (max 1 (lagLimit size)) c) size threshold
      = .ok ((48 : Nat) : Int) := by
  have hmin := min_lag_eq
  rcases yinSelectTau_cases c size threshold with
    ⟨k, tau, hd, hs⟩ | ⟨k, ho, hs⟩ | ⟨tau, hg, hs⟩ | ⟨hn, hs⟩
  · obtain ⟨h1, h2, h3, h4, h5, h6, h7, h8⟩ := hd
    have hk : k = 48 := by
      by_contra hne
      exact h4 48 (by omega) (by omega) h48
    subst hk
    have ht : tau = 48 := by
      by_contra hne
      have h := h7 48 (le_refl _) (by omega)
      exact absurd h (not_lt.2 h49)
    rw [hs, ht]
  · exact absurd ho.2.2.2.2.1 (by omega)
  · exact absurd h48 (hg.1 48 (by omega) hL)
  · exact absurd h48 (hn.1 48 (by omega) hL)

end PeriodSearch

/-! ## Rounding to binary32 is a rounding -/

section Binary32

theorem ulpSearch_spec (fuel : Nat) (u a : ℚ) (hu : 0 < u) :
    ∃ i, i ≤ fuel ∧ ulpSearch fuel u a = u * 2 ^ i
      ∧ (i = 0 ∨ u * 2 ^ i * 8388608 ≤ a) ∧ (a < u * 2 ^ i * 16777216 ∨ i = fuel) := by
  induction fuel generalizing u with
  | zero => exact ⟨0, le_refl _, by simp [ulpSearch], Or.inl rfl, Or.inr rfl⟩
  | succ fuel ih =>
    by_cases h : a < u * 16777216
    · exact ⟨0, Nat.zero_le _, by simp [ulpSearch, h], Or.inl rfl, Or.inl (by simpa using h)⟩
    · obtain ⟨i, hi, he, hlo, hhi⟩ := ih (2 * u) (by linarith)
      refine ⟨i + 1, by omega, ?_, Or.inr ?_, ?_⟩
      · rw [ulpSearch, if_neg h, he, pow_succ]; ring
      · rcases hlo with h0 | hlo
        · subst h0
          have := not_lt.1 h
          rw [pow_succ]; simp only [pow_zero]; linarith
        · rw [pow_succ]; linarith
      · rcases hhi with hhi | hhi
        · left; rw [pow_succ]; linarith
        · right; omega

theorem ulpSearch_unique (fuel : Nat) (u a : ℚ) (i : Nat) (hu : 0 < u) (hi : i ≤ fuel)
    (hlo : i = 0 ∨ u * 2 ^ i * 8388608 ≤ a) (hhi : a < u * 2 ^ i * 16777216 ∨ i = fuel) :
    ulpSearch fuel u a = u * 2 ^ i := by
  induction fuel generalizing u i with
  | zero =>
    have : i = 0 := by omega
    subst this; simp [ulpSearch]
  | succ fuel ih =>
    cases i with
    | zero =>
      rcases hhi with hhi | hhi
      · rw [ulpSearch, if_pos (by simpa using hhi)]; simp
      · omega
    | succ k =>
      have hlo2 : u * 2 ^ (k + 1) * 8388608 ≤ a := by
        rcases hlo with h | h
        · omega
        · exact h
      have hk : (1 : ℚ) ≤ 2 ^ k := one_le_pow₀ (by norm_num)
      have hneg : ¬ a < u * 16777216 := by
        rw [not_lt]
        have e : u * 2 ^ (k + 1) * 8388608 = u * 16777216 * 2 ^ k := by rw [pow_succ]; ring
        rw [e] at hlo2
        have : u * 16777216 * 1 ≤ u * 16777216 * 2 ^ k :=
          mul_le_mul_of_nonneg_left hk (by positivity)
        linarith
      rw [ulpSearch, if_neg hneg, ih (2 * u) k (by linarith) (by omega)]
      · rw [pow_succ]; ring
      · right
        have e : 2 * u * 2 ^ k * 8388608 = u * 2 ^ (k + 1) * 8388608 := by rw [pow_succ]; ring
        rw [e]; exact hlo2
      · rcases hhi with hhi | hhi
        · left
          have e : 2 * u * 2 ^ k * 16777216 = u * 2 ^ (k + 1) * 16777216 := by
            rw [pow_succ]; ring
          rw [e]; exact hhi
        · right; omega

theorem ulp32_spec (a : ℚ) :
    ∃ i, i ≤ 253 ∧ ulp32 a = 1 / 2 ^ 149 * 2 ^ i
      ∧ (i = 0 ∨ ulp32 a * 8388608 ≤ a) ∧ (a < ulp32 a * 16777216 ∨ i = 253) := by
  obtain ⟨i, hi, he, hlo, hhi⟩ := ulpSearch_spec 253 (1 / 2 ^ 149) a (by positivity)
  refine ⟨i, hi, he, ?_, ?_⟩
  · unfold ulp32; rw [he]; exact hlo
  · unfold ulp32; rw [he]; exact hhi

theorem ulp32_unique (a : ℚ) (i : Nat) (hi : i ≤ 253)
    (hlo : i = 0 ∨ 1 / 2 ^ 149 * 2 ^ i * 8388608 ≤ a)
    (hhi : a < 1 / 2 ^ 149 * 2 ^ i * 16777216 ∨ i = 253) :
    ulp32 a = 1 / 2 ^ 149 * 2 ^ i :=
  ulpSearch_unique 253 (1 / 2 ^ 149) a i (by positivity) hi hlo hhi

theorem ulp32_pos (a : ℚ) : 0 < ulp32 a := by
  obtain ⟨i, _, he, _, _⟩ := ulp32_spec a
  rw [he]; positivity

theorem ulp32_mono (a b : ℚ) (h : a ≤ b) : ulp32 a ≤ ulp32 b := by
  obtain ⟨i, hi, hei, hloi, hhii⟩ := ulp32_spec a
  obtain ⟨j, hj, hej, hloj, hhij⟩ := ulp32_spec b
  by_cases hij : i ≤ j
  · rw [hei, hej]
    exact mul_le_mul_of_nonneg_left (pow_le_pow_right₀ (by norm_num) hij) (by positivity)
  · exfalso
    have h1 : ulp32 a * 8388608 ≤ a := by
      rcases hloi with h0 | h0
      · omega
      · exact h0
    have h2 : b < ulp32 b * 16777216 := by
      rcases hhij with h0 | h0
      · exact h0
      · omega
    have h3 : 2 * ulp32 b ≤ ulp32 a := by
      rw [hei, hej]
      have : (2 : ℚ) ^ (j + 1) ≤ 2 ^ i := pow_le_pow_right₀ (by norm_num) (by omega)
      rw [pow_succ] at this
      have h4 : (1 : ℚ) / 2 ^ 149 * (2 ^ j * 2) ≤ 1 / 2 ^ 149 * 2 ^ i :=
        mul_le_mul_of_nonneg_left this (by positivity)
      linarith
    linarith

theorem roundHalfEven_int (k : Int) : roundHalfEven (k : ℚ) = k := by
  simp [roundHalfEven]

theorem roundHalfEven_mono (y z : ℚ) (h : y ≤ z) : roundHalfEven y ≤ roundHalfEven z := by
  have hm : ⌊y⌋ ≤ ⌊z⌋ := Int.floor_mono h
  have hy1 : (⌊y⌋ : ℚ) ≤ y := Int.floor_le y
  have hz1 : (⌊z⌋ : ℚ) ≤ z := Int.floor_le z
  simp only [roundHalfEven]
  rcases lt_or_eq_of_le hm with hlt | heq
  · split_ifs <;> omega
  · rw [← heq] at hz1 ⊢
    split_ifs <;> first | omega | (exfalso; linarith)

theorem roundHalfEven_ge (y : ℚ) (k : Int) (h : (k : ℚ) ≤ y) : k ≤ roundHalfEven y := by
  have := roundHalfEven_mono _ _ h
  rwa [roundHalfEven_int] at this

theorem roundHalfEven_le (y : ℚ) (k : Int) (h : y ≤ (k : ℚ)) : roundHalfEven y ≤ k := by
  have := roundHalfEven_mono _ _ h
  rwa [roundHalfEven_int] at this

theorem roundMag_nonneg (a : ℚ) (ha : 0 ≤ a) : 0 ≤ roundMag a := by
  unfold roundMag
  have hu := ulp32_pos a
  have : (0 : Int) ≤ roundHalfEven (a / ulp32 a) :=
    roundHalfEven_ge _ 0 (by simpa using div_nonneg ha hu.le)
  exact mul_nonneg (by exact_mod_cast this) hu.le

theorem roundMag_mono (a b : ℚ) (h : a ≤ b) : roundMag a ≤ roundMag b := by
  obtain ⟨i, hi, hei, hloi, hhii⟩ := ulp32_spec a
  obtain ⟨j, hj, hej, hloj, hhij⟩ := ulp32_spec b
  have hua := ulp32_pos a
  have hub := ulp32_pos b
  have hij : i ≤ j := by
    by_contra hc
    have h1 := ulp32_mono a b h
    rw [hei, hej] at h1
    have : (2 : ℚ) ^ j < 2 ^ i := pow_lt_pow_right₀ (by norm_num) (by omega)
    have h4 : (1 : ℚ) / 2 ^ 149 * 2 ^ j < 1 / 2 ^ 149 * 2 ^ i :=
      mul_lt_mul_of_pos_left this (by positivity)
    linarith
  rcases Nat.lt_or_eq_of_le hij with hlt | heq
  · have h1 : a < ulp32 a * 16777216 := by
      rcases hhii with h0 | h0
      · exact h0
      · omega
    have h2 : ulp32 b * 8388608 ≤ b := by
      rcases hloj with h0 | h0
      · omega
      · exact h0
    have h3 : 2 * ulp32 a ≤ ulp32 b := by
      rw [hei, hej]
      have : (2 : ℚ) ^ (i + 1) ≤ 2 ^ j := pow_le_pow_right₀ (by norm_num) (by omega)
      rw [pow_succ] at this
      have h4 : (1 : ℚ) / 2 ^ 149 * (2 ^ i * 2) ≤ 1 / 2 ^ 149 * 2 ^ j :=
        mul_le_mul_of_nonneg_left this (by positivity)
      linarith
    have ka : roundHalfEven (a / ulp32 a) ≤ 16777216 :=
      roundHalfEven_le _ 16777216 (by
        rw [div_le_iff₀ hua]; push_cast; linarith)
    have kb : (8388608 : Int) ≤ roundHalfEven (b / ulp32 b) :=
      roundHalfEven_ge _ 8388608 (by
        rw [le_div_iff₀ hub]; push_cast; linarith)
    have ka2 : ((roundHalfEven (a / ulp32 a) : Int) : ℚ) ≤ 16777216 := by exact_mod_cast ka
    have kb2 : (8388608 : ℚ) ≤ ((roundHalfEven (b / ulp32 b) : Int) : ℚ) := by exact_mod_cast kb
    unfold roundMag
    calc ((roundHalfEven (a / ulp32 a) : Int) : ℚ) * ulp32 a
        ≤ 16777216 * ulp32 a := mul_le_mul_of_nonneg_right ka2 hua.le
      _ ≤ 8388608 * ulp32 b := by linarith
      _ ≤ ((roundHalfEven (b / ulp32 b) : Int) : ℚ) * ulp32 b :=
          mul_le_mul_of_nonneg_right kb2 hub.le
  · have hu : ulp32 a = ulp32 b := by rw [hei, hej, heq]
    unfold roundMag
    rw [hu]
    have : roundHalfEven (a / ulp32 b) ≤ roundHalfEven (b / ulp32 b) :=
      roundHalfEven_mono _ _ (div_le_div_of_nonneg_right h hub.le)
    exact mul_le_mul_of_nonneg_right (by exact_mod_cast this) hub.le

theorem roundMag_zero : roundMag 0 = 0 := by
  unfold roundMag
  rw [zero_div]
  have := roundHalfEven_int 0
  simp only [Int.cast_zero] at this
  rw [this]; simp

theorem roundMag_multiple (a : ℚ) : ∃ n : Int, roundMag a = (n : ℚ) * (1 / 2 ^ 149) := by
  obtain ⟨i, hi, hei, _, _⟩ := ulp32_spec a
  refine ⟨roundHalfEven (a / ulp32 a) * 2 ^ i, ?_⟩
  unfold roundMag
  rw [hei]; push_cast; ring

theorem roundMag_idem (a : ℚ) (ha : 0 ≤ a) : roundMag (roundMag a) = roundMag a := by
  obtain ⟨i, hi, hei, hloi, hhii⟩ := ulp32_spec a
  have hu := ulp32_pos a
  have hk0 : (0 : Int) ≤ roundHalfEven (a / ulp32 a) :=
    roundHalfEven_ge _ 0 (by simpa using div_nonneg ha hu.le)
  have hklo : i = 0 ∨ (8388608 : Int) ≤ roundHalfEven (a / ulp32 a) := by
    rcases hloi with h0 | h0
    · exact Or.inl h0
    · right
      exact roundHalfEven_ge _ 8388608 (by rw [le_div_iff₀ hu]; push_cast; linarith)
  have hv : roundMag a = ((roundHalfEven (a / ulp32 a) : Int) : ℚ) * ulp32 a := rfl
  by_cases hc : i = 253 ∨ roundHalfEven (a / ulp32 a) < 16777216
  · -- the rounded value stays in the binade of `a`
    have hsame : ulp32 (roundMag a) = ulp32 a := by
      rw [hei]
      apply ulp32_unique _ i hi
      · rcases hklo with h0 | h0
        · exact Or.inl h0
        · right
          rw [hv, ← hei]
          have : (8388608 : ℚ) ≤ ((roundHalfEven (a / ulp32 a) : Int) : ℚ) := by
            exact_mod_cast h0
          have := mul_le_mul_of_nonneg_right this hu.le
          linarith
      · rcases hc with h0 | h0
        · exact Or.inr h0
        · left
          rw [hv, ← hei]
          have : ((roundHalfEven (a / ulp32 a) : Int) : ℚ) < 16777216 := by exact_mod_cast h0
          have := mul_lt_mul_of_pos_right this hu
          linarith
    have e : roundMag a / ulp32 a = ((roundHalfEven (a / ulp32 a) : Int) : ℚ) := by
      rw [hv]; field_simp
    have step : roundMag (roundMag a)
        = ((roundHalfEven (roundMag a / ulp32 (roundMag a)) : Int) : ℚ)
          * ulp32 (roundMag a) := rfl
    rw [step, hsame, e, roundHalfEven_int, hv]
  · -- the rounded value is the first value of the next binade
    push_neg at hc
    obtain ⟨hi2, hk⟩ := hc
    have h1 : a < ulp32 a * 16777216 := by
      rcases hhii with h0 | h0
      · exact h0
      · exact absurd h0 hi2
    have ka : roundHalfEven (a / ulp32 a) ≤ 16777216 :=
      roundHalfEven_le _ 16777216 (by rw [div_le_iff₀ hu]; push_cast; linarith)
    have hkeq : roundHalfEven (a / ulp32 a) = 16777216 := le_antisymm ka hk
    have hval : roundMag a = 16777216 * ulp32 a := by rw [hv, hkeq]; push_cast; ring
    have hnext : ulp32 (roundMag a) = 2 * ulp32 a := by
      have : ulp32 (roundMag a) = 1 / 2 ^ 149 * 2 ^ (i + 1) := by
        apply ulp32_unique _ (i + 1) (by omega)
        · right; rw [hval, hei, pow_succ (2 : ℚ) i]; apply le_of_eq; ring
        · left; rw [hval, hei, pow_succ (2 : ℚ) i]
          have : (0 : ℚ) < 1 / 2 ^ 149 * 2 ^ i := by positivity
          linarith
      rw [this, hei, pow_succ (2 : ℚ) i]; ring
    have e : roundMag a / ulp32 (roundMag a) = ((8388608 : Int) : ℚ) := by
      rw [hnext, hval]; field_simp; ring
    have step : roundMag (roundMag a)
        = ((roundHalfEven (roundMag a / ulp32 (roundMag a)) : Int) : ℚ)
          * ulp32 (roundMag a) := rfl
    rw [step, e, roundHalfEven_int, hnext, hval]; push_cast; ring

theorem round32_zero : round32 0 = 0 := by
  unfold round32; rw [if_neg (lt_irrefl _)]; exact roundMag_zero

theorem round32_mono (a b : ℚ) (h : a ≤ b) : round32 a ≤ round32 b := by
  unfold round32
  by_cases ha : a < 0
  · by_cases hb : b < 0
    · rw [if_pos ha, if_pos hb]
      exact neg_le_neg (roundMag_mono _ _ (by linarith))
    · rw [if_pos ha, if_neg hb]
      have h1 := roundMag_nonneg (-a) (by linarith)
      have h2 := roundMag_nonneg b (not_lt.1 hb)
      linarith
  · have hb : ¬ b < 0 := by
      rw [not_lt] at ha ⊢; linarith
    rw [if_neg ha, if_neg hb]
    exact roundMag_mono _ _ h

theorem round32_idem (a : ℚ) : round32 (round32 a) = round32 a := by
  by_cases ha : a < 0
  · have h1 := roundMag_nonneg (-a) (by linarith)
    have e : round32 a = -roundMag (-a) := by unfold round32; rw [if_pos ha]
    rw [e]
    rcases eq_or_lt_of_le h1 with h0 | h0
    · rw [← h0]; simp [round32_zero]
    · unfold round32
      rw [if_pos (by linarith), neg_neg, roundMag_idem _ (by linarith)]
  · have e : round32 a = roundMag a := by unfold round32; rw [if_neg ha]
    rw [e]
    have h1 := roundMag_nonneg a (not_lt.1 ha)
    unfold round32
    rw [if_neg (not_lt.2 h1), roundMag_idem _ (not_lt.1 ha)]

theorem round32_multiple (a : ℚ) : ∃ n : Int, round32 a = (n : ℚ) * (1 / 2 ^ 149) := by
  unfold round32
  split_ifs
  · obtain ⟨n, hn⟩ := roundMag_multiple (-a)
    exact ⟨-n, by rw [hn]; push_cast; ring⟩
  · exact roundMag_multiple a

set_option maxRecDepth 100000 in
theorem round32_least : round32 (1 / 2 ^ 149) = 1 / 2 ^ 149
    ∧ round32 (-(1 / 2 ^ 149)) = -(1 / 2 ^ 149) ∧ round32 1 = 1 := by
  decide!

/-- Rounding to the nearest binary32 value has the properties the rounded model
relies on. -/
theorem isRounding_round32 : IsRounding round32 := by
  refine ⟨round32_zero, round32_least.2.2, round32_mono, round32_idem, ?_⟩
  intro a b ha hb hab
  obtain ⟨n, hn⟩ := round32_multiple a
  obtain ⟨m, hm⟩ := round32_multiple b
  rw [ha] at hn
  rw [hb] at hm
  have hnm : n ≠ m := by
    intro e; apply hab; rw [hn, hm, e]
  have hu : (0 : ℚ) < 1 / 2 ^ 149 := by positivity
  rcases lt_or_gt_of_ne hnm with hlt | hgt
  · have h1 : n + 1 ≤ m := hlt
    have h2 : ((n : ℚ) + 1) ≤ (m : ℚ) := by exact_mod_cast h1
    have h3 : a - b ≤ -(1 / 2 ^ 149) := by
      rw [hn, hm]
      have := mul_le_mul_of_nonneg_right h2 hu.le
      linarith
    have := round32_mono _ _ h3
    rw [round32_least.2.1] at this
    intro e; rw [e] at this; linarith
  · have h1 : m + 1 ≤ n := hgt
    have h2 : ((m : ℚ) + 1) ≤ (n : ℚ) := by exact_mod_cast h1
    have h3 : 1 / 2 ^ 149 ≤ a - b := by
      rw [hn, hm]
      have := mul_le_mul_of_nonneg_right h2 hu.le
      linarith
    have := round32_mono _ _ h3
    rw [round32_least.1] at this
    intro e; rw [e] at this; linarith


theorem roundMag_int (n : Int) (h1 : n < 16777216) :
    roundMag (n : ℚ) = (n : ℚ) := by
  obtain ⟨i, hi, hei, hlo, hhi⟩ := ulp32_spec (n : ℚ)
  have hn1 : (n : ℚ) < 16777216 := by exact_mod_cast h1
  have hi149 : i ≤ 149 := by
    by_contra hc
    have h150 : (2 : ℚ) ^ 150 ≤ 2 ^ i := pow_le_pow_right₀ (by norm_num) (by omega)
    have hu2 : (2 : ℚ) ≤ ulp32 (n : ℚ) := by
      rw [hei]
      have : (1 : ℚ) / 2 ^ 149 * 2 ^ 150 ≤ 1 / 2 ^ 149 * 2 ^ i :=
        mul_le_mul_of_nonneg_left h150 (by positivity)
      have e : (1 : ℚ) / 2 ^ 149 * 2 ^ 150 = 2 := by norm_num
      linarith
    rcases hlo with h | h
    · omega
    · linarith
  have hpow : (2 : ℚ) ^ 149 = 2 ^ (149 - i) * 2 ^ i := by
    rw [← pow_add]; congr 1; omega
  have hu : ulp32 (n : ℚ) = 1 / 2 ^ (149 - i) := by
    rw [hei, hpow]; field_simp; ring
  have hq : (n : ℚ) / ulp32 (n : ℚ) = ((n * 2 ^ (149 - i) : Int) : ℚ) := by
    rw [hu]; push_cast; field_simp
  unfold roundMag
  rw [hq, roundHalfEven_int, hu]; push_cast; field_simp

theorem round32_int (n : Int) (h : |n| < 16777216) : round32 (n : ℚ) = (n : ℚ) := by
  rw [abs_lt] at h
  unfold round32
  by_cases hn : (n : ℚ) < 0
  · rw [if_pos hn]
    have hn2 : n < 0 := by exact_mod_cast hn
    have := roundMag_int (-n) (by omega)
    push_cast at this
    rw [this]; ring
  · rw [if_neg hn]
    exact roundMag_int n h.2

/-- A binary32 accumulation of small non-negative integers is exact. -/
theorem sumR_round32_int (f : Nat → ℚ) (B : Nat)
    (hf : ∀ i, ∃ g : Int, f i = (g : ℚ) ∧ 0 ≤ g ∧ g ≤ (B : Int)) :
    ∀ n, n * B < 16777216 → ∃ s : Int, 0 ≤ s ∧ s ≤ ((n * B : Nat) : Int)
      ∧ sumR round32 f n = (s : ℚ) ∧ ∑ i in Finset.range n, f i = (s : ℚ) := by
  intro n
  induction n with
  | zero => intro _; exact ⟨0, le_refl _, by simp, by simp [sumR], by simp⟩
  | succ n ih =>
    intro hn
    have hn2 : n * B < 16777216 := by
      have : n * B ≤ (n + 1) * B := Nat.mul_le_mul_right B (Nat.le_succ n)
      omega
    obtain ⟨s, hs0, hs1, hs2, hs3⟩ := ih hn2
    obtain ⟨g, hg, hg0, hg1⟩ := hf n
    have hb : ((n + 1) * B : Nat) = n * B + B := by ring
    refine ⟨s + g, by omega, by rw [hb]; push_cast; push_cast at hs1; omega, ?_, ?_⟩
    · unfold sumR
      rw [hs2, hg]
      have := round32_int (s + g) (by
        rw [abs_lt]; push_cast at hs1; constructor <;> omega)
      push_cast at this
      push_cast
      exact this
    · rw [Finset.sum_range_succ, hs3, hg]; push_cast; ring

/-- On a window whose samples are `-1`, `0` or `1`, the stored difference function is
the exact one. -/
theorem yinDR_round32_of_unit (buffer : List ℚ) (size : Int) (tau : Nat)
    (hs : ∀ i, ∃ z : Int, sample buffer i = (z : ℚ) ∧ |z| ≤ 1) (hN : halfN size ≤ 2048) :
    ∃ s : Int, 0 ≤ s ∧ s ≤ 4 * (halfN size : Int)
      ∧ yinDR round32 buffer size tau = (s : ℚ) ∧ yinD buffer size tau = (s : ℚ) := by
  have key : ∀ i, ∃ g : Int,
      round32 (round32 (sample buffer i - sample buffer (i + tau))
        * round32 (sample buffer i - sample buffer (i + tau))) = (g : ℚ)
      ∧ (sample buffer i - sample buffer (i + tau)) ^ 2 = (g : ℚ)
      ∧ 0 ≤ g ∧ g ≤ ((4 : Nat) : Int) := by
    intro i
    obtain ⟨a, ha, ha1⟩ := hs i
    obtain ⟨b, hb, hb1⟩ := hs (i + tau)
    rw [abs_le] at ha1 hb1
    have hd : |a - b| ≤ 2 := by rw [abs_le]; constructor <;> omega
    have h1 : round32 (((a - b : Int)) : ℚ) = ((a - b : Int) : ℚ) :=
      round32_int (a - b) (by omega)
    have hsq : 0 ≤ (a - b) * (a - b) ∧ (a - b) * (a - b) ≤ 4 := by
      rw [abs_le] at hd
      constructor
      · exact mul_self_nonneg _
      · nlinarith
    have h2 : round32 ((((a - b) * (a - b) : Int)) : ℚ) = (((a - b) * (a - b) : Int) : ℚ) :=
      round32_int _ (by rw [abs_lt]; constructor <;> omega)
    refine ⟨(a - b) * (a - b), ?_, ?_, hsq.1, by simpa using hsq.2⟩
    · rw [ha, hb]
      push_cast at h1 h2 ⊢
      rw [h1, h2]
    · rw [ha, hb]; push_cast; ring
  obtain ⟨s, hs0, hs1, hs2, hs3⟩ := sumR_round32_int
    (fun i => round32 (round32 (sample buffer i - sample buffer (i + tau))
      * round32 (sample buffer i - sample buffer (i + tau)))) 4
    (fun i => by
      obtain ⟨g, h1, _, h3, h4⟩ := key i
      exact ⟨g, h1, h3, h4⟩) (halfN size) (by omega)
  refine ⟨s, hs0, by push_cast at hs1; omega, hs2, ?_⟩
  unfold yinD
  rw [← hs3]
  apply Finset.sum_congr rfl
  intro i _
  obtain ⟨g, h1, h2, _, _⟩ := key i
  show (sample buffer i - sample buffer (i + tau)) ^ 2 = round32 _
  rw [h2, h1]

/-- On a window whose samples are `-1`, `0` or `1`, the stored running sum is the exact
one. -/
theorem yinSR_round32_of_unit (buffer : List ℚ) (size : Int)
    (hs : ∀ i, ∃ z : Int, sample buffer i = (z : ℚ) ∧ |z| ≤ 1) (hN : halfN size ≤ 2048) :
    ∀ tau : Nat, tau < 2048 → ∃ s : Int, 0 ≤ s ∧ s ≤ (tau : Int) * (4 * (halfN size : Int))
      ∧ yinSR round32 buffer size tau = (s : ℚ) ∧ yinS buffer size tau = (s : ℚ) := by
  intro tau
  induction tau with
  | zero => intro _; exact ⟨0, le_refl _, by simp, by simp [yinSR], by simp [yinS]⟩
  | succ t ih =>
    intro ht
    obtain ⟨s, hs0, hs1, hs2, hs3⟩ := ih (by omega)
    obtain ⟨d, hd0, hd1, hd2, hd3⟩ := yinDR_round32_of_unit buffer size (t + 1) hs hN
    have hb : s + d ≤ ((t + 1 : Nat) : Int) * (4 * (halfN size : Int)) := by
      push_cast; nlinarith
    have hb2 : ((t + 1 : Nat) : Int) * (4 * (halfN size : Int)) ≤ 2047 * 8192 := by
      have h1 : ((t + 1 : Nat) : Int) ≤ 2047 := by omega
      have h2 : 4 * (halfN size : Int) ≤ 8192 := by omega
      have h3 : (0 : Int) ≤ 4 * (halfN size : Int) := by omega
      nlinarith
    refine ⟨s + d, by omega, hb, ?_, ?_⟩
    · unfold yinSR
      rw [hs2, hd2]
      have := round32_int (s + d) (by rw [abs_lt]; constructor <;> omega)
      push_cast at this ⊢
      exact this
    · rw [yinS_succ, hs3, hd3]; push_cast; ring

theorem yinDR_round32_eq (buffer : List ℚ) (size : Int) (tau : Nat)
    (hs : ∀ i, ∃ z : Int, sample buffer i = (z : ℚ) ∧ |z| ≤ 1) (hN : halfN size ≤ 2048) :
    yinDR round32 buffer size tau = yinD buffer size tau := by
  obtain ⟨s, _, _, h1, h2⟩ := yinDR_round32_of_unit buffer size tau hs hN
  rw [h1, h2]

theorem yinSR_round32_eq (buffer : List ℚ) (size : Int) (tau : Nat)
    (hs : ∀ i, ∃ z : Int, sample buffer i = (z : ℚ) ∧ |z| ≤ 1) (hN : halfN size ≤ 2048)
    (ht : tau < 2048) :
    yinSR round32 buffer size tau = yinS buffer size tau := by
  obtain ⟨s, _, _, h1, h2⟩ := yinSR_round32_of_unit buffer size hs hN tau ht
  rw [h1, h2]

end Binary32

/-! ## Test windows -/

section Windows

theorem steepWindow_length : steepWindow.length = 100 := by simp [steepWindow]

theorem flatPeakWindow_length : flatPeakWindow.length = 100 := by simp [flatPeakWindow]

theorem overrunWindow_length : overrunWindow.length = 4098 := by simp [overrunWindow]

theorem lagLimit_hundred : lagLimit 100 = 50 := by decide

theorem halfN_hundred : halfN 100 = 50 := by decide

set_option maxRecDepth 100000 in
theorem steepWindow_crossings : (crossingPairs steepWindow 100).card = 2 := by decide!

theorem sample_map_range (f : Nat → ℚ) (n i : Nat) :
    sample ((List.range n).map f) i = if i < n then f i else 0 := by
  unfold sample
  rw [List.getD_eq_getElem?_getD, List.getElem?_map]
  by_cases h : i < n
  · rw [List.getElem?_range h, if_pos h]; rfl
  · rw [if_neg h, List.getElem?_eq_none (by simp; omega)]; rfl

set_option maxRecDepth 100000 in
theorem steepWindow_yin :
    yinS steepWindow 100 47 = 819 ∧ yinD steepWindow 100 47 = 9
    ∧ yinD steepWindow 100 48 = 10 ∧ yinD steepWindow 100 49 = 11 := by
  simp only [yinS, yinD, steepWindow, sample_map_range]
  decide!

theorem steepWindow_cmnd :
    cmnd steepWindow 100 47 = 47 / 91 ∧ cmnd steepWindow 100 48 = 480 / 829
    ∧ cmnd steepWindow 100 49 = 77 / 120 := by
  obtain ⟨hS, h47, h48, h49⟩ := steepWindow_yin
  have hS48 : yinS steepWindow 100 48 = 829 := by
    have h := yinS_succ steepWindow 100 47
    rw [hS, h48] at h
    rw [h]; norm_num
  have hS49 : yinS steepWindow 100 49 = 840 := by
    have h := yinS_succ steepWindow 100 48
    rw [hS48, h49] at h
    rw [h]; norm_num
  refine ⟨?_, ?_, ?_⟩
  · unfold cmnd
    rw [if_neg (by decide), hS, h47]
    norm_num
  · unfold cmnd
    rw [if_neg (by decide), hS48, h48]
    norm_num
  · unfold cmnd
    rw [if_neg (by decide), hS49, h49]
    norm_num

set_option maxRecDepth 100000 in
theorem flatPeakWindow_corr :
    corr flatPeakWindow 100 47 = -1 ∧ corr flatPeakWindow 100 48 = 0
    ∧ corr flatPeakWindow 100 49 = -1 := by decide!

theorem steepWindow_select :
    yinSelectTau (prefixArray (max 1 (lagLimit 100)) (cmnd steepWindow 100)) 100 (3 / 5 : ℚ)
      = .ok ((48 : Nat) : Int) := by
  have hmin := min_lag_eq
  have hmax := max_lag_eq
  obtain ⟨c47, c48, c49⟩ := steepWindow_cmnd
  have hlt : cmnd steepWindow 100 48 < 3 / 5 := by rw [c48]; norm_num
  rcases yinSelectTau_cases (cmnd steepWindow 100) 100 (3 / 5) with
    ⟨k, tau, hd, hs⟩ | ⟨k, ho, hs⟩ | ⟨tau, hg, hs⟩ | ⟨hn, hs⟩
  · obtain ⟨h1, h2, h3, h4, h5, h6, h7, h8⟩ := hd
    have hk : k = 48 := by
      by_contra hne
      exact h4 48 (by omega) (by omega) hlt
    subst hk
    have ht : tau = 48 := by
      by_contra hne
      have h := h7 48 (le_refl _) (by omega)
      have e : cmnd steepWindow 100 (48 + 1) = 77 / 120 := c49
      rw [e, c48] at h
      norm_num at h
    rw [hs, ht]
  · have h := ho.2.2.2.2.1
    rw [halfN_hundred] at h
    omega
  · exact absurd hlt (hg.1 48 (by omega) (by rw [lagLimit_hundred]; omega))
  · exact absurd hlt (hn.1 48 (by omega) (by rw [lagLimit_hundred]; omega))

theorem steepWindow_run :
    detect_pitch_yin steepWindow 100 (3 / 5)
      = .ok ⟨-22329600 / 204319, 349 / 829, 4 / 5⟩ := by
  have hlen : (100 : Int) ≤ (steepWindow.length : Int) := by rw [steepWindow_length]; decide
  obtain ⟨c47, c48, c49⟩ := steepWindow_cmnd
  have hL : 48 < lagLimit 100 := by rw [lagLimit_hundred]; decide
  have hb : betterTau (cmnd steepWindow 100) 100 48 = -1021595 / 2326 := by
    have e1 : cmnd steepWindow 100 (48 + 1) = 77 / 120 := c49
    have e2 : cmnd steepWindow 100 (48 - 1) = 47 / 91 := c47
    unfold betterTau
    rw [if_pos (by rw [halfN_hundred]; decide), e1, e2, c48,
      if_pos (by rw [abs_of_neg (by norm_num)]; norm_num)]
    norm_num
  have hc : clarityValue steepWindow 100 = 4 / 5 := by
    rw [clarityValue_eq, steepWindow_crossings, max_eq_right (by norm_num)]
    norm_num
  rw [detect_pitch_yin_eq steepWindow 100 (3 / 5) hlen, steepWindow_select, bind_ok_eq,
    if_neg (selected_guard 100 48 (by decide) hL),
    yinResult_eq steepWindow _ 100 48 hlen (by decide) hL
      (fun _ => by rw [lagLimit_hundred]; decide),
    hb, c48, hc]
  norm_num [SAMPLE_RATE]

theorem squareWindow_length : squareWindow.length = 120 := by simp [squareWindow]

theorem squareWindow_sample (i : Nat) (hi : i < 120) :
    sample squareWindow i = if i % 49 < 25 then 1 else -1 := by
  unfold squareWindow
  rw [sample_map_range, if_pos hi]

theorem squareWindow_periodic (i : Nat) (hi : i + 49 < 120) :
    sample squareWindow (i + 49) = sample squareWindow i := by
  rw [squareWindow_sample (i + 49) hi, squareWindow_sample i (by omega), Nat.add_mod_right]

theorem squareWindow_periodic_half (i : Nat) (hi : (i : Int) < halfSize 120) :
    sample squareWindow (i + 49) = sample squareWindow i := by
  have h60 : halfSize 120 = 60 := by decide
  exact squareWindow_periodic i (by omega)

theorem squareWindow_yinD_floor (size : Int) (h : 0 < halfSize size) :
    0 < yinD squareWindow size 48 := by
  apply yinD_pos_of_term squareWindow size 48 0 (by unfold halfN; omega)
  rw [squareWindow_sample 0 (by decide), squareWindow_sample (0 + 48) (by decide)]
  norm_num

/-- The search on `squareWindow` read as a window of `size` samples,
`49 < size/2 <= 71`, selects the period `49`. -/
theorem squareWindow_select (size : Int) (threshold : ℚ) (hP : (49 : Int) < halfSize size)
    (hH : halfSize size ≤ 71) (ht : 0 < threshold) :
    yinSelectTau (prefixArray (max 1 (lagLimit size)) (cmnd squareWindow size)) size threshold
      = .ok ((49 : Nat) : Int) := by
  have hmax := max_lag_eq
  exact select_of_period_above_floor squareWindow size threshold (by omega) hP
    (fun i hi => squareWindow_periodic i (by omega))
    (squareWindow_yinD_floor size (by omega)) ht

theorem overrunWindow_sample (i : Nat) :
    sample overrunWindow i = if i = 2046 then 1 else 0 := by
  unfold overrunWindow
  rw [sample_map_range]
  by_cases h : i = 2046
  · subst h; simp
  · by_cases h2 : i < 4098 <;> simp [h, h2]

theorem halfN_overrun : halfN 4098 = 2049 := by decide

theorem lagLimit_overrun : lagLimit 4098 = 2048 := by decide

theorem overrunWindow_yinD (tau : Nat) (h1 : 1 ≤ tau) :
    yinD overrunWindow 4098 tau = 1 + (if tau ≤ 2046 then 1 else 0) := by
  unfold yinD
  rw [halfN_overrun]
  have hterm : ∀ i ∈ Finset.range 2049,
      (sample overrunWindow i - sample overrunWindow (i + tau)) ^ 2
        = (if i = 2046 then (1 : ℚ) else 0) + (if i = 2046 - tau ∧ tau ≤ 2046 then 1 else 0) := by
    intro i _
    rw [overrunWindow_sample, overrunWindow_sample]
    by_cases ha : i = 2046
    · have hb : ¬ i + tau = 2046 := by omega
      have hc : ¬ (i = 2046 - tau ∧ tau ≤ 2046) := by omega
      rw [if_pos ha, if_neg hb, if_neg hc]; norm_num
    · by_cases hb : i + tau = 2046
      · have hc : i = 2046 - tau ∧ tau ≤ 2046 := by omega
        rw [if_neg ha, if_pos hb, if_pos hc]; norm_num
      · have hc : ¬ (i = 2046 - tau ∧ tau ≤ 2046) := by omega
        rw [if_neg ha, if_neg hb, if_neg hc]; norm_num
  have hA : (∑ i in Finset.range 2049, (if i = 2046 then (1 : ℚ) else 0)) = 1 := by
    rw [Finset.sum_ite_eq', if_pos (Finset.mem_range.2 (by omega))]
  have hB : (∑ i in Finset.range 2049, (if i = 2046 - tau ∧ tau ≤ 2046 then (1 : ℚ) else 0))
      = if tau ≤ 2046 then 1 else 0 := by
    by_cases ht : tau ≤ 2046
    · have : ∀ i ∈ Finset.range 2049,
          (if i = 2046 - tau ∧ tau ≤ 2046 then (1 : ℚ) else 0)
            = if i = 2046 - tau then 1 else 0 := by
        intro i _
        by_cases h : i = 2046 - tau
        · rw [if_pos ⟨h, ht⟩, if_pos h]
        · rw [if_neg (fun hh => h hh.1), if_neg h]
      rw [Finset.sum_congr rfl this, Finset.sum_ite_eq', if_pos ht,
        if_pos (Finset.mem_range.2 (by omega))]
    · rw [if_neg ht]
      apply Finset.sum_eq_zero
      intro i _
      rw [if_neg (fun hh => ht hh.2)]
  rw [Finset.sum_congr rfl hterm, Finset.sum_add_distrib, hA, hB]

theorem overrunWindow_yinS (tau : Nat) (h : tau ≤ 2046) :
    yinS overrunWindow 4098 tau = 2 * (tau : ℚ) := by
  induction tau with
  | zero => simp [yinS_zero]
  | succ t ih =>
    rw [yinS_succ, ih (by omega), overrunWindow_yinD (t + 1) (by omega), if_pos h]
    push_cast; ring

theorem overrunWindow_cmnd_flat (tau : Nat) (h1 : 1 ≤ tau) (h : tau ≤ 2046) :
    cmnd overrunWindow 4098 tau = 1 := by
  have hne : tau ≠ 0 := by omega
  have hpos : (0 : ℚ) < (tau : ℚ) := by exact_mod_cast (by omega : 0 < tau)
  have h2 : (2 : ℚ) * (tau : ℚ) ≠ 0 := ne_of_gt (by positivity)
  unfold cmnd
  rw [if_neg hne, overrunWindow_yinS tau h, overrunWindow_yinD tau h1, if_pos h, if_neg h2,
    div_eq_one_iff_eq h2]
  ring

theorem overrunWindow_cmnd_last : cmnd overrunWindow 4098 2047 = 2047 / 4093 := by
  have hS : yinS overrunWindow 4098 2047 = 4093 := by
    rw [yinS_succ, overrunWindow_yinS 2046 (le_refl _), overrunWindow_yinD 2047 (by omega)]
    norm_num
  unfold cmnd
  rw [if_neg (by omega), hS, overrunWindow_yinD 2047 (by omega)]
  norm_num

theorem twoPeakWindow_length : twoPeakWindow.length = 108 := by simp [twoPeakWindow]

set_option maxRecDepth 100000 in
theorem twoPeakWindow_corr :
    corr twoPeakWindow 108 0 = 6 ∧ corr twoPeakWindow 108 47 = 0
    ∧ corr twoPeakWindow 108 48 = 0 ∧ corr twoPeakWindow 108 49 = 1
    ∧ corr twoPeakWindow 108 50 = 0 ∧ corr twoPeakWindow 108 51 = 2
    ∧ corr twoPeakWindow 108 52 = 0 ∧ corr twoPeakWindow 108 53 = 0 := by
  simp only [corr, twoPeakWindow, sample_map_range]
  decide!

theorem halfN_twoPeak : halfN 108 = 54 := by decide

theorem guardWindow_length : guardWindow.length = 100 := by simp [guardWindow]

set_option maxRecDepth 100000 in
theorem guardWindow_yin :
    yinS guardWindow 100 47 = 13104 / 25 ∧ yinD guardWindow 100 47 = 144 / 25
    ∧ yinD guardWindow 100 48 = 169 / 25 ∧ yinD guardWindow 100 49 = 194 / 25 := by
  simp only [yinS, yinD, guardWindow, sample_map_range]
  decide!

theorem guardWindow_cmnd :
    cmnd guardWindow 100 47 = 47 / 91 ∧ cmnd guardWindow 100 48 = 624 / 1021
    ∧ cmnd guardWindow 100 49 = 9506 / 13467 := by
  obtain ⟨hS, h47, h48, h49⟩ := guardWindow_yin
  have hS48 : yinS guardWindow 100 48 = 13273 / 25 := by
    have h := yinS_succ guardWindow 100 47
    rw [hS, h48] at h
    rw [h]; norm_num
  have hS49 : yinS guardWindow 100 49 = 13467 / 25 := by
    have h := yinS_succ guardWindow 100 48
    rw [hS48, h49] at h
    rw [h]; norm_num
  refine ⟨?_, ?_, ?_⟩
  · unfold cmnd
    rw [if_neg (by decide), hS, h47]
    norm_num
  · unfold cmnd
    rw [if_neg (by decide), hS48, h48]
    norm_num
  · unfold cmnd
    rw [if_neg (by decide), hS49, h49]
    norm_num

theorem guardWindow_select :
    yinSelectTau (prefixArray (max 1 (lagLimit 100)) (cmnd guardWindow 100)) 100 (13 / 20 : ℚ)
      = .ok ((48 : Nat) : Int) := by
  obtain ⟨c47, c48, c49⟩ := guardWindow_cmnd
  exact select_of_floor_hit (cmnd guardWindow 100) 100 (13 / 20)
    (by rw [lagLimit_hundred]; decide) (by rw [halfN_hundred]; decide)
    (by rw [c48]; norm_num) (by rw [c48, c49]; norm_num)

set_option maxRecDepth 100000 in
theorem round32_values :
    round32 0 = 0 ∧ round32 1 = 1 ∧ round32 (1 / 2 ^ 80) = 1 / 2 ^ 80
    ∧ round32 (1 / 2 ^ 80 * 1) = 1 / 2 ^ 80 ∧ round32 (1 / 2 ^ 80 * (1 / 2 ^ 80)) = 0
    ∧ round32 (1 / 10000) = 13743895 / 137438953472
    ∧ round32 (1 / 3) = 11184811 / 33554432 ∧ round32 16777217 = 16777216
    ∧ round32 16777219 = 16777220 ∧ round32 (3 / 2 ^ 150) = 2 / 2 ^ 149 := by decide!

theorem faintWindow_length : faintWindow.length = 120 := by simp [faintWindow]

theorem faintWindow_sample (i : Nat) (hi : i < 120) :
    sample faintWindow i = if i % 49 < 25 then 1 / 2 ^ 80 else -(1 / 2 ^ 80) := by
  unfold faintWindow
  rw [sample_map_range, if_pos hi]

theorem faintWindow_periodic (i : Nat) (hi : (i : Int) < halfSize 120) :
    sample faintWindow (i + 49) = sample faintWindow i := by
  have h60 : halfSize 120 = 60 := by decide
  rw [faintWindow_sample (i + 49) (by omega), faintWindow_sample i (by omega),
    Nat.add_mod_right]

set_option maxRecDepth 100000 in
theorem round32_faint :
    round32 (round32 (1 / 2 ^ 80 - 1 / 2 ^ 80) * round32 (1 / 2 ^ 80 - 1 / 2 ^ 80)) = 0
    ∧ round32 (round32 (1 / 2 ^ 80 - -(1 / 2 ^ 80)) * round32 (1 / 2 ^ 80 - -(1 / 2 ^ 80))) = 0
    ∧ round32 (round32 (-(1 / 2 ^ 80) - 1 / 2 ^ 80) * round32 (-(1 / 2 ^ 80) - 1 / 2 ^ 80)) = 0
    ∧ round32 (round32 (-(1 / 2 ^ 80) - -(1 / 2 ^ 80))
        * round32 (-(1 / 2 ^ 80) - -(1 / 2 ^ 80))) = 0
    ∧ round32 (1 / 2 ^ 80 - -(1 / 2 ^ 80)) = 1 / 2 ^ 79
    ∧ round32 (1 / 2 ^ 79 * (1 / 2 ^ 79)) = 0 ∧ round32 (0 + 0) = 0 := by decide!

/-- Every stored difference of `faintWindow` is `0` in binary32: a sample difference is
`0` or `±2^-79`, and its square `2^-158` is below half the least subnormal `2^-149`. -/
theorem faintWindow_yinDR (tau : Nat) (h : tau < 60) :
    yinDR round32 faintWindow 120 tau = 0 := by
  obtain ⟨f1, f2, f3, f4, _⟩ := round32_faint
  unfold yinDR
  apply sumR_zero round32 round32_values.1
  intro i hi
  have h60 : halfN 120 = 60 := by decide
  rw [h60] at hi
  show round32 (round32 (sample faintWindow i - sample faintWindow (i + tau))
    * round32 (sample faintWindow i - sample faintWindow (i + tau))) = 0
  rw [faintWindow_sample i (by omega), faintWindow_sample (i + tau) (by omega)]
  split_ifs
  · exact f1
  · exact f2
  · exact f3
  · exact f4

theorem faintWindow_yinSR : ∀ tau, tau < 60 → yinSR round32 faintWindow 120 tau = 0 := by
  intro tau
  induction tau with
  | zero => intro _; rfl
  | succ t ih =>
    intro h
    unfold yinSR
    rw [ih (by omega), faintWindow_yinDR (t + 1) h]
    exact round32_faint.2.2.2.2.2.2

theorem faintWindow_cmndR (tau : Nat) (h : tau < 60) :
    cmndR round32 faintWindow 120 tau = 1 := by
  unfold cmndR
  split_ifs with h0 hpos
  · rfl
  · rw [faintWindow_yinSR tau h] at hpos
    exact absurd hpos (lt_irrefl _)
  · rfl

set_option maxRecDepth 100000 in
theorem round32_faint_neg : round32 (-(1 / 2 ^ 80)) = -(1 / 2 ^ 80) := by decide!

/-- The samples of `faintWindow` are binary32 values. -/
theorem faintWindow_float (i : Nat) :
    round32 (sample faintWindow i) = sample faintWindow i := by
  obtain ⟨h0, _, h80, _⟩ := round32_values
  unfold faintWindow
  rw [sample_map_range]
  split_ifs
  · exact h80
  · exact round32_faint_neg
  · exact h0

theorem tieWindow_length : tieWindow.length = 110 := by simp [tieWindow]

theorem tieWindow_sample (i : Nat) :
    sample tieWindow i
      = if i < 110 then (if i = 36 ∨ i = 40 ∨ i = 88 ∨ i = 92 then 1 else 0) else 0 := by
  unfold tieWindow
  rw [sample_map_range]

theorem tieWindow_unit (i : Nat) : ∃ z : Int, sample tieWindow i = (z : ℚ) ∧ |z| ≤ 1 := by
  rw [tieWindow_sample]
  split_ifs
  · exact ⟨1, by simp, by decide⟩
  · exact ⟨0, by simp, by decide⟩
  · exact ⟨0, by simp, by decide⟩

theorem tieWindow_periodic (i : Nat) (hi : (i : Int) < halfSize 110) :
    sample tieWindow (i + 52) = sample tieWindow i := by
  have h55 : halfSize 110 = 55 := by decide
  rw [h55] at hi
  have hi2 : i < 55 := by omega
  have e1 : i + 52 < 110 := by omega
  have e2 : i < 110 := by omega
  have e3 : (i + 52 = 36 ∨ i + 52 = 40 ∨ i + 52 = 88 ∨ i + 52 = 92)
      ↔ (i = 36 ∨ i = 40 ∨ i = 88 ∨ i = 92) := by omega
  rw [tieWindow_sample, tieWindow_sample]
  simp only [e1, e2, e3, if_true]

set_option maxRecDepth 100000 in
theorem tieWindow_yin :
    yinS tieWindow 110 47 = 192 ∧ yinD tieWindow 110 48 = 2 ∧ yinD tieWindow 110 49 = 4 := by
  simp only [yinS, yinD, tieWindow, sample_map_range]
  decide!

set_option maxRecDepth 100000 in
theorem round32_eighth : round32 (1 / 8) = 1 / 8 := by decide!

set_option maxRecDepth 100000 in
theorem round32_tie :
    round32 48 = 48 ∧ round32 49 = 49 ∧ round32 (2 * 48) = 96 ∧ round32 (4 * 49) = 196
    ∧ round32 (96 / 194) = 16604255 / 33554432
    ∧ round32 (196 / 198) = 16607749 / 16777216
    ∧ round32 (518883 / 1048576) = 518883 / 1048576
    ∧ round32 (1 - 16604255 / 33554432) = 529693 / 1048576 := by
  decide!

theorem tieWindow_cmndR :
    cmndR round32 tieWindow 110 48 = 16604255 / 33554432
    ∧ cmndR round32 tieWindow 110 49 = 16607749 / 16777216 := by
  obtain ⟨hS, h48, h49⟩ := tieWindow_yin
  obtain ⟨r48, r49, r96, r196, rc48, rc49, _, _⟩ := round32_tie
  have hN : halfN 110 ≤ 2048 := by decide
  have hS48 : yinS tieWindow 110 48 = 194 := by
    rw [yinS_succ, hS, h48]; norm_num
  have hS49 : yinS tieWindow 110 49 = 198 := by
    rw [yinS_succ, hS48, h49]; norm_num
  constructor
  · unfold cmndR
    rw [yinSR_round32_eq tieWindow 110 48 tieWindow_unit hN (by decide),
      yinDR_round32_eq tieWindow 110 48 tieWindow_unit hN, hS48, h48,
      if_neg (by decide), if_pos (by norm_num)]
    push_cast
    rw [r48, r96, rc48]
  · unfold cmndR
    rw [yinSR_round32_eq tieWindow 110 49 tieWindow_unit hN (by decide),
      yinDR_round32_eq tieWindow 110 49 tieWindow_unit hN, hS49, h49,
      if_neg (by decide), if_pos (by norm_num)]
    push_cast
    rw [r49, r196, rc49]

theorem tieWindow_run :
    yinSelectTau (prefixArray (max 1 (lagLimit 110)) (cmndR round32 tieWindow 110)) 110
        (518883 / 1048576 : ℚ) = .ok ((48 : Nat) : Int)
    ∧ detect_pitch_yin_rounded round32 tieWindow 110 (518883 / 1048576)
        = .ok (yinOutputR round32 tieWindow 110 48)
    ∧ (yinOutputR round32 tieWindow 110 48).confidence = 529693 / 1048576 := by
  obtain ⟨c48, c49⟩ := tieWindow_cmndR
  have hlen : (110 : Int) ≤ (tieWindow.length : Int) := by rw [tieWindow_length]; decide
  have hL : lagLimit 110 = 55 := by decide
  have hsel : yinSelectTau (prefixArray (max 1 (lagLimit 110)) (cmndR round32 tieWindow 110))
      110 (518883 / 1048576 : ℚ) = .ok ((48 : Nat) : Int) :=
    select_of_floor_hit (cmndR round32 tieWindow 110) 110 (518883 / 1048576)
      (by rw [hL]; decide) (by decide) (by rw [c48]; norm_num) (by rw [c48, c49]; norm_num)
  refine ⟨hsel, ?_, ?_⟩
  · rw [detect_pitch_yin_rounded_eq round32 tieWindow 110 _ hlen, hsel, bind_ok_eq,
      if_neg (selected_guard 110 48 (by decide) (by rw [hL]; decide))]
    exact yinResultR_eq isRounding_round32 tieWindow 110 48 hlen (by decide)
      (by rw [hL]; decide) (fun _ => by rw [hL]; decide)
  · show round32 (1 - cmndR round32 tieWindow 110 48) = 529693 / 1048576
    rw [c48]
    exact round32_tie.2.2.2.2.2.2.2

theorem squareWindow_unit (i : Nat) :
    ∃ z : Int, sample squareWindow i = (z : ℚ) ∧ |z| ≤ 1 := by
  by_cases hi : i < 120
  · rw [squareWindow_sample i hi]
    split_ifs
    · exact ⟨1, by simp, by decide⟩
    · exact ⟨-1, by simp, by decide⟩
  · refine ⟨0, ?_, by decide⟩
    unfold squareWindow
    rw [sample_map_range, if_neg hi]; simp

/-- The samples of `tieWindow` are binary32 values. -/
theorem tieWindow_float (i : Nat) : round32 (sample tieWindow i) = sample tieWindow i := by
  obtain ⟨z, hz, hb⟩ := tieWindow_unit i
  rw [hz]
  exact round32_int z (lt_of_le_of_lt hb (by decide))

/-- The samples of `squareWindow` are binary32 values. -/
theorem squareWindow_float (i : Nat) :
    round32 (sample squareWindow i) = sample squareWindow i := by
  obtain ⟨z, hz, hb⟩ := squareWindow_unit i
  rw [hz]
  exact round32_int z (lt_of_le_of_lt hb (by decide))

end Windows

/-! ## Pure tones with a whole number of samples per period -/

section ToneSums

open Real

end ToneSums

section ToneCurve

open Real

end ToneCurve

/-! ## The claims of the specification -/

section Claims

variable {K : Type} [LinearOrderedField K]

/-- An array read of the cumulative array at a lag of the loop range. -/
theorem cumulative_read (buffer : List K) (size : Int) (tau : Nat)
    (h2 : tau < MAX_LAG) (h3 : (tau : Int) < halfSize size) :
    LocalArray.read (prefixArray (max 1 (lagLimit size)) (cmnd buffer size)) tau
      = .ok (cmnd buffer size tau) := by
  have h4 : tau < lagLimit size := by
    unfold lagLimit
    exact lt_min h2 ((lt_halfSize_iff size tau).1 h3)
  exact prefixArray_read _ _ tau (lt_of_lt_of_le h4 (le_max_right _ _)) h2

/-- C1 (bounded outputs). For every window of at least `size` samples with
`0 < size <= 2 * MAX_LAG` and every threshold in `(0, 1)`, `detect_pitch_yin` and
`detect_pitch_autocorr` both return a result, and in each result `confidence` and
`clarity` lie in `[0, 1]`. -/
theorem bounded_outputs (buffer : List K) (size : Int) (threshold : K)
    (hsize : 0 < size) (hmax : size ≤ 2 * (MAX_LAG : Int))
    (hlen : size ≤ (buffer.length : Int)) (ht0 : 0 < threshold) (ht1 : threshold < 1) :
    (∃ r, detect_pitch_yin buffer size threshold = .ok r ∧
        0 ≤ r.confidence ∧ r.confidence ≤ 1 ∧ 0 ≤ r.clarity ∧ r.clarity ≤ 1)
    ∧ (∃ r, detect_pitch_autocorr buffer size = .ok r ∧
        0 ≤ r.confidence ∧ r.confidence ≤ 1 ∧ 0 ≤ r.clarity ∧ r.clarity ≤ 1) := by
  have hN : halfN size ≤ MAX_LAG :=
    halfN_le_max_of_halfSize size (halfSize_le_of_size_le size hmax)
  constructor
  · rcases detect_pitch_yin_cases buffer size threshold hlen with
      ⟨k, tau, hd, hr⟩ | ⟨k, ho, hr⟩ | ⟨tau, hg, _, hr⟩ | ⟨tau, hg, _, hbig, hr⟩ | ⟨hn, hr⟩
    · obtain ⟨h1, h2, h3, h4, h5, h6, h7, h8⟩ := hd
      have hle := strictDescent_le (cmnd buffer size) k tau h5 h7
      exact ⟨_, hr, yinOutput_bounds buffer size tau h6 (by linarith)⟩
    · exact absurd ho.2.2.2.2.1 (by omega)
    · exact ⟨_, hr, yinOutput_bounds buffer size tau hg.2.2.1 hg.2.2.2.1.le⟩
    · omega
    · exact ⟨_, hr, null_bounds⟩
  · rcases detect_pitch_autocorr_cases buffer size hlen with ⟨_, hr⟩ | ⟨t, hb, hr⟩ | ⟨ho, hr⟩
    · exact ⟨_, hr, null_bounds⟩
    · exact ⟨_, hr, autocorrOutput_bounds buffer size t hb⟩
    · exact absurd ho.1 (by omega)

/-- Witness of C1: the 100-sample window `steepWindow` with threshold `3/5`. -/
theorem bounded_outputs_witness :
    (0 : Int) < 100 ∧ (100 : Int) ≤ 2 * (MAX_LAG : Int) ∧
    (100 : Int) ≤ (steepWindow.length : Int) ∧
    (0 : ℚ) < 3 / 5 ∧ (3 / 5 : ℚ) < 1 ∧
    ((∃ r, detect_pitch_yin steepWindow 100 (3 / 5) = .ok r ∧
        0 ≤ r.confidence ∧ r.confidence ≤ 1 ∧ 0 ≤ r.clarity ∧ r.clarity ≤ 1)
    ∧ (∃ r, detect_pitch_autocorr steepWindow 100 = .ok r ∧
        0 ≤ r.confidence ∧ r.confidence ≤ 1 ∧ 0 ≤ r.clarity ∧ r.clarity ≤ 1)) :=
  ⟨by decide, by decide, by rw [steepWindow_length]; decide, by norm_num, by norm_num,
    bounded_outputs steepWindow 100 (3 / 5) (by decide) (by decide)
      (by rw [steepWindow_length]; decide) (by norm_num) (by norm_num)⟩

/-- C2 fails on the code: on `steepWindow` (100 samples) with threshold `3/5`,
`detect_pitch_yin` selects `tau = 48 = MIN_LAG`, where the CMND curve is rising
(`d'(47) = 47/91 < d'(48) = 480/829 < d'(49) = 77/120`) and almost straight; the
parabolic refinement gives `better_tau = -1021595/2326 < 0`, and the result, which is
not the null result, has the negative `pitch_hz = -22329600/204319`. -/
theorem pitch_negative_counterexample :
    (0 : ℚ) < 3 / 5 ∧ (3 / 5 : ℚ) < 1 ∧
    detect_pitch_yin steepWindow 100 (3 / 5)
      = .ok ⟨-22329600 / 204319, 349 / 829, 4 / 5⟩ ∧
    (-22329600 / 204319 : ℚ) < 0 := by
  refine ⟨by norm_num, by norm_num, steepWindow_run, by norm_num⟩

/-- Sign of `pitch_hz` (what holds of C2). For every window of at least `size` samples,
every size and every threshold: `detect_pitch_autocorr` returns a result with
`pitch_hz >= 0`, and `> 0` unless the result is the null result; `detect_pitch_yin`
returns the null result or, for a selected lag `tau` of `[MIN_LAG, size/2)`, a result
with `pitch_hz = 48000 / better_tau`, which is `> 0` whenever `tau > MIN_LAG` (then
`|better_tau - tau| <= 1/2`) or the refinement leaves `better_tau = tau`.  Only when
`size/2 > MAX_LAG` can either run read past its array instead of returning. -/
theorem pitch_sign (buffer : List K) (size : Int) (threshold : K)
    (hlen : size ≤ (buffer.length : Int)) :
    ((∃ r, detect_pitch_autocorr buffer size = .ok r ∧ 0 ≤ r.pitch_hz ∧
        (r ≠ PitchResult.null → 0 < r.pitch_hz))
      ∨ ((MAX_LAG : Int) < halfSize size ∧
          detect_pitch_autocorr buffer size = .error .outOfBounds))
    ∧ (detect_pitch_yin buffer size threshold = .ok PitchResult.null
      ∨ (∃ tau : Nat, MIN_LAG ≤ tau ∧ (tau : Int) < halfSize size ∧
          detect_pitch_yin buffer size threshold = .ok (yinOutput buffer size tau) ∧
          (yinOutput buffer size tau).pitch_hz
            = (48000 : K) / betterTau (cmnd buffer size) size tau ∧
          (MIN_LAG < tau →
            |betterTau (cmnd buffer size) size tau - (tau : K)| ≤ 1 / 2 ∧
            0 < (yinOutput buffer size tau).pitch_hz) ∧
          (betterTau (cmnd buffer size) size tau = (tau : K) →
            0 < (yinOutput buffer size tau).pitch_hz))
      ∨ ((MAX_LAG : Int) < halfSize size ∧
          detect_pitch_yin buffer size threshold = .error .outOfBounds)) := by
  have hmin := min_lag_eq
  constructor
  · rcases autocorr_grid buffer size hlen with ⟨r, hr, hnull | ⟨t, h1, h2, h3, h4, h5⟩⟩ | hf
    · left
      refine ⟨r, hr, ?_, fun hne => absurd hnull hne⟩
      rw [hnull]; exact le_refl _
    · left
      have hpos : 0 < r.pitch_hz := by
        rw [h3]
        have : (0 : K) < (t : K) := by exact_mod_cast (by omega : 0 < t)
        exact div_pos (by norm_num) this
      exact ⟨r, hr, hpos.le, fun _ => hpos⟩
    · exact Or.inr hf
  · rcases detect_pitch_yin_cases buffer size threshold hlen with
      ⟨k, tau, hd, hr⟩ | ⟨k, ho, hr⟩ | ⟨tau, hg, hnext, hr⟩ | ⟨tau, hg, _, hbig, hr⟩ | ⟨hn, hr⟩
    · right; left
      have hf := yin_pitch_facts buffer size tau (le_trans hd.1 hd.2.2.2.2.1)
        (fun h => dip_local_min _ size threshold k tau hd h)
      exact ⟨tau, le_trans hd.1 hd.2.2.2.2.1,
        lt_halfSize_of_lt_lagLimit size tau hd.2.2.2.2.2.1, hr, hf⟩
    · right; right
      exact ⟨max_lag_lt_halfSize size ho.2.2.2.2.1, hr⟩
    · right; left
      have hf := yin_pitch_facts buffer size tau hg.2.1
        (fun h => globalMin_local_min _ size threshold tau hg h hnext)
      exact ⟨tau, hg.2.1, lt_halfSize_of_lt_lagLimit size tau hg.2.2.1, hr, hf⟩
    · right; right
      exact ⟨max_lag_lt_halfSize size hbig, hr⟩
    · exact Or.inl hr

/-- The sign theorem at the window `steepWindow`, threshold `3/5`. -/
theorem pitch_sign_steepWindow :
    (100 : Int) ≤ (steepWindow.length : Int) ∧
    (((∃ r, detect_pitch_autocorr steepWindow 100 = .ok r ∧ 0 ≤ r.pitch_hz ∧
        (r ≠ PitchResult.null → 0 < r.pitch_hz))
      ∨ ((MAX_LAG : Int) < halfSize 100 ∧
          detect_pitch_autocorr steepWindow 100 = .error .outOfBounds))
    ∧ (detect_pitch_yin steepWindow 100 (3 / 5) = .ok PitchResult.null
      ∨ (∃ tau : Nat, MIN_LAG ≤ tau ∧ (tau : Int) < halfSize 100 ∧
          detect_pitch_yin steepWindow 100 (3 / 5) = .ok (yinOutput steepWindow 100 tau) ∧
          (yinOutput steepWindow 100 tau).pitch_hz
            = (48000 : ℚ) / betterTau (cmnd steepWindow 100) 100 tau ∧
          (MIN_LAG < tau →
            |betterTau (cmnd steepWindow 100) 100 tau - (tau : ℚ)| ≤ 1 / 2 ∧
            0 < (yinOutput steepWindow 100 tau).pitch_hz) ∧
          (betterTau (cmnd steepWindow 100) 100 tau = (tau : ℚ) →
            0 < (yinOutput steepWindow 100 tau).pitch_hz))
      ∨ ((MAX_LAG : Int) < halfSize 100 ∧
          detect_pitch_yin steepWindow 100 (3 / 5) = .error .outOfBounds))) :=
  ⟨by rw [steepWindow_length]; decide,
    pitch_sign steepWindow 100 (3 / 5) (by rw [steepWindow_length]; decide)⟩

section ToneRuns

open Real

end ToneRuns

/-- C4 (silence). For every `size > 0` and every threshold in `(0, 1)`, on an all-zero
window of at least `size` samples `detect_pitch_yin` and `detect_pitch_autocorr` return
the null result `{0, 0, 0}` and `calculate_rms` returns `0` (for a `sqrtf` with
`sqrtf(0) = 0`). -/
theorem silence (sqrtf : K → K) (buffer : List K) (size : Int) (threshold : K)
    (hsize : 0 < size) (hlen : size ≤ (buffer.length : Int))
    (hz : ∀ v ∈ buffer, v = 0) (ht0 : 0 < threshold) (ht1 : threshold < 1)
    (hsqrt : sqrtf 0 = 0) :
    detect_pitch_yin buffer size threshold = .ok PitchResult.null
    ∧ detect_pitch_autocorr buffer size = .ok PitchResult.null
    ∧ calculate_rms sqrtf buffer size = .ok 0
    ∧ get_rms sqrtf buffer size = .ok 0 := by
  have hrms : calculate_rms sqrtf buffer size = .ok 0 := by
    unfold calculate_rms
    rw [rms_sum_ok buffer size.toNat (by omega), bind_ok_eq]
    have h0 : (∑ i in Finset.range size.toNat, sample buffer i * sample buffer i) = 0 :=
      Finset.sum_eq_zero (fun i _ => by rw [sample_of_zero buffer hz, zero_mul])
    have hne : (size : K) ≠ 0 := by
      have : (0 : K) < (size : K) := by exact_mod_cast hsize
      exact ne_of_gt this
    unfold fdiv
    rw [h0, if_neg hne, bind_ok_eq, zero_div, hsqrt]
  refine ⟨?_, ?_, hrms, hrms⟩
  · apply detect_pitch_yin_null buffer size threshold hlen
    · intro j _ _; rw [cmnd_of_zero buffer hz]
    · intro j _ _; rw [cmnd_of_zero buffer hz]; exact ht1.le
  · apply detect_pitch_autocorr_null buffer size hlen
    intro j _ _; rw [corr_of_zero buffer hz]

/-- Witness of C4: one hundred zero samples over the reals, threshold `1/10`, the
real square root. -/
theorem silence_witness :
    (0 : Int) < 100 ∧ (100 : Int) ≤ ((List.replicate 100 (0 : ℝ)).length : Int) ∧
    (∀ v ∈ List.replicate 100 (0 : ℝ), v = 0) ∧ (0 : ℝ) < 1 / 10 ∧ (1 / 10 : ℝ) < 1 ∧
    Real.sqrt 0 = 0 ∧
    (detect_pitch_yin (List.replicate 100 (0 : ℝ)) 100 (1 / 10) = .ok PitchResult.null
    ∧ detect_pitch_autocorr (List.replicate 100 (0 : ℝ)) 100 = .ok PitchResult.null
    ∧ calculate_rms Real.sqrt (List.replicate 100 (0 : ℝ)) 100 = .ok 0
    ∧ get_rms Real.sqrt (List.replicate 100 (0 : ℝ)) 100 = .ok 0) :=
  ⟨by decide, by simp, fun v hv => (List.mem_replicate.1 hv).2, by norm_num, by norm_num,
    Real.sqrt_zero,
    silence Real.sqrt (List.replicate 100 (0 : ℝ)) 100 (1 / 10) (by decide) (by simp)
      (fun v hv => (List.mem_replicate.1 hv).2) (by norm_num) (by norm_num) Real.sqrt_zero⟩

/-- C5 (boundary). For every window of at least `size` samples, whatever its content,
every threshold and every `size` with `size / 2 <= MIN_LAG` (C integer division,
`size <= 0` included), `detect_pitch_yin` and `detect_pitch_autocorr` both return the
null result `{0, 0, 0}`. -/
theorem boundary (buffer : List K) (size : Int) (threshold : K)
    (hlen : size ≤ (buffer.length : Int)) (hsmall : halfSize size ≤ (MIN_LAG : Int)) :
    detect_pitch_yin buffer size threshold = .ok PitchResult.null
    ∧ detect_pitch_autocorr buffer size = .ok PitchResult.null := by
  have hL := lagLimit_le_of_halfSize_le size hsmall
  constructor
  · apply detect_pitch_yin_null buffer size threshold hlen
    · intro j h1 h2; omega
    · intro j h1 h2; omega
  · apply detect_pitch_autocorr_null buffer size hlen
    intro j h1 h2; omega

/-- Witness of C5: a window of 96 alternating samples (`96 / 2 = 48 = MIN_LAG`). -/
theorem boundary_witness :
    (96 : Int) ≤ (((List.range 96).map (fun i => if i % 2 = 0 then (1 : ℚ) else -1)).length : Int)
    ∧ halfSize 96 ≤ (MIN_LAG : Int)
    ∧ (detect_pitch_yin ((List.range 96).map (fun i => if i % 2 = 0 then (1 : ℚ) else -1)) 96
          (3 / 20) = .ok PitchResult.null
      ∧ detect_pitch_autocorr ((List.range 96).map (fun i => if i % 2 = 0 then (1 : ℚ) else -1))
          96 = .ok PitchResult.null) :=
  ⟨by simp, by decide,
    boundary ((List.range 96).map (fun i => if i % 2 = 0 then (1 : ℚ) else -1)) 96 (3 / 20)
      (by simp) (by decide)⟩

/-- C6 fails on the code at `size / 2 > MAX_LAG`: on `overrunWindow` (4098 samples, so
`size / 2 = 2049`) with threshold `3/5` the CMND curve is `1` on the lags `1 .. 2046` and
`2047/4093 < 3/5` at lag `2047 = MAX_LAG - 1`; the threshold scan stops there, and the
descent loop, whose test is only `i + 1 < size / 2`, reads `cumulative[2048]`, one cell
past the array of `MAX_LAG` cells. -/
theorem descent_overrun :
    (4098 : Int) ≤ (overrunWindow.length : Int) ∧
    (∀ j, MIN_LAG ≤ j → j < 2047 → ¬ cmnd overrunWindow 4098 j < 3 / 5) ∧
    cmnd overrunWindow 4098 2047 < 3 / 5 ∧
    (∃ diff cumulative, yinDiff overrunWindow 4098 = .ok diff ∧
      yinCumulative diff 4098 = .ok cumulative ∧
      LocalArray.read cumulative (MAX_LAG - 1) = .ok (2047 / 4093) ∧
      LocalArray.read cumulative MAX_LAG = .error .outOfBounds ∧
      yinSelectTau cumulative 4098 (3 / 5 : ℚ) = .error .outOfBounds) ∧
    detect_pitch_yin overrunWindow 4098 (3 / 5) = .error .outOfBounds := by
  have hmin := min_lag_eq
  have hmax := max_lag_eq
  have hlen : (4098 : Int) ≤ (overrunWindow.length : Int) := by
    rw [overrunWindow_length]; decide
  have hflat : ∀ j, MIN_LAG ≤ j → j < 2047 → ¬ cmnd overrunWindow 4098 j < 3 / 5 := by
    intro j h1 h2
    rw [overrunWindow_cmnd_flat j (by omega) (by omega)]; norm_num
  have hlast : cmnd overrunWindow 4098 2047 < 3 / 5 := by
    rw [overrunWindow_cmnd_last]; norm_num
  have hsel : yinSelectTau (prefixArray (max 1 (lagLimit 4098)) (cmnd overrunWindow 4098))
      4098 (3 / 5 : ℚ) = .error .outOfBounds := by
    rcases yinSelectTau_cases (cmnd overrunWindow 4098) 4098 (3 / 5 : ℚ) with
      ⟨k, tau, hd, hs⟩ | ⟨k, ho, hs⟩ | ⟨tau, hg, hs⟩ | ⟨hn, hs⟩
    · obtain ⟨h1, h2, h3, h4, h5, h6, h7, h8⟩ := hd
      rw [lagLimit_overrun] at h2 h6 h8
      rw [halfN_overrun] at h8
      have hk : k = 2047 := by
        by_contra hne
        exact hflat k h1 (by omega) h3
      have := (h8 (by omega)).1
      omega
    · exact hs
    · exact absurd hlast (hg.1 2047 (by omega) (by rw [lagLimit_overrun]; omega))
    · exact absurd hlast (hn.1 2047 (by omega) (by rw [lagLimit_overrun]; omega))
  refine ⟨hlen, hflat, hlast,
    ⟨_, _, yinDiff_eq _ 4098 hlen, yinCumulative_eq _ 4098, ?_, ?_, hsel⟩, ?_⟩
  · rw [lagLimit_overrun, prefixArray_read _ _ (MAX_LAG - 1) (by omega) (by omega)]
    have : MAX_LAG - 1 = 2047 := by omega
    rw [this, overrunWindow_cmnd_last]
  · simp [LocalArray.read]
  · rw [detect_pitch_yin_eq _ 4098 _ hlen, hsel, bind_error_eq]

/-- C7 (YIN threshold search). For every window of at least `size` samples with
`size/2 <= MAX_LAG` and every threshold, if `k` is the least lag of
`[MIN_LAG, size/2)` with `d'(k) < threshold`, then the search of `detect_pitch_yin`
selects the lag `tau >= k` such that `d'` decreases strictly on `k .. tau` and either
`tau + 1 = size/2` or `d'(tau+1) >= d'(tau)`; hence `d'(tau) <= d'(k) < threshold`.
Here `d'(j)` is the content of `cumulative[j]`, and the run returns the result built
from `tau`. -/
theorem threshold_search (buffer : List K) (size : Int) (threshold : K)
    (hlen : size ≤ (buffer.length : Int)) (hmax : halfSize size ≤ (MAX_LAG : Int))
    (k : Nat) (hk1 : MIN_LAG ≤ k) (hk2 : (k : Int) < halfSize size)
    (hk3 : cmnd buffer size k < threshold)
    (hleast : ∀ j, MIN_LAG ≤ j → j < k → ¬ cmnd buffer size j < threshold) :
    ∃ diff cumulative, ∃ tau : Nat, yinDiff buffer size = .ok diff ∧
      yinCumulative diff size = .ok cumulative ∧
      (∀ j : Nat, (j : Int) < halfSize size →
        LocalArray.read cumulative j = .ok (cmnd buffer size j)) ∧
      yinSelectTau cumulative size threshold = .ok (tau : Int) ∧
      k ≤ tau ∧ (tau : Int) < halfSize size ∧
      (∀ j, k ≤ j → j < tau → cmnd buffer size (j + 1) < cmnd buffer size j) ∧
      ((tau : Int) + 1 = halfSize size ∨ cmnd buffer size tau ≤ cmnd buffer size (tau + 1)) ∧
      cmnd buffer size tau ≤ cmnd buffer size k ∧ cmnd buffer size k < threshold ∧
      detect_pitch_yin buffer size threshold = .ok (yinOutput buffer size tau) := by
  have hN := halfN_le_max_of_halfSize size hmax
  have hL := lagLimit_eq_half size hN
  have hkN : k < halfN size := (lt_halfSize_iff size k).1 hk2
  have hcast := halfN_cast size (by omega)
  rcases yinSelectTau_cases (cmnd buffer size) size threshold with
    ⟨k', tau, hd, hs⟩ | ⟨k', ho, hs⟩ | ⟨tau, hg, hs⟩ | ⟨hn, hs⟩
  · obtain ⟨h1, h2, h3, h4, h5, h6, h7, h8⟩ := hd
    have hkk : k' = k := by
      rcases Nat.lt_trichotomy k' k with h | h | h
      · exact absurd h3 (hleast k' h1 h)
      · exact h
      · exact absurd hk3 (h4 k hk1 h)
    subst hkk
    refine ⟨_, _, tau, yinDiff_eq buffer size hlen, yinCumulative_eq buffer size,
      ?_, hs, h5, ?_, h7, ?_, strictDescent_le _ k' tau h5 h7, hk3, ?_⟩
    · intro j hj
      have hjN : j < halfN size := (lt_halfSize_iff size j).1 hj
      exact cumulative_read buffer size j (by omega) hj
    · exact (lt_halfSize_iff size tau).2 (by omega)
    · by_cases hnext : tau + 1 < halfN size
      · exact Or.inr (h8 hnext).2
      · left; omega
    · rw [detect_pitch_yin_eq buffer size threshold hlen, hs, bind_ok_eq,
        if_neg (selected_guard size tau (by have := min_lag_eq; omega) h6)]
      exact yinResult_eq buffer _ size tau hlen (by have := min_lag_eq; omega) h6
        (fun h => (h8 h).1)
  · exact absurd ho.2.2.2.2.1 (by omega)
  · exact absurd hk3 (hg.1 k hk1 (by omega))
  · exact absurd hk3 (hn.1 k hk1 (by omega))

/-- Witness of C7: `steepWindow` with threshold `3/5`; the least lag below the
threshold is `k = 48` with `d'(48) = 480/829`. -/
theorem threshold_search_witness :
    (100 : Int) ≤ (steepWindow.length : Int) ∧ halfSize 100 ≤ (MAX_LAG : Int) ∧
    MIN_LAG ≤ 48 ∧ ((48 : Nat) : Int) < halfSize 100 ∧ cmnd steepWindow 100 48 < 3 / 5 ∧
    (∀ j, MIN_LAG ≤ j → j < 48 → ¬ cmnd steepWindow 100 j < 3 / 5) ∧
    ∃ diff cumulative, ∃ tau : Nat, yinDiff steepWindow 100 = .ok diff ∧
      yinCumulative diff 100 = .ok cumulative ∧
      (∀ j : Nat, (j : Int) < halfSize 100 →
        LocalArray.read cumulative j = .ok (cmnd steepWindow 100 j)) ∧
      yinSelectTau cumulative 100 (3 / 5) = .ok (tau : Int) ∧
      48 ≤ tau ∧ (tau : Int) < halfSize 100 ∧
      (∀ j, 48 ≤ j → j < tau → cmnd steepWindow 100 (j + 1) < cmnd steepWindow 100 j) ∧
      ((tau : Int) + 1 = halfSize 100 ∨ cmnd steepWindow 100 tau ≤ cmnd steepWindow 100 (tau + 1)) ∧
      cmnd steepWindow 100 tau ≤ cmnd steepWindow 100 48 ∧ cmnd steepWindow 100 48 < 3 / 5 ∧
      detect_pitch_yin steepWindow 100 (3 / 5) = .ok (yinOutput steepWindow 100 tau) :=
  ⟨by rw [steepWindow_length]; decide, by decide, by decide, by decide,
    by rw [steepWindow_cmnd.2.1]; norm_num,
    fun j h1 h2 => by have := min_lag_eq; omega,
    threshold_search steepWindow 100 (3 / 5) (by rw [steepWindow_length]; decide) (by decide)
      48 (by decide) (by decide) (by rw [steepWindow_cmnd.2.1]; norm_num)
      (fun j h1 h2 => by have := min_lag_eq; omega)⟩

/-- C8, as stated, fails on the code: on the all-zero window of 100 samples with
threshold `1/2` the search range `[48, 50)` is non-empty and no lag in it has
`d' < threshold`, yet the search selects no lag (`tau` stays `-1`) and the null result
is returned. -/
theorem global_min_counterexample :
    MIN_LAG < lagLimit 100 ∧
    (∀ j, MIN_LAG ≤ j → j < lagLimit 100 →
      ¬ cmnd (List.replicate 100 (0 : ℚ)) 100 j < 1 / 2) ∧
    ∃ diff cumulative, yinDiff (List.replicate 100 (0 : ℚ)) 100 = .ok diff ∧
      yinCumulative diff 100 = .ok cumulative ∧
      yinSelectTau cumulative 100 (1 / 2 : ℚ) = .ok (-1) ∧
      detect_pitch_yin (List.replicate 100 (0 : ℚ)) 100 (1 / 2) = .ok PitchResult.null := by
  have hz : ∀ v ∈ List.replicate 100 (0 : ℚ), v = 0 := fun v hv => (List.mem_replicate.1 hv).2
  have hlen : (100 : Int) ≤ ((List.replicate 100 (0 : ℚ)).length : Int) := by simp
  refine ⟨by decide, ?_, _, _, yinDiff_eq _ 100 hlen, yinCumulative_eq _ 100, ?_, ?_⟩
  · intro j _ _
    rw [cmnd_of_zero _ hz]; norm_num
  · apply yinSelectTau_none
    · intro j _ _; rw [cmnd_of_zero _ hz]
    · intro j _ _; rw [cmnd_of_zero _ hz]; norm_num
  · apply detect_pitch_yin_null _ 100 _ hlen
    · intro j _ _; rw [cmnd_of_zero _ hz]
    · intro j _ _; rw [cmnd_of_zero _ hz]; norm_num

/-- C8 as amended (YIN fallback). For every window of at least `size` samples and
every threshold such that no lag of the search range `[MIN_LAG, min(MAX_LAG, size/2))`
has `d' < threshold`: if some lag of the range has `d' < 1`, the search selects the
first lag `tau` of the range at which `d'` attains its global minimum over the range,
and, when `size/2 <= MAX_LAG` or `tau + 1 < MAX_LAG` (the reads of lines 79-81 stay
inside `cumulative`), the run returns the result built from `tau`, which is not the
null result; if every lag of the range has `d' >= 1` (in particular if the range is
empty), no lag is selected (`tau` stays `-1`) and the null result is returned. -/
theorem global_min_fallback (buffer : List K) (size : Int) (threshold : K)
    (hlen : size ≤ (buffer.length : Int))
    (hno : ∀ j, MIN_LAG ≤ j → j < lagLimit size → ¬ cmnd buffer size j < threshold) :
    ∃ diff cumulative, yinDiff buffer size = .ok diff ∧
      yinCumulative diff size = .ok cumulative ∧
      ((∃ j, MIN_LAG ≤ j ∧ j < lagLimit size ∧ cmnd buffer size j < 1) →
        ∃ tau : Nat, MIN_LAG ≤ tau ∧ tau < lagLimit size ∧
          yinSelectTau cumulative size threshold = .ok (tau : Int) ∧
          (∀ j, MIN_LAG ≤ j → j < lagLimit size → cmnd buffer size tau ≤ cmnd buffer size j) ∧
          (∀ j, MIN_LAG ≤ j → j < tau → cmnd buffer size tau < cmnd buffer size j) ∧
          (halfSize size ≤ (MAX_LAG : Int) ∨ tau + 1 < MAX_LAG →
            ∃ r, detect_pitch_yin buffer size threshold = .ok r ∧ r ≠ PitchResult.null ∧
              r = yinOutput buffer size tau ∧ r.confidence = 1 - cmnd buffer size tau ∧
              0 < r.confidence)) ∧
      ((∀ j, MIN_LAG ≤ j → j < lagLimit size → 1 ≤ cmnd buffer size j) →
        yinSelectTau cumulative size threshold = .ok (-1) ∧
        detect_pitch_yin buffer size threshold = .ok PitchResult.null) := by
  have hmin := min_lag_eq
  refine ⟨_, _, yinDiff_eq buffer size hlen, yinCumulative_eq buffer size, ?_, ?_⟩
  · intro hex
    obtain ⟨tau, hg, hs⟩ := yinSelectTau_globalMin (cmnd buffer size) size threshold hno hex
    obtain ⟨h1, h2, h3, h4, h5, h6⟩ := hg
    refine ⟨tau, h2, h3, hs, h5, h6, ?_⟩
    intro hmax
    have hnext : tau + 1 < halfN size → tau + 1 < lagLimit size := by
      intro h
      rcases hmax with hm | hm
      · rw [lagLimit_eq_half size (halfN_le_max_of_halfSize size hm)]; exact h
      · unfold lagLimit; exact lt_min hm h
    refine ⟨yinOutput buffer size tau, ?_, yinOutput_ne_null buffer size tau h4, rfl, rfl, ?_⟩
    · rw [detect_pitch_yin_eq buffer size threshold hlen, hs, bind_ok_eq,
        if_neg (selected_guard size tau (by omega) h3)]
      exact yinResult_eq buffer _ size tau hlen (by omega) h3 hnext
    · show 0 < 1 - cmnd buffer size tau
      linarith
  · intro hall
    refine ⟨yinSelectTau_none _ size threshold hall ?_,
      detect_pitch_yin_null buffer size threshold hlen hall ?_⟩
    · intro j h1 h2; exact not_lt.1 (hno j h1 h2)
    · intro j h1 h2; exact not_lt.1 (hno j h1 h2)

/-- Witness of the amended C8: `steepWindow` with threshold `3/20`; no lag of
`[48, 50)` is below the threshold (`d'(48) = 480/829`, `d'(49) = 77/120`), lag 48 is
below `1`, and the run returns the result built from the global minimum. -/
theorem global_min_fallback_witness :
    (100 : Int) ≤ (steepWindow.length : Int) ∧
    (∀ j, MIN_LAG ≤ j → j < lagLimit 100 → ¬ cmnd steepWindow 100 j < 3 / 20) ∧
    (∃ j, MIN_LAG ≤ j ∧ j < lagLimit 100 ∧ cmnd steepWindow 100 j < 1) ∧
    halfSize 100 ≤ (MAX_LAG : Int) ∧
    ∃ diff cumulative, yinDiff steepWindow 100 = .ok diff ∧
      yinCumulative diff 100 = .ok cumulative ∧
      ∃ tau : Nat, MIN_LAG ≤ tau ∧ tau < lagLimit 100 ∧
        yinSelectTau cumulative 100 (3 / 20 : ℚ) = .ok (tau : Int) ∧
        (∀ j, MIN_LAG ≤ j → j < lagLimit 100 →
          cmnd steepWindow 100 tau ≤ cmnd steepWindow 100 j) ∧
        (∀ j, MIN_LAG ≤ j → j < tau → cmnd steepWindow 100 tau < cmnd steepWindow 100 j) ∧
        ∃ r, detect_pitch_yin steepWindow 100 (3 / 20) = .ok r ∧ r ≠ PitchResult.null ∧
          r = yinOutput steepWindow 100 tau ∧ r.confidence = 1 - cmnd steepWindow 100 tau ∧
          0 < r.confidence := by
  have hno : ∀ j, MIN_LAG ≤ j → j < lagLimit 100 → ¬ cmnd steepWindow 100 j < 3 / 20 := by
    intro j h1 h2
    rw [lagLimit_hundred] at h2
    rw [min_lag_eq] at h1
    interval_cases j
    · rw [steepWindow_cmnd.2.1]; norm_num
    · rw [steepWindow_cmnd.2.2]; norm_num
  have hex : ∃ j, MIN_LAG ≤ j ∧ j < lagLimit 100 ∧ cmnd steepWindow 100 j < 1 :=
    ⟨48, by decide, by decide, by rw [steepWindow_cmnd.2.1]; norm_num⟩
  obtain ⟨diff, cumulative, hd, hc, hsel, _⟩ :=
    global_min_fallback steepWindow 100 (3 / 20) (by rw [steepWindow_length]; decide) hno
  obtain ⟨tau, h1, h2, h3, h4, h5, h6⟩ := hsel hex
  exact ⟨by rw [steepWindow_length]; decide, hno, hex, by decide, diff, cumulative, hd, hc,
    tau, h1, h2, h3, h4, h5, h6 (Or.inl (by decide))⟩

/-- C9, as stated, fails on the code: in `flatPeakWindow` (100 samples) the lag 48 is
a peak candidate of `[MIN_LAG, size/2 - 1)` (`corr(47) = -1 < corr(48) = 0 > corr(49) = -1`),
yet `detect_pitch_autocorr` returns the null result instead of `pitch_hz = 48000 / 48`. -/
theorem best_peak_counterexample :
    (100 : Int) ≤ (flatPeakWindow.length : Int) ∧ halfSize 100 ≤ (MAX_LAG : Int) ∧
    MIN_LAG ≤ 48 ∧ ((48 : Nat) : Int) < halfSize 100 - 1 ∧
    corr flatPeakWindow 100 48 > corr flatPeakWindow 100 (48 - 1) ∧
    corr flatPeakWindow 100 48 > corr flatPeakWindow 100 (48 + 1) ∧
    detect_pitch_autocorr flatPeakWindow 100 = .ok PitchResult.null := by
  refine ⟨by rw [flatPeakWindow_length]; decide, by decide, by decide, by decide, ?_, ?_, ?_⟩
  · rw [flatPeakWindow_corr.1, flatPeakWindow_corr.2.1]; norm_num
  · rw [flatPeakWindow_corr.2.1, flatPeakWindow_corr.2.2]; norm_num
  · apply detect_pitch_autocorr_null _ 100 (by rw [flatPeakWindow_length]; decide)
    intro j h1 h2
    rw [lagLimit_hundred] at h2
    rw [min_lag_eq] at h1
    interval_cases j
    · rw [flatPeakWindow_corr.2.1]
    · rw [flatPeakWindow_corr.2.2]; norm_num

/-- C9 as amended (autocorrelation best peak). For every window of at least `size`
samples with `size/2 <= MAX_LAG`, call a lag `j >= MIN_LAG` with `j + 1 < size/2` a peak
candidate when `corr(j) > corr(j-1)` and `corr(j) > corr(j+1)`.  If some peak candidate
has a positive correlation, the scan sets `best_lag` to the first peak candidate whose
correlation is the highest among all peak candidates, and the result has
`pitch_hz = 48000 / best_lag`; if no peak candidate has a positive correlation (in
particular if there is none), the null result is returned. -/
theorem best_peak (buffer : List K) (size : Int)
    (hlen : size ≤ (buffer.length : Int)) (hmax : halfSize size ≤ (MAX_LAG : Int)) :
    ∃ correlations, autocorrFill buffer size = .ok correlations ∧
      ((∃ j, MIN_LAG ≤ j ∧ PeakCandidate (corr buffer size) size j ∧ 0 < corr buffer size j) →
        ∃ t : Nat, MIN_LAG ≤ t ∧ PeakCandidate (corr buffer size) size t ∧
          0 < corr buffer size t ∧
          (∀ j, MIN_LAG ≤ j → PeakCandidate (corr buffer size) size j →
            corr buffer size j ≤ corr buffer size t) ∧
          (∀ j, MIN_LAG ≤ j → j < t → PeakCandidate (corr buffer size) size j →
            corr buffer size j < corr buffer size t) ∧
          autocorrPeak correlations size = .ok (corr buffer size t, (t : Int)) ∧
          ∃ r, detect_pitch_autocorr buffer size = .ok r ∧
            r.pitch_hz = (48000 : K) / (t : K)) ∧
      ((∀ j, MIN_LAG ≤ j → PeakCandidate (corr buffer size) size j → corr buffer size j ≤ 0) →
        autocorrPeak correlations size = .ok (0, -1) ∧
        detect_pitch_autocorr buffer size = .ok PitchResult.null) := by
  have hN := halfN_le_max_of_halfSize size hmax
  refine ⟨_, autocorrFill_eq buffer size hlen, ?_, ?_⟩
  · rintro ⟨j, hj1, hj2, hj3⟩
    have hjL := peakCandidate_lt_lagLimit _ size j hN hj2
    rcases autocorrPeak_cases (corr buffer size) size with ⟨hn, _⟩ | ⟨t, hb, hp⟩ | ⟨ho, _⟩
    · exact absurd hj3 (not_lt.2 (hn j hj1 hjL hj2))
    · obtain ⟨h1, h2, h3, h4, h5, h6⟩ := hb
      refine ⟨t, h1, h4, h3,
        fun i hi hp' => h5 i hi (peakCandidate_lt_lagLimit _ size i hN hp') hp', h6, hp, ?_⟩
      rcases detect_pitch_autocorr_cases buffer size hlen with ⟨hn, _⟩ | ⟨t', hb', hr⟩ | ⟨ho, _⟩
      · exact absurd hj3 (not_lt.2 (hn j hj1 hjL hj2))
      · have htt : t' = t := by
          obtain ⟨g1, g2, g3, g4, g5, g6⟩ := hb'
          rcases Nat.lt_trichotomy t' t with h | h | h
          · exact absurd (h5 t' g1 g2 g4) (not_le.2 (lt_of_le_of_lt (le_refl _) (by
              have := h6 t' g1 h g4
              have := g5 t h1 h2 h4
              linarith)))
          · exact h
          · have := g6 t h1 h h4
            have := h5 t' g1 g2 g4
            linarith
        subst htt
        exact ⟨_, hr, by simp [autocorrOutput, SAMPLE_RATE]⟩
      · exact absurd ho.1 (by omega)
    · exact absurd ho.1 (by omega)
  · intro hall
    have hnp : ∀ j, MIN_LAG ≤ j → j < lagLimit size → corr buffer size j ≤ 0 ∨
        ¬ PeakCandidate (corr buffer size) size j := by
      intro j h1 _
      by_cases hp : PeakCandidate (corr buffer size) size j
      · exact Or.inl (hall j h1 hp)
      · exact Or.inr hp
    constructor
    · rcases autocorrPeak_cases (corr buffer size) size with ⟨_, hp⟩ | ⟨t, hb, _⟩ | ⟨ho, _⟩
      · exact hp
      · exact absurd hb.2.2.1 (not_lt.2 (hall t hb.1 hb.2.2.2.1))
      · exact absurd ho.1 (by omega)
    · rcases detect_pitch_autocorr_cases buffer size hlen with ⟨_, hr⟩ | ⟨t, hb, _⟩ | ⟨ho, _⟩
      · exact hr
      · exact absurd hb.2.2.1 (not_lt.2 (hall t hb.1 hb.2.2.2.1))
      · exact absurd ho.1 (by omega)

/-- Witness of the amended C9: in `twoPeakWindow` (108 samples) the lags 49 and 51 are
peak candidates with `corr(49) = 1` and `corr(51) = 2`; the scan first retains lag 49,
then replaces it by the higher peak at lag 51, and the result has
`pitch_hz = 48000 / 51`. -/
theorem best_peak_witness :
    (108 : Int) ≤ (twoPeakWindow.length : Int) ∧ halfSize 108 ≤ (MAX_LAG : Int) ∧
    MIN_LAG ≤ 49 ∧ PeakCandidate (corr twoPeakWindow 108) 108 49 ∧
    corr twoPeakWindow 108 49 = 1 ∧
    PeakCandidate (corr twoPeakWindow 108) 108 51 ∧ corr twoPeakWindow 108 51 = 2 ∧
    ∃ correlations, autocorrFill twoPeakWindow 108 = .ok correlations ∧
      autocorrPeak correlations 108 = .ok ((2 : ℚ), ((51 : Nat) : Int)) ∧
      ∃ r, detect_pitch_autocorr twoPeakWindow 108 = .ok r ∧
        r.pitch_hz = (48000 : ℚ) / ((51 : Nat) : ℚ) := by
  obtain ⟨c0, c47, c48, c49, c50, c51, c52, c53⟩ := twoPeakWindow_corr
  have hmin := min_lag_eq
  have e48 : corr twoPeakWindow 108 (49 - 1) = 0 := c48
  have e50 : corr twoPeakWindow 108 (49 + 1) = 0 := c50
  have e50' : corr twoPeakWindow 108 (51 - 1) = 0 := c50
  have e52 : corr twoPeakWindow 108 (51 + 1) = 0 := c52
  have hp49 : PeakCandidate (corr twoPeakWindow 108) 108 49 := by
    refine ⟨?_, by rw [halfN_twoPeak]; decide, ?_⟩
    · rw [c49, e48]; norm_num
    · rw [c49, e50]; norm_num
  have hp51 : PeakCandidate (corr twoPeakWindow 108) 108 51 := by
    refine ⟨?_, by rw [halfN_twoPeak]; decide, ?_⟩
    · rw [c51, e50']; norm_num
    · rw [c51, e52]; norm_num
  obtain ⟨correlations, hfill, hpos, _⟩ :=
    best_peak twoPeakWindow 108 (by rw [twoPeakWindow_length]; decide) (by decide)
  obtain ⟨t, h1, h2, h3, h4, h5, h6, r, hr, hpitch⟩ :=
    hpos ⟨49, by decide, hp49, by rw [c49]; norm_num⟩
  have ht : t = 51 := by
    have hle := h4 51 (by decide) hp51
    have hup := h2.2.1
    rw [halfN_twoPeak] at hup
    rw [c51] at hle
    have hcases : t = 48 ∨ t = 49 ∨ t = 50 ∨ t = 51 ∨ t = 52 := by omega
    rcases hcases with h | h | h | h | h
    · rw [h, c48] at hle; norm_num at hle
    · rw [h, c49] at hle; norm_num at hle
    · rw [h, c50] at hle; norm_num at hle
    · exact h
    · rw [h, c52] at hle; norm_num at hle
  subst ht
  rw [c51] at h6
  exact ⟨by rw [twoPeakWindow_length]; decide, by decide, by decide, hp49, c49, hp51, c51,
    correlations, hfill, h6, r, hr, hpitch⟩

/-- C10 (CMND definition and zero guard). On a window of at least `size` samples the
two array loops of `detect_pitch_yin` run without a fault (in particular without a
division by zero), and for every `tau` with `1 <= tau < min(MAX_LAG, size/2)` the cell
`diff[tau]` holds `d(tau) = sum_{i < size/2} (x[i] - x[i+tau])^2` and the cell
`cumulative[tau]` holds `d(tau) * tau / S(tau)` when `S(tau) = sum_{j=1..tau} d(j)` is
non-zero and `1` when it is zero; `S(tau) > 0` is the same as `S(tau) != 0`, and
`cumulative[tau] >= 0`. -/
theorem cmnd_definition (buffer : List K) (size : Int)
    (hlen : size ≤ (buffer.length : Int)) :
    ∃ diff cumulative, yinDiff buffer size = .ok diff ∧
      yinCumulative diff size = .ok cumulative ∧
      ∀ tau : Nat, 1 ≤ tau → tau < MAX_LAG → (tau : Int) < halfSize size →
        LocalArray.read diff tau
            = .ok (∑ i in Finset.range (halfSize size).toNat,
                (sample buffer i - sample buffer (i + tau)) ^ 2)
        ∧ yinD buffer size tau
            = ∑ i in Finset.range (halfSize size).toNat,
                (sample buffer i - sample buffer (i + tau)) ^ 2
        ∧ yinS buffer size tau = ∑ j in Finset.Icc 1 tau, yinD buffer size j
        ∧ LocalArray.read cumulative tau
            = .ok (if yinS buffer size tau = 0 then 1
                else yinD buffer size tau * (tau : K) / yinS buffer size tau)
        ∧ (0 < yinS buffer size tau ↔ yinS buffer size tau ≠ 0)
        ∧ (∀ v, LocalArray.read cumulative tau = .ok v → 0 ≤ v) := by
  refine ⟨_, _, yinDiff_eq buffer size hlen, yinCumulative_eq buffer size, ?_⟩
  intro tau h1 h2 h3
  have h4 : tau < lagLimit size := by
    unfold lagLimit
    exact lt_min h2 ((lt_halfSize_iff size tau).1 h3)
  have hne : tau ≠ 0 := by omega
  have hread := cumulative_read buffer size tau h2 h3
  refine ⟨?_, rfl, rfl, ?_, ?_, ?_⟩
  · rw [prefixArray_read _ _ tau (lt_of_lt_of_le h4 (le_max_right _ _)) h2]
    simp [diffCell, hne, yinD, halfN]
  · rw [hread]; simp [cmnd, hne]
  · exact ⟨fun h => ne_of_gt h, fun h => lt_of_le_of_ne (yinS_nonneg _ _ _) (Ne.symm h)⟩
  · intro v hv
    rw [hread] at hv
    cases hv
    exact cmnd_nonneg buffer size tau

/-- Witness of C10: the 100-sample window `steepWindow`. -/
theorem cmnd_definition_witness :
    (100 : Int) ≤ (steepWindow.length : Int) ∧
    ∃ diff cumulative, yinDiff steepWindow 100 = .ok diff ∧
      yinCumulative diff 100 = .ok cumulative ∧
      ∀ tau : Nat, 1 ≤ tau → tau < MAX_LAG → (tau : Int) < halfSize 100 →
        LocalArray.read diff tau
            = .ok (∑ i in Finset.range (halfSize 100).toNat,
                (sample steepWindow i - sample steepWindow (i + tau)) ^ 2)
        ∧ yinD steepWindow 100 tau
            = ∑ i in Finset.range (halfSize 100).toNat,
                (sample steepWindow i - sample steepWindow (i + tau)) ^ 2
        ∧ yinS steepWindow 100 tau = ∑ j in Finset.Icc 1 tau, yinD steepWindow 100 j
        ∧ LocalArray.read cumulative tau
            = .ok (if yinS steepWindow 100 tau = 0 then 1
                else yinD steepWindow 100 tau * (tau : ℚ) / yinS steepWindow 100 tau)
        ∧ (0 < yinS steepWindow 100 tau ↔ yinS steepWindow 100 tau ≠ 0)
        ∧ (∀ v, LocalArray.read cumulative tau = .ok v → 0 ≤ v) :=
  ⟨by rw [steepWindow_length]; decide,
    cmnd_definition steepWindow 100 (by rw [steepWindow_length]; decide)⟩

theorem prefixArray_read_inv (n : Nat) (f : Nat → K) (j : Nat) (v : K)
    (h : LocalArray.read (prefixArray n f) j = .ok v) : j < n ∧ j < MAX_LAG ∧ v = f j := by
  unfold LocalArray.read prefixArray at h
  by_cases h1 : j < MAX_LAG
  · rw [if_pos h1] at h
    by_cases h2 : j < n
    · rw [if_pos h2] at h
      injection h with h
      exact ⟨h2, h1, h.symm⟩
    · rw [if_neg h2] at h
      cases h
  · rw [if_neg h1] at h
    cases h

/-- A lag selected by the search of lines 48-70 that passes the test `tau > 0` is a
natural number of the search range, reached by a dip or as the global minimum. -/
theorem selected_lag (c : Nat → K) (size : Int) (threshold : K) (tau : Int)
    (hsel : yinSelectTau (prefixArray (max 1 (lagLimit size)) c) size threshold = .ok tau)
    (hpos : 0 < tau) :
    ∃ t : Nat, tau = (t : Int) ∧ MIN_LAG ≤ t ∧ t < lagLimit size ∧
      ((∃ k, DipAt c size threshold k t) ∨ GlobalMinAt c size threshold t) := by
  rcases yinSelectTau_cases c size threshold with
    ⟨k, t, hd, hs⟩ | ⟨k, ho, hs⟩ | ⟨t, hg, hs⟩ | ⟨hn, hs⟩
  · rw [hs] at hsel
    injection hsel with h
    exact ⟨t, h.symm, le_trans hd.1 hd.2.2.2.2.1, hd.2.2.2.2.2.1, Or.inl ⟨k, hd⟩⟩
  · rw [hs] at hsel
    cases hsel
  · rw [hs] at hsel
    injection hsel with h
    exact ⟨t, h.symm, hg.2.1, hg.2.2.1, Or.inr hg⟩
  · rw [hs] at hsel
    injection hsel with h
    omega

theorem yin_arrays_eq (buffer : List K) (size : Int) (hlen : size ≤ (buffer.length : Int))
    (diff cumulative : LocalArray K) (hdiff : yinDiff buffer size = .ok diff)
    (hcum : yinCumulative diff size = .ok cumulative) :
    cumulative = prefixArray (max 1 (lagLimit size)) (cmnd buffer size) := by
  rw [yinDiff_eq buffer size hlen] at hdiff
  injection hdiff with hdiff
  rw [← hdiff, yinCumulative_eq buffer size] at hcum
  injection hcum with hcum
  exact hcum.symm

/-- C11 (interpolation guard). For every window of at least `size` samples and every
threshold for which the search of `detect_pitch_yin` selects a lag `tau` (with
`0 < tau < size/2`, so that line 72 does not return): if `tau` is not strictly interior
(`tau >= size/2 - 1`), or the three cells `cumulative[tau-1]`, `cumulative[tau]`,
`cumulative[tau+1]` give a denominator `2*(2*s1 - s2 - s0)` of magnitude at most `1e-4`
(in particular when `s0 = 2*s1 - s2`), then the refinement is skipped
(`better_tau = tau`) and the run returns a result with `pitch_hz = 48000 / tau`, a
positive number. -/
theorem interpolation_guard (buffer : List K) (size : Int) (threshold : K)
    (diff cumulative : LocalArray K) (tau : Int)
    (hlen : size ≤ (buffer.length : Int))
    (hdiff : yinDiff buffer size = .ok diff)
    (hcum : yinCumulative diff size = .ok cumulative)
    (hsel : yinSelectTau cumulative size threshold = .ok tau)
    (hpos : 0 < tau) (hlt : tau < halfSize size)
    (hskip : ¬ tau < halfSize size - 1
      ∨ ∃ s0 s1 s2, LocalArray.read cumulative (tau - 1).toNat = .ok s0 ∧
          LocalArray.read cumulative tau.toNat = .ok s1 ∧
          LocalArray.read cumulative (tau + 1).toNat = .ok s2 ∧
          (|2 * (2 * s1 - s2 - s0)| ≤ 1 / 10000 ∨ s0 = 2 * s1 - s2)) :
    yinBetterTau cumulative size tau = .ok (tau : K) ∧
    ∃ r, detect_pitch_yin buffer size threshold = .ok r ∧
      r.pitch_hz = (48000 : K) / (tau : K) ∧ 0 < r.pitch_hz := by
  have hmin := min_lag_eq
  have harr := yin_arrays_eq buffer size hlen diff cumulative hdiff hcum
  subst harr
  obtain ⟨t, htau, h48, htL, _⟩ := selected_lag _ size threshold tau hsel hpos
  subst htau
  have hLM := lagLimit_le_max size
  have hLm : max 1 (lagLimit size) = lagLimit size := max_eq_right (by omega)
  have e2 : ((t : Int) + 1).toNat = t + 1 := by omega
  -- the cell `tau + 1` is read only inside the written part of the array
  have hnext : t + 1 < halfN size → t + 1 < lagLimit size := by
    intro hg
    rcases hskip with h | ⟨s0, s1, s2, _, _, h2, _⟩
    · exact absurd ((interp_guard_iff size t (by omega)).2 hg).2 h
    · rw [e2, hLm] at h2
      exact (prefixArray_read_inv _ _ _ _ h2).1
  have hbt := yinBetterTau_eq (cmnd buffer size) size t (by omega) htL hnext
  have hval : betterTau (cmnd buffer size) size t = (t : K) := by
    unfold betterTau
    by_cases hg : t + 1 < halfN size
    · rw [if_pos hg]
      rcases hskip with h | ⟨s0, s1, s2, h0, h1, h2, hden⟩
      · exact absurd ((interp_guard_iff size t (by omega)).2 hg).2 h
      · have e0 : ((t : Int) - 1).toNat = t - 1 := by omega
        have e1 : ((t : Int)).toNat = t := by omega
        rw [e0, hLm] at h0
        rw [e1, hLm] at h1
        rw [e2, hLm] at h2
        have v0 := (prefixArray_read_inv _ _ _ _ h0).2.2
        have v1 := (prefixArray_read_inv _ _ _ _ h1).2.2
        have v2 := (prefixArray_read_inv _ _ _ _ h2).2.2
        rw [← v0, ← v1, ← v2]
        have hsmall : ¬ |2 * (2 * s1 - s2 - s0)| > 1 / 10000 := by
          rcases hden with h | h
          · exact not_lt.2 h
          · have : 2 * (2 * s1 - s2 - s0) = 0 := by rw [h]; ring
            rw [this, abs_zero]
            exact not_lt.2 (by positivity)
        rw [if_neg hsmall]
    · rw [if_neg hg]
  have htpos : (0 : K) < (t : K) := by exact_mod_cast (by omega : 0 < t)
  have hcast : (((t : Int) : K)) = (t : K) := Int.cast_natCast t
  refine ⟨by rw [hbt, hval, hcast], yinOutput buffer size t, ?_, ?_, ?_⟩
  · rw [detect_pitch_yin_eq buffer size threshold hlen, hsel, bind_ok_eq,
      if_neg (selected_guard size t (by omega) htL)]
    exact yinResult_eq buffer _ size t hlen (by omega) htL hnext
  · show (SAMPLE_RATE : K) / betterTau (cmnd buffer size) size t = 48000 / ((t : Int) : K)
    rw [hval, hcast]
    simp [SAMPLE_RATE]
  · show 0 < (SAMPLE_RATE : K) / betterTau (cmnd buffer size) size t
    rw [hval]
    exact div_pos (by simp [SAMPLE_RATE]) htpos

/-- Witness of C11, on both ways of skipping the refinement.  On `guardWindow` (100
samples, threshold `13/20`) the search selects the interior lag `tau = 48`, the three
cells read are `47/91`, `624/1021`, `9506/13467`, and the denominator
`2*(2*s1 - s2 - s0)` is non-zero of magnitude about `5.2e-5 <= 1e-4`: the test of
line 83 fails, the refinement is skipped and `pitch_hz = 48000/48`.  On `squareWindow`
read as a window of 100 samples (threshold `3/20`) the search selects
`tau = 49 = size/2 - 1`, which is not strictly interior. -/
theorem interpolation_guard_witness :
    ((100 : Int) ≤ (guardWindow.length : Int) ∧
    yinDiff guardWindow 100
      = .ok (prefixArray (max 1 (lagLimit 100)) (diffCell guardWindow 100)) ∧
    yinCumulative (prefixArray (max 1 (lagLimit 100)) (diffCell guardWindow 100)) 100
      = .ok (prefixArray (max 1 (lagLimit 100)) (cmnd guardWindow 100)) ∧
    yinSelectTau (prefixArray (max 1 (lagLimit 100)) (cmnd guardWindow 100)) 100 (13 / 20 : ℚ)
      = .ok ((48 : Nat) : Int) ∧
    (0 : Int) < ((48 : Nat) : Int) ∧ ((48 : Nat) : Int) < halfSize 100 ∧
    ((48 : Nat) : Int) < halfSize 100 - 1 ∧
    LocalArray.read (prefixArray (max 1 (lagLimit 100)) (cmnd guardWindow 100))
      (((48 : Nat) : Int) - 1).toNat = .ok (47 / 91) ∧
    LocalArray.read (prefixArray (max 1 (lagLimit 100)) (cmnd guardWindow 100))
      ((48 : Nat) : Int).toNat = .ok (624 / 1021) ∧
    LocalArray.read (prefixArray (max 1 (lagLimit 100)) (cmnd guardWindow 100))
      (((48 : Nat) : Int) + 1).toNat = .ok (9506 / 13467) ∧
    (0 : ℚ) < |2 * (2 * (624 / 1021) - 9506 / 13467 - 47 / 91)| ∧
    |2 * (2 * (624 / 1021 : ℚ) - 9506 / 13467 - 47 / 91)| ≤ 1 / 10000 ∧
    (yinBetterTau (prefixArray (max 1 (lagLimit 100)) (cmnd guardWindow 100)) 100
        ((48 : Nat) : Int) = .ok ((((48 : Nat) : Int) : ℚ)) ∧
      ∃ r, detect_pitch_yin guardWindow 100 (13 / 20) = .ok r ∧
        r.pitch_hz = (48000 : ℚ) / (((48 : Nat) : Int) : ℚ) ∧ 0 < r.pitch_hz)) ∧
    ((100 : Int) ≤ (squareWindow.length : Int) ∧
    yinDiff squareWindow 100
      = .ok (prefixArray (max 1 (lagLimit 100)) (diffCell squareWindow 100)) ∧
    yinCumulative (prefixArray (max 1 (lagLimit 100)) (diffCell squareWindow 100)) 100
      = .ok (prefixArray (max 1 (lagLimit 100)) (cmnd squareWindow 100)) ∧
    yinSelectTau (prefixArray (max 1 (lagLimit 100)) (cmnd squareWindow 100)) 100 (3 / 20 : ℚ)
      = .ok 49 ∧
    (0 : Int) < 49 ∧ (49 : Int) < halfSize 100 ∧ ¬ (49 : Int) < halfSize 100 - 1 ∧
    (yinBetterTau (prefixArray (max 1 (lagLimit 100)) (cmnd squareWindow 100)) 100 49
        = .ok (((49 : Int) : ℚ)) ∧
      ∃ r, detect_pitch_yin squareWindow 100 (3 / 20) = .ok r ∧
        r.pitch_hz = (48000 : ℚ) / ((49 : Int) : ℚ) ∧ 0 < r.pitch_hz)) := by
  obtain ⟨c47, c48, c49⟩ := guardWindow_cmnd
  have hlen : (100 : Int) ≤ (guardWindow.length : Int) := by rw [guardWindow_length]; decide
  have hLm : max 1 (lagLimit 100) = 50 := by rw [lagLimit_hundred]; decide
  have r0 : LocalArray.read (prefixArray (max 1 (lagLimit 100)) (cmnd guardWindow 100))
      (((48 : Nat) : Int) - 1).toNat = .ok (47 / 91) := by
    rw [hLm, ← c47]; exact prefixArray_read _ _ 47 (by decide) (by decide)
  have r1 : LocalArray.read (prefixArray (max 1 (lagLimit 100)) (cmnd guardWindow 100))
      ((48 : Nat) : Int).toNat = .ok (624 / 1021) := by
    rw [hLm, ← c48]; exact prefixArray_read _ _ 48 (by decide) (by decide)
  have r2 : LocalArray.read (prefixArray (max 1 (lagLimit 100)) (cmnd guardWindow 100))
      (((48 : Nat) : Int) + 1).toNat = .ok (9506 / 13467) := by
    rw [hLm, ← c49]; exact prefixArray_read _ _ 49 (by decide) (by decide)
  have hsmall : |2 * (2 * (624 / 1021 : ℚ) - 9506 / 13467 - 47 / 91)| ≤ 1 / 10000 := by
    rw [abs_le]; constructor <;> norm_num
  have hnz : (0 : ℚ) < |2 * (2 * (624 / 1021) - 9506 / 13467 - 47 / 91)| := by
    rw [abs_pos]; norm_num
  exact ⟨⟨hlen, yinDiff_eq guardWindow 100 hlen, yinCumulative_eq guardWindow 100,
    guardWindow_select, by decide, by decide, by decide, r0, r1, r2, hnz, hsmall,
    interpolation_guard guardWindow 100 (13 / 20) _ _ ((48 : Nat) : Int) hlen
      (yinDiff_eq guardWindow 100 hlen) (yinCumulative_eq guardWindow 100)
      guardWindow_select (by decide) (by decide)
      (Or.inr ⟨47 / 91, 624 / 1021, 9506 / 13467, r0, r1, r2, Or.inl hsmall⟩)⟩,
    ⟨by rw [squareWindow_length]; decide,
    yinDiff_eq squareWindow 100 (by rw [squareWindow_length]; decide),
    yinCumulative_eq squareWindow 100,
    squareWindow_select 100 (3 / 20) (by decide) (by decide) (by norm_num),
    by decide, by decide, by decide,
    interpolation_guard squareWindow 100 (3 / 20) _ _ 49 (by rw [squareWindow_length]; decide)
      (yinDiff_eq squareWindow 100 (by rw [squareWindow_length]; decide))
      (yinCumulative_eq squareWindow 100)
      (squareWindow_select 100 (3 / 20) (by decide) (by decide) (by norm_num))
      (by decide) (by decide) (Or.inl (by decide))⟩⟩

/-- A result of `detect_pitch_yin` is the null result or carries the clarity of
lines 92-100. -/
theorem yin_result_clarity (buffer : List K) (size : Int) (threshold : K)
    (r : PitchResult K) (hlen : size ≤ (buffer.length : Int))
    (hr : detect_pitch_yin buffer size threshold = .ok r) :
    r = PitchResult.null ∨ r.clarity = clarityValue buffer size := by
  rcases detect_pitch_yin_cases buffer size threshold hlen with
    ⟨k, tau, _, h⟩ | ⟨k, _, h⟩ | ⟨tau, _, _, h⟩ | ⟨tau, _, _, _, h⟩ | ⟨_, h⟩
  · rw [h] at hr; injection hr with hr; right; rw [← hr]; rfl
  · rw [h] at hr; cases hr
  · rw [h] at hr; injection hr with hr; right; rw [← hr]; rfl
  · rw [h] at hr; cases hr
  · rw [h] at hr; injection hr with hr; left; exact hr.symm

/-- C12, as stated, fails on the code: on `steepWindow` (100 samples, threshold `3/5`)
the result is not the null result and has `clarity = 4/5 = 1 - 10 * 2/100`; the window
has 2 sign-changing adjacent pairs among its 99 adjacent pairs, and
`max(0, 1 - 10 * 2/99) = 79/99` is a different number. -/
theorem clarity_counterexample :
    detect_pitch_yin steepWindow 100 (3 / 5)
      = .ok ⟨-22329600 / 204319, 349 / 829, 4 / 5⟩ ∧
    (⟨-22329600 / 204319, 349 / 829, 4 / 5⟩ : PitchResult ℚ) ≠ PitchResult.null ∧
    (crossingPairs steepWindow 100).card = 2 ∧
    (Finset.range ((100 : Int) - 1).toNat).card = 99 ∧
    (4 / 5 : ℚ) ≠ max 0 (1 - 10 * ((2 : ℚ) / 99)) := by
  refine ⟨steepWindow_run, ?_, steepWindow_crossings, by simp, ?_⟩
  · intro h
    have := congrArg PitchResult.clarity h
    norm_num [PitchResult.null] at this
  · rw [max_eq_right (by norm_num)]
    norm_num

/-- C12 as amended (clarity formula). For every window of at least `size` samples for
which `detect_pitch_yin` returns a result other than the null result,
`clarity = max(0, 1 - 10 * zcr)`, where `zcr` is computed over the entire window and is
the number of adjacent sample pairs `(x[i-1], x[i])`, `1 <= i < size`, that change sign
(one sample `>= 0`, the other `< 0`), divided by `size`. -/
theorem clarity_formula (buffer : List K) (size : Int) (threshold : K) (r : PitchResult K)
    (hlen : size ≤ (buffer.length : Int))
    (hr : detect_pitch_yin buffer size threshold = .ok r) (hne : r ≠ PitchResult.null) :
    r.clarity = max 0 (1 - 10 * (((crossingPairs buffer size).card : K) / (size : K))) := by
  rcases yin_result_clarity buffer size threshold r hlen hr with h | h
  · exact absurd h hne
  · rw [h, clarityValue_eq]

/-- Witness of the amended C12: `steepWindow` with threshold `3/5`. -/
theorem clarity_formula_witness :
    (100 : Int) ≤ (steepWindow.length : Int) ∧
    detect_pitch_yin steepWindow 100 (3 / 5)
      = .ok ⟨-22329600 / 204319, 349 / 829, 4 / 5⟩ ∧
    (⟨-22329600 / 204319, 349 / 829, 4 / 5⟩ : PitchResult ℚ) ≠ PitchResult.null ∧
    (⟨-22329600 / 204319, 349 / 829, 4 / 5⟩ : PitchResult ℚ).clarity
      = max 0 (1 - 10 * (((crossingPairs steepWindow 100).card : ℚ) / ((100 : Int) : ℚ))) :=
  have hne : (⟨-22329600 / 204319, 349 / 829, 4 / 5⟩ : PitchResult ℚ) ≠ PitchResult.null := by
    intro h
    have := congrArg PitchResult.clarity h
    norm_num [PitchResult.null] at this
  ⟨by rw [steepWindow_length]; decide, steepWindow_run, hne,
    clarity_formula steepWindow 100 (3 / 5) _ (by rw [steepWindow_length]; decide)
      steepWindow_run hne⟩

theorem calculate_rms_eq (sqrtf : K → K) (buffer : List K) (size : Int) (hsize : 0 < size)
    (hlen : size ≤ (buffer.length : Int)) :
    calculate_rms sqrtf buffer size
      = .ok (sqrtf ((∑ i in Finset.range size.toNat, sample buffer i * sample buffer i)
          / (size : K))) := by
  have hne : (size : K) ≠ 0 := by
    have : (0 : K) < (size : K) := by exact_mod_cast hsize
    exact ne_of_gt this
  unfold calculate_rms
  rw [rms_sum_ok buffer size.toNat (by omega), bind_ok_eq]
  unfold fdiv
  rw [if_neg hne, bind_ok_eq]

/-- C13 (RMS definition). For every `size > 0`, every window of at least `size` samples
and a `sqrtf` that is a square root on the non-negative numbers, `calculate_rms` and
`get_rms` return `r >= 0` with `r^2 * size = sum_{i < size} x[i]^2`; consequently
`r = 0` if and only if every sample is zero, and `r <= |x[i]|` for some `i < size`,
that is `r <= max_i |x[i]|`. -/
theorem rms_definition (sqrtf : K → K) (buffer : List K) (size : Int)
    (hsize : 0 < size) (hlen : size ≤ (buffer.length : Int))
    (hsqrt : ∀ q, 0 ≤ q → 0 ≤ sqrtf q ∧ sqrtf q * sqrtf q = q) :
    ∃ r, calculate_rms sqrtf buffer size = .ok r ∧ get_rms sqrtf buffer size = .ok r ∧
      0 ≤ r ∧
      r ^ 2 * (size : K) = ∑ i in Finset.range size.toNat, (sample buffer i) ^ 2 ∧
      (r = 0 ↔ ∀ i, i < size.toNat → sample buffer i = 0) ∧
      ∃ i, i < size.toNat ∧ r ≤ |sample buffer i| := by
  have hpos : (0 : K) < (size : K) := by exact_mod_cast hsize
  have hcast : ((size.toNat : Nat) : K) = (size : K) := by
    have : ((size.toNat : Nat) : Int) = size := Int.toNat_of_nonneg hsize.le
    exact_mod_cast this
  have hn : 0 < size.toNat := by omega
  have hsum : (∑ i in Finset.range size.toNat, sample buffer i * sample buffer i)
      = ∑ i in Finset.range size.toNat, (sample buffer i) ^ 2 :=
    Finset.sum_congr rfl (fun i _ => (sq (sample buffer i)).symm)
  have hS0 : 0 ≤ ∑ i in Finset.range size.toNat, (sample buffer i) ^ 2 :=
    Finset.sum_nonneg (fun i _ => sq_nonneg _)
  have hrun := calculate_rms_eq sqrtf buffer size hsize hlen
  rw [hsum] at hrun
  obtain ⟨hr0, hrr⟩ := hsqrt _ (div_nonneg hS0 hpos.le)
  obtain ⟨r, hr⟩ : ∃ r, r = sqrtf ((∑ i in Finset.range size.toNat, (sample buffer i) ^ 2)
      / (size : K)) := ⟨_, rfl⟩
  rw [← hr] at hrun hr0 hrr
  have hsq : r ^ 2 * (size : K) = ∑ i in Finset.range size.toNat, (sample buffer i) ^ 2 := by
    rw [sq, hrr, div_mul_cancel₀ _ (ne_of_gt hpos)]
  refine ⟨r, hrun, hrun, hr0, hsq, ?_, ?_⟩
  · constructor
    · intro hz
      have h0 : (∑ i in Finset.range size.toNat, (sample buffer i) ^ 2) = 0 := by
        rw [← hsq, hz]; ring
      have := (Finset.sum_eq_zero_iff_of_nonneg (fun i _ => sq_nonneg (sample buffer i))).1 h0
      intro i hi
      exact pow_eq_zero_iff (by norm_num) |>.1 (this i (Finset.mem_range.2 hi))
    · intro hall
      have h0 : (∑ i in Finset.range size.toNat, (sample buffer i) ^ 2) = 0 :=
        Finset.sum_eq_zero (fun i hi => by rw [hall i (Finset.mem_range.1 hi)]; ring)
      rw [h0] at hsq
      have h1 : r ^ 2 = 0 := by
        rcases mul_eq_zero.1 hsq with h | h
        · exact h
        · exact absurd h (ne_of_gt hpos)
      exact pow_eq_zero_iff (by norm_num) |>.1 h1
  · by_contra hcon
    have hall : ∀ i ∈ Finset.range size.toNat, (sample buffer i) ^ 2 < r ^ 2 := by
      intro i hi
      have hlt : |sample buffer i| < r := by
        by_contra h
        exact hcon ⟨i, Finset.mem_range.1 hi, not_lt.1 h⟩
      rw [← sq_abs (sample buffer i)]
      exact pow_lt_pow_left₀ hlt (abs_nonneg _) (by norm_num)
    have hlt := Finset.sum_lt_sum_of_nonempty (Finset.nonempty_range_iff.2 (by omega)) hall
    rw [Finset.sum_const, Finset.card_range, nsmul_eq_mul, hcast, mul_comm, hsq] at hlt
    exact lt_irrefl _ hlt

/-- Witness of C13: the real window `[3, 4]` with the real square root. -/
theorem rms_definition_witness :
    (0 : Int) < 2 ∧ (2 : Int) ≤ (([3, 4] : List ℝ).length : Int) ∧
    (∀ q : ℝ, 0 ≤ q → 0 ≤ Real.sqrt q ∧ Real.sqrt q * Real.sqrt q = q) ∧
    ∃ r, calculate_rms Real.sqrt ([3, 4] : List ℝ) 2 = .ok r ∧
      get_rms Real.sqrt ([3, 4] : List ℝ) 2 = .ok r ∧ 0 ≤ r ∧
      r ^ 2 * ((2 : Int) : ℝ)
        = ∑ i in Finset.range (2 : Int).toNat, (sample ([3, 4] : List ℝ) i) ^ 2 ∧
      (r = 0 ↔ ∀ i, i < (2 : Int).toNat → sample ([3, 4] : List ℝ) i = 0) ∧
      ∃ i, i < (2 : Int).toNat ∧ r ≤ |sample ([3, 4] : List ℝ) i| :=
  ⟨by decide, by simp, fun q hq => ⟨Real.sqrt_nonneg q, Real.mul_self_sqrt hq⟩,
    rms_definition Real.sqrt [3, 4] 2 (by decide) (by simp)
      (fun q hq => ⟨Real.sqrt_nonneg q, Real.mul_self_sqrt hq⟩)⟩

/-- C14, as stated, fails on the code: with `size = -1` the call of `calculate_rms`
(and of `get_rms`) on the window `[1, 2]` is not rejected; the loop runs zero times,
the division `0 / -1` is evaluated and `sqrtf(0) = 0` is returned. -/
theorem rms_rejection_counterexample :
    (-1 : Int) ≤ 0 ∧
    calculate_rms Real.sqrt ([1, 2] : List ℝ) (-1) = .ok 0 ∧
    get_rms Real.sqrt ([1, 2] : List ℝ) (-1) = .ok 0 := by
  have h : calculate_rms Real.sqrt ([1, 2] : List ℝ) (-1) = .ok 0 := by
    unfold calculate_rms fdiv
    simp [sumLoop]
  exact ⟨by decide, h, h⟩

/-- C14 as amended (no input rejection). For every `size <= 0`, `calculate_rms` and
`get_rms` reject nothing: no sample is read and the sum is `0`; for `size < 0` the
division `0 / size` is evaluated and `sqrtf(0)` is returned, and for `size = 0` the
division `0 / 0` is evaluated, whose divisor is exactly zero, so that the run has no
finite value. -/
theorem rms_no_rejection (sqrtf : K → K) (buffer : List K) (size : Int) (hsize : size ≤ 0) :
    (size < 0 → calculate_rms sqrtf buffer size = .ok (sqrtf 0) ∧
      get_rms sqrtf buffer size = .ok (sqrtf 0)) ∧
    (size = 0 → calculate_rms sqrtf buffer size = .error .divByZero ∧
      get_rms sqrtf buffer size = .error .divByZero) := by
  have hn : size.toNat = 0 := by omega
  constructor
  · intro hneg
    have hne : (size : K) ≠ 0 := by
      have : (size : K) < 0 := by exact_mod_cast hneg
      exact ne_of_lt this
    have h : calculate_rms sqrtf buffer size = .ok (sqrtf 0) := by
      unfold calculate_rms fdiv
      rw [hn]
      simp [sumLoop, hne]
    exact ⟨h, h⟩
  · intro hz
    have h : calculate_rms sqrtf buffer size = .error .divByZero := by
      unfold calculate_rms fdiv
      rw [hn, hz]
      simp [sumLoop]
    exact ⟨h, h⟩

/-- Witness of the amended C14: the window `[1, 2]` with `size = -1` and the real
square root. -/
theorem rms_no_rejection_witness :
    (-1 : Int) ≤ 0 ∧
    (((-1 : Int) < 0 → calculate_rms Real.sqrt ([1, 2] : List ℝ) (-1) = .ok (Real.sqrt 0) ∧
      get_rms Real.sqrt ([1, 2] : List ℝ) (-1) = .ok (Real.sqrt 0)) ∧
    ((-1 : Int) = 0 → calculate_rms Real.sqrt ([1, 2] : List ℝ) (-1) = .error .divByZero ∧
      get_rms Real.sqrt ([1, 2] : List ℝ) (-1) = .error .divByZero)) :=
  ⟨by decide, rms_no_rejection Real.sqrt [1, 2] (-1) (by decide)⟩

theorem corr_zero_eq (buffer : List K) (size : Int) :
    corr buffer size 0 = ∑ i in Finset.range (halfSize size).toNat, (sample buffer i) ^ 2 := by
  unfold corr halfN
  exact Finset.sum_congr rfl (fun i _ => by rw [Nat.add_zero, sq])

theorem corr_of_zero_half (buffer : List K) (size : Int)
    (hz : ∀ i : Nat, (i : Int) < halfSize size → sample buffer i = 0) (lag : Nat) :
    corr buffer size lag = 0 := by
  unfold corr
  apply Finset.sum_eq_zero
  intro i hi
  rw [hz i ((lt_halfSize_iff size i).2 (Finset.mem_range.1 hi)), zero_mul]

/-- The division guard of `detect_pitch_autocorr` in exact arithmetic (what holds of
C15 when no product or sum is rounded). For every window of at least `size` samples
with `size/2 <= MAX_LAG`, the two loops of `detect_pitch_autocorr` run without a fault,
and whenever the scan selects a peak (`best_lag != -1`), the cell `correlations[0]`
holds `corr(0) = sum_{i < size/2} x[i]^2 > 0` and `best_corr > 0`, so that the division
`best_corr / correlations[0]` has a non-zero divisor and the result has
`confidence = min(best_corr / corr(0), 1)` in `(0, 1]`; with `best_lag == -1` the null
result is returned.  In particular, if the first half of the window is all zeros, no
peak is selected and the null result is returned, whatever the second half contains. -/
theorem autocorr_division_guard (buffer : List K) (size : Int)
    (hlen : size ≤ (buffer.length : Int)) (hmax : halfSize size ≤ (MAX_LAG : Int)) :
    ∃ correlations st, autocorrFill buffer size = .ok correlations ∧
      autocorrPeak correlations size = .ok st ∧
      (st.2 ≠ -1 →
        LocalArray.read correlations 0 = .ok (corr buffer size 0) ∧
        corr buffer size 0
          = ∑ i in Finset.range (halfSize size).toNat, (sample buffer i) ^ 2 ∧
        0 < corr buffer size 0 ∧ 0 < st.1 ∧
        fdiv st.1 (corr buffer size 0) = .ok (st.1 / corr buffer size 0) ∧
        ∃ r, detect_pitch_autocorr buffer size = .ok r ∧
          r.confidence = min (st.1 / corr buffer size 0) 1 ∧
          0 < r.confidence ∧ r.confidence ≤ 1) ∧
      (st.2 = -1 → detect_pitch_autocorr buffer size = .ok PitchResult.null) ∧
      ((∀ i : Nat, (i : Int) < halfSize size → sample buffer i = 0) →
        st.2 = -1 ∧ detect_pitch_autocorr buffer size = .ok PitchResult.null) := by
  have hN := halfN_le_max_of_halfSize size hmax
  have hLM := lagLimit_le_max size
  have hmin := min_lag_eq
  have hfill := autocorrFill_eq buffer size hlen
  have hdet : ∀ st, autocorrPeak (prefixArray (lagLimit size) (corr buffer size)) size = .ok st →
      detect_pitch_autocorr buffer size
        = (if st.2 = -1 then .ok PitchResult.null
            else (LocalArray.read (prefixArray (lagLimit size) (corr buffer size)) 0).bind
              (fun c0 => (fdiv st.1 c0).bind (fun q =>
                .ok ⟨(SAMPLE_RATE : K) / ((st.2 : Int) : K), min q 1, 0⟩))) := by
    intro st hst
    unfold detect_pitch_autocorr
    rw [hfill, bind_ok_eq, hst, bind_ok_eq]
  rcases autocorrPeak_cases (corr buffer size) size with ⟨hn, hp⟩ | ⟨t, hb, hp⟩ | ⟨ho, _⟩
  · refine ⟨_, _, hfill, hp, fun h => absurd rfl h, fun _ => ?_, fun _ => ⟨rfl, ?_⟩⟩
    · rw [hdet _ hp]; simp
    · rw [hdet _ hp]; simp
  · obtain ⟨h1, h2, h3, h4, h5, h6⟩ := hb
    have h0 := corr_zero_pos buffer size t h3
    have hread : LocalArray.read (prefixArray (lagLimit size) (corr buffer size)) 0
        = .ok (corr buffer size 0) := prefixArray_read _ _ 0 (by omega) (by omega)
    have hdiv : fdiv (corr buffer size t) (corr buffer size 0)
        = .ok (corr buffer size t / corr buffer size 0) := by
      unfold fdiv; rw [if_neg (ne_of_gt h0)]
    have hne : ¬ ((t : Int) = -1) := by omega
    refine ⟨_, _, hfill, hp, fun _ => ⟨hread, corr_zero_eq buffer size, h0, h3, hdiv, ?_⟩,
      fun h => absurd h hne, fun hz => ?_⟩
    · refine ⟨⟨(SAMPLE_RATE : K) / (((t : Int)) : K),
        min (corr buffer size t / corr buffer size 0) 1, 0⟩, ?_, rfl, ?_, min_le_right _ _⟩
      · rw [hdet _ hp]
        simp only [hne, if_false]
        rw [hread, bind_ok_eq, hdiv, bind_ok_eq]
      · exact lt_min (div_pos h3 h0) zero_lt_one
    · rw [corr_of_zero_half buffer size hz t] at h3
      exact absurd h3 (lt_irrefl _)
  · exact absurd ho.1 (by omega)

theorem dip_strict_min (c : Nat → K) (size : Int) (threshold : K) (k tau : Nat)
    (hd : DipAt c size threshold k tau) (h : MIN_LAG < tau) : c tau < c (tau - 1) := by
  obtain ⟨h1, h2, h3, h4, h5, h6, h7, h8⟩ := hd
  rcases Nat.eq_or_lt_of_le h5 with hk | hk
  · subst hk
    exact lt_of_lt_of_le h3 (not_lt.1 (h4 (k - 1) (by omega) (by omega)))
  · have := h7 (tau - 1) (by omega) (by omega)
    have e : tau - 1 + 1 = tau := by omega
    rw [e] at this
    exact this

theorem globalMin_strict_min (c : Nat → K) (size : Int) (threshold : K) (tau : Nat)
    (hg : GlobalMinAt c size threshold tau) (h : MIN_LAG < tau) : c tau < c (tau - 1) :=
  hg.2.2.2.2.2 (tau - 1) (by omega) (by omega)

/-- C16 (bounded refinement away from the range floor). For every window of at least
`size` samples with `size/2 <= MAX_LAG` and every threshold, if the search of
`detect_pitch_yin` selects a lag `tau` with `MIN_LAG < tau < size/2 - 1` (so that the
parabolic refinement of lines 78-86 is entered), then the three cells read satisfy
`d'(tau-1) > d'(tau) <= d'(tau+1)`, the refined lag satisfies
`|better_tau - tau| <= 1/2`, and the result has
`48000/(tau + 1/2) <= pitch_hz <= 48000/(tau - 1/2)`. -/
theorem bounded_refinement (buffer : List K) (size : Int) (threshold : K)
    (diff cumulative : LocalArray K) (tau : Nat)
    (hlen : size ≤ (buffer.length : Int)) (hmax : halfSize size ≤ (MAX_LAG : Int))
    (hdiff : yinDiff buffer size = .ok diff)
    (hcum : yinCumulative diff size = .ok cumulative)
    (hsel : yinSelectTau cumulative size threshold = .ok (tau : Int))
    (hfloor : MIN_LAG < tau) (hint : (tau : Int) < halfSize size - 1) :
    ∃ s0 s1 s2 better_tau r,
      LocalArray.read cumulative (tau - 1) = .ok s0 ∧ s0 = cmnd buffer size (tau - 1) ∧
      LocalArray.read cumulative tau = .ok s1 ∧ s1 = cmnd buffer size tau ∧
      LocalArray.read cumulative (tau + 1) = .ok s2 ∧ s2 = cmnd buffer size (tau + 1) ∧
      s0 > s1 ∧ s1 ≤ s2 ∧
      yinBetterTau cumulative size (tau : Int) = .ok better_tau ∧
      |better_tau - (tau : K)| ≤ 1 / 2 ∧
      detect_pitch_yin buffer size threshold = .ok r ∧
      r.pitch_hz = (48000 : K) / better_tau ∧
      (48000 : K) / ((tau : K) + 1 / 2) ≤ r.pitch_hz ∧
      r.pitch_hz ≤ (48000 : K) / ((tau : K) - 1 / 2) := by
  have hmin := min_lag_eq
  have hN := halfN_le_max_of_halfSize size hmax
  have hL := lagLimit_eq_half size hN
  have harr := yin_arrays_eq buffer size hlen diff cumulative hdiff hcum
  subst harr
  obtain ⟨t, htau, h48, htL, hkind⟩ :=
    selected_lag _ size threshold (tau : Int) hsel (by omega)
  have ht : t = tau := by omega
  subst ht
  have hg : t + 1 < halfN size := (interp_guard_iff size t (by omega)).1 ⟨by omega, hint⟩
  have hnext : t + 1 < halfN size → t + 1 < lagLimit size := fun h => by rw [hL]; exact h
  have hLm : max 1 (lagLimit size) = lagLimit size := max_eq_right (by omega)
  have hstrict : cmnd buffer size t < cmnd buffer size (t - 1) := by
    rcases hkind with ⟨k, hd⟩ | hgm
    · exact dip_strict_min _ size threshold k t hd hfloor
    · exact globalMin_strict_min _ size threshold t hgm hfloor
  have hright : cmnd buffer size t ≤ cmnd buffer size (t + 1) := by
    rcases hkind with ⟨k, hd⟩ | hgm
    · exact (dip_local_min _ size threshold k t hd hfloor).2 hg
    · exact (globalMin_local_min _ size threshold t hgm hfloor hnext).2 hg
  have hclose := betterTau_close (cmnd buffer size) size t hstrict.le (fun _ => hright)
  have hbt := yinBetterTau_eq (cmnd buffer size) size t (by omega) htL hnext
  have hlo := (abs_le.1 hclose).1
  have hhi := (abs_le.1 hclose).2
  have hcast : (49 : K) ≤ (t : K) := by exact_mod_cast (by omega : 49 ≤ t)
  have hbpos : 0 < betterTau (cmnd buffer size) size t := by linarith
  refine ⟨_, _, _, betterTau (cmnd buffer size) size t, yinOutput buffer size t,
    ?_, rfl, ?_, rfl, ?_, rfl, hstrict, hright, hbt, hclose, ?_, ?_, ?_, ?_⟩
  · rw [hLm]; exact prefixArray_read _ _ (t - 1) (by omega) (by omega)
  · rw [hLm]; exact prefixArray_read _ _ t htL (by omega)
  · rw [hLm]; exact prefixArray_read _ _ (t + 1) (hnext hg) (by omega)
  · rw [detect_pitch_yin_eq buffer size threshold hlen, hsel, bind_ok_eq,
      if_neg (selected_guard size t (by omega) htL)]
    exact yinResult_eq buffer _ size t hlen (by omega) htL hnext
  · simp [yinOutput, SAMPLE_RATE]
  · show (48000 : K) / ((t : K) + 1 / 2) ≤ (SAMPLE_RATE : K) / betterTau (cmnd buffer size) size t
    have : (SAMPLE_RATE : K) = 48000 := by simp [SAMPLE_RATE]
    rw [this]
    exact div_le_div_of_nonneg_left (by norm_num) hbpos (by linarith)
  · show (SAMPLE_RATE : K) / betterTau (cmnd buffer size) size t ≤ (48000 : K) / ((t : K) - 1 / 2)
    have : (SAMPLE_RATE : K) = 48000 := by simp [SAMPLE_RATE]
    rw [this]
    exact div_le_div_of_nonneg_left (by norm_num) (by linarith) (by linarith)

/-- Witness of C16: the square wave `squareWindow` (period 49, 120 samples) with
threshold `3/20`; the search selects `tau = 49`, and `48 < 49 < 59`. -/
theorem bounded_refinement_witness :
    (120 : Int) ≤ (squareWindow.length : Int) ∧ halfSize 120 ≤ (MAX_LAG : Int) ∧
    yinDiff squareWindow 120
      = .ok (prefixArray (max 1 (lagLimit 120)) (diffCell squareWindow 120)) ∧
    yinCumulative (prefixArray (max 1 (lagLimit 120)) (diffCell squareWindow 120)) 120
      = .ok (prefixArray (max 1 (lagLimit 120)) (cmnd squareWindow 120)) ∧
    yinSelectTau (prefixArray (max 1 (lagLimit 120)) (cmnd squareWindow 120)) 120 (3 / 20 : ℚ)
      = .ok ((49 : Nat) : Int) ∧
    MIN_LAG < 49 ∧ ((49 : Nat) : Int) < halfSize 120 - 1 ∧
    ∃ s0 s1 s2 better_tau r,
      LocalArray.read (prefixArray (max 1 (lagLimit 120)) (cmnd squareWindow 120)) (49 - 1)
        = .ok s0 ∧ s0 = cmnd squareWindow 120 (49 - 1) ∧
      LocalArray.read (prefixArray (max 1 (lagLimit 120)) (cmnd squareWindow 120)) 49
        = .ok s1 ∧ s1 = cmnd squareWindow 120 49 ∧
      LocalArray.read (prefixArray (max 1 (lagLimit 120)) (cmnd squareWindow 120)) (49 + 1)
        = .ok s2 ∧ s2 = cmnd squareWindow 120 (49 + 1) ∧
      s0 > s1 ∧ s1 ≤ s2 ∧
      yinBetterTau (prefixArray (max 1 (lagLimit 120)) (cmnd squareWindow 120)) 120
        ((49 : Nat) : Int) = .ok better_tau ∧
      |better_tau - ((49 : Nat) : ℚ)| ≤ 1 / 2 ∧
      detect_pitch_yin squareWindow 120 (3 / 20) = .ok r ∧
      r.pitch_hz = (48000 : ℚ) / better_tau ∧
      (48000 : ℚ) / (((49 : Nat) : ℚ) + 1 / 2) ≤ r.pitch_hz ∧
      r.pitch_hz ≤ (48000 : ℚ) / (((49 : Nat) : ℚ) - 1 / 2) :=
  ⟨by rw [squareWindow_length]; decide, by decide,
    yinDiff_eq squareWindow 120 (by rw [squareWindow_length]; decide),
    yinCumulative_eq squareWindow 120, (squareWindow_select 120 (3 / 20) (by decide) (by decide) (by norm_num)), by decide, by decide,
    bounded_refinement squareWindow 120 (3 / 20) _ _ 49
      (by rw [squareWindow_length]; decide) (by decide)
      (yinDiff_eq squareWindow 120 (by rw [squareWindow_length]; decide))
      (yinCumulative_eq squareWindow 120) (squareWindow_select 120 (3 / 20) (by decide) (by decide) (by norm_num)) (by decide) (by decide)⟩

/-- With `size/2 <= MAX_LAG` and a threshold `<= 1`, `detect_pitch_yin` returns a
result, and the search leaves `tau == -1` (the null result is returned) exactly when
no lag of the search range has a CMND value below `1`. -/
theorem yin_null_iff (buffer : List K) (size : Int) (threshold : K)
    (hlen : size ≤ (buffer.length : Int)) (hmax : halfSize size ≤ (MAX_LAG : Int))
    (ht1 : threshold ≤ 1) :
    (yinSelectTau (prefixArray (max 1 (lagLimit size)) (cmnd buffer size)) size threshold
        = .ok (-1)
      ↔ ∀ j : Nat, MIN_LAG ≤ j → (j : Int) < halfSize size → 1 ≤ cmnd buffer size j) ∧
    (detect_pitch_yin buffer size threshold = .ok PitchResult.null
      ↔ ∀ j : Nat, MIN_LAG ≤ j → (j : Int) < halfSize size → 1 ≤ cmnd buffer size j) ∧
    ∃ r, detect_pitch_yin buffer size threshold = .ok r := by
  have hN := halfN_le_max_of_halfSize size hmax
  have hall_of : (∀ j : Nat, MIN_LAG ≤ j → (j : Int) < halfSize size →
      1 ≤ cmnd buffer size j) →
      ∀ j, MIN_LAG ≤ j → j < lagLimit size → 1 ≤ cmnd buffer size j :=
    fun h j h1 h2 => h j h1 ((lt_lagLimit_iff size hmax j).1 h2)
  refine ⟨⟨?_, ?_⟩, ⟨?_, ?_⟩, ?_⟩
  · intro hsel j h1 h2
    have hjL := (lt_lagLimit_iff size hmax j).2 h2
    rcases yinSelectTau_cases (cmnd buffer size) size threshold with
      ⟨k, tau, hd, hs⟩ | ⟨k, ho, hs⟩ | ⟨tau, hg, hs⟩ | ⟨hn, hs⟩
    · rw [hs] at hsel; injection hsel with h; omega
    · rw [hs] at hsel; cases hsel
    · rw [hs] at hsel; injection hsel with h; omega
    · exact hn.2 j h1 hjL
  · intro hall
    exact yinSelectTau_none _ size threshold (hall_of hall)
      (fun j h1 h2 => le_trans ht1 (hall_of hall j h1 h2))
  · intro hnull j h1 h2
    have hjL := (lt_lagLimit_iff size hmax j).2 h2
    rcases detect_pitch_yin_cases buffer size threshold hlen with
      ⟨k, tau, hd, hr⟩ | ⟨k, ho, hr⟩ | ⟨tau, hg, _, hr⟩ | ⟨tau, hg, _, hbig, hr⟩ | ⟨hn, hr⟩
    · rw [hr] at hnull
      injection hnull with hnull
      have hle := strictDescent_le (cmnd buffer size) k tau hd.2.2.2.2.1 hd.2.2.2.2.2.2.1
      exact absurd hnull (yinOutput_ne_null buffer size tau
        (lt_of_le_of_lt hle (lt_of_lt_of_le hd.2.2.1 ht1)))
    · rw [hr] at hnull; cases hnull
    · rw [hr] at hnull
      injection hnull with hnull
      exact absurd hnull (yinOutput_ne_null buffer size tau hg.2.2.2.1)
    · rw [hr] at hnull; cases hnull
    · exact hn.2 j h1 hjL
  · intro hall
    exact detect_pitch_yin_null buffer size threshold hlen (hall_of hall)
      (fun j h1 h2 => le_trans ht1 (hall_of hall j h1 h2))
  · rcases detect_pitch_yin_cases buffer size threshold hlen with
      ⟨k, tau, hd, hr⟩ | ⟨k, ho, hr⟩ | ⟨tau, hg, _, hr⟩ | ⟨tau, hg, _, hbig, hr⟩ | ⟨hn, hr⟩
    · exact ⟨_, hr⟩
    · exact absurd ho.2.2.2.2.1 (by omega)
    · exact ⟨_, hr⟩
    · omega
    · exact ⟨_, hr⟩

/-- C17 (detection does not depend on the threshold). For every window of at least
`size` samples with `size/2 <= MAX_LAG` and thresholds `t1`, `t2` in `(0, 1]`:
`detect_pitch_yin` returns a result; its search leaves `tau == -1` and it returns the
null result `{0, 0, 0}` if and only if every lag `j` of `[MIN_LAG, size/2)` has
`d'(j) >= 1`; hence the result for `t1` is the null result exactly when the result for
`t2` is. -/
theorem threshold_independence (buffer : List K) (size : Int) (t1 t2 : K)
    (hlen : size ≤ (buffer.length : Int)) (hmax : halfSize size ≤ (MAX_LAG : Int))
    (h1 : 0 < t1) (h1' : t1 ≤ 1) (h2 : 0 < t2) (h2' : t2 ≤ 1) :
    ∃ diff cumulative, yinDiff buffer size = .ok diff ∧
      yinCumulative diff size = .ok cumulative ∧
      (∀ j : Nat, (j : Int) < halfSize size →
        LocalArray.read cumulative j = .ok (cmnd buffer size j)) ∧
      (yinSelectTau cumulative size t1 = .ok (-1)
        ↔ ∀ j : Nat, MIN_LAG ≤ j → (j : Int) < halfSize size → 1 ≤ cmnd buffer size j) ∧
      (detect_pitch_yin buffer size t1 = .ok PitchResult.null
        ↔ ∀ j : Nat, MIN_LAG ≤ j → (j : Int) < halfSize size → 1 ≤ cmnd buffer size j) ∧
      (detect_pitch_yin buffer size t1 = .ok PitchResult.null
        ↔ detect_pitch_yin buffer size t2 = .ok PitchResult.null) ∧
      (∃ r, detect_pitch_yin buffer size t1 = .ok r) := by
  have ha := yin_null_iff buffer size t1 hlen hmax h1'
  have hb := yin_null_iff buffer size t2 hlen hmax h2'
  refine ⟨_, _, yinDiff_eq buffer size hlen, yinCumulative_eq buffer size, ?_,
    ha.1, ha.2.1, ha.2.1.trans hb.2.1.symm, ha.2.2⟩
  intro j hj
  have hjN : j < halfN size := (lt_halfSize_iff size j).1 hj
  have hN := halfN_le_max_of_halfSize size hmax
  exact cumulative_read buffer size j (by omega) hj

/-- Witness of C17: `steepWindow` with the thresholds `3/5` and `3/20`. -/
theorem threshold_independence_witness :
    (100 : Int) ≤ (steepWindow.length : Int) ∧ halfSize 100 ≤ (MAX_LAG : Int) ∧
    (0 : ℚ) < 3 / 5 ∧ (3 / 5 : ℚ) ≤ 1 ∧ (0 : ℚ) < 3 / 20 ∧ (3 / 20 : ℚ) ≤ 1 ∧
    ∃ diff cumulative, yinDiff steepWindow 100 = .ok diff ∧
      yinCumulative diff 100 = .ok cumulative ∧
      (∀ j : Nat, (j : Int) < halfSize 100 →
        LocalArray.read cumulative j = .ok (cmnd steepWindow 100 j)) ∧
      (yinSelectTau cumulative 100 (3 / 5 : ℚ) = .ok (-1)
        ↔ ∀ j : Nat, MIN_LAG ≤ j → (j : Int) < halfSize 100 → 1 ≤ cmnd steepWindow 100 j) ∧
      (detect_pitch_yin steepWindow 100 (3 / 5) = .ok PitchResult.null
        ↔ ∀ j : Nat, MIN_LAG ≤ j → (j : Int) < halfSize 100 → 1 ≤ cmnd steepWindow 100 j) ∧
      (detect_pitch_yin steepWindow 100 (3 / 5) = .ok PitchResult.null
        ↔ detect_pitch_yin steepWindow 100 (3 / 20) = .ok PitchResult.null) ∧
      (∃ r, detect_pitch_yin steepWindow 100 (3 / 5) = .ok r) :=
  ⟨by rw [steepWindow_length]; decide, by decide, by norm_num, by norm_num, by norm_num,
    by norm_num,
    threshold_independence steepWindow 100 (3 / 5) (3 / 20)
      (by rw [steepWindow_length]; decide) (by decide) (by norm_num) (by norm_num)
      (by norm_num) (by norm_num)⟩

/-- C18 as amended (an exactly periodic window is detected). For every rounding `rnd` of
the `float` operations that fixes 0 and 1, is monotone and idempotent and does not round
the difference of two distinct representable values to zero (round-to-nearest binary32
without overflow is one; the identity, exact arithmetic, is another), every window of at
least `size` samples and integer period `P` with `MIN_LAG <= P < size/2 <= MAX_LAG` such
that `x[i+P] = x[i]` for all `0 <= i < size/2` and the stored `diff[j]` is positive for
some `1 <= j < P`, and every threshold in `(0, 1]`: the stored `cumulative[P]` is `0`,
and `detect_pitch_yin` returns a result other than the null result, built from a
selected lag `tau` whose stored `cumulative[tau]` is below the threshold, with
`confidence = rnd(1 - cumulative[tau])`, which is positive and at least
`rnd(1 - threshold)`; in exact arithmetic `confidence > 1 - threshold`. -/
theorem periodic_detected (rnd : K → K) (buffer : List K) (size : Int) (threshold : K)
    (P : Nat) (hrnd : IsRounding rnd)
    (hlen : size ≤ (buffer.length : Int)) (hmax : halfSize size ≤ (MAX_LAG : Int))
    (hP1 : MIN_LAG ≤ P) (hP2 : (P : Int) < halfSize size)
    (hper : ∀ i : Nat, (i : Int) < halfSize size → sample buffer (i + P) = sample buffer i)
    (hvar : ∃ j, 1 ≤ j ∧ j < P ∧ 0 < yinDR rnd buffer size j)
    (ht0 : 0 < threshold) (ht1 : threshold ≤ 1) :
    cmndR rnd buffer size P = 0 ∧
    ∃ diff cumulative, ∃ tau : Nat, ∃ r, yinDiffR rnd buffer size = .ok diff ∧
      yinCumulativeR rnd diff size = .ok cumulative ∧
      LocalArray.read cumulative P = .ok 0 ∧
      yinSelectTau cumulative size threshold = .ok (tau : Int) ∧
      MIN_LAG ≤ tau ∧ (tau : Int) < halfSize size ∧
      LocalArray.read cumulative tau = .ok (cmndR rnd buffer size tau) ∧
      cmndR rnd buffer size tau < threshold ∧
      detect_pitch_yin_rounded rnd buffer size threshold = .ok r ∧ r ≠ PitchResult.null ∧
      r.confidence = rnd (1 - cmndR rnd buffer size tau) ∧ 0 < r.confidence ∧
      rnd (1 - threshold) ≤ r.confidence ∧
      ((∀ x, rnd x = x) → r.confidence > 1 - threshold) := by
  have hmin := min_lag_eq
  have hN := halfN_le_max_of_halfSize size hmax
  have hL := lagLimit_eq_half size hN
  have hPL : P < lagLimit size := (lt_lagLimit_iff size hmax P).2 hP2
  have hLM := lagLimit_le_max size
  have hLm : max 1 (lagLimit size) = lagLimit size := max_eq_right (by omega)
  obtain ⟨j, hj1, hj2, hj3⟩ := hvar
  have hS : 0 < yinSR rnd buffer size P :=
    lt_of_lt_of_le hj3 (yinDR_le_yinSR hrnd buffer size j hj1 P hj2.le)
  have hzero : cmndR rnd buffer size P = 0 := by
    unfold cmndR
    rw [if_neg (by omega), if_pos hS, yinDR_of_periodic hrnd buffer size P hper, zero_mul,
      hrnd.zero, zero_div, hrnd.zero]
  refine ⟨hzero, ?_⟩
  have hPlt : cmndR rnd buffer size P < threshold := by rw [hzero]; exact ht0
  rcases yinSelectTau_cases (cmndR rnd buffer size) size threshold with
    ⟨k, tau, hd, hs⟩ | ⟨k, ho, hs⟩ | ⟨tau, hg, hs⟩ | ⟨hn, hs⟩
  · obtain ⟨h1, h2, h3, h4, h5, h6, h7, h8⟩ := hd
    have hle := strictDescent_le (cmndR rnd buffer size) k tau h5 h7
    have hlt : cmndR rnd buffer size tau < threshold := lt_of_le_of_lt hle h3
    have hne1 : (1 : K) ≠ cmndR rnd buffer size tau := ne_of_gt (lt_of_lt_of_le hlt ht1)
    have hnz : rnd (1 - cmndR rnd buffer size tau) ≠ 0 :=
      hrnd.sub_ne 1 _ hrnd.one (cmndR_fixed hrnd buffer size tau) hne1
    have hge : 0 ≤ rnd (1 - cmndR rnd buffer size tau) :=
      hrnd.nonneg _ (by linarith)
    have hpos : 0 < rnd (1 - cmndR rnd buffer size tau) := lt_of_le_of_ne hge (Ne.symm hnz)
    refine ⟨_, _, tau, yinOutputR rnd buffer size tau, yinDiffR_eq rnd buffer size hlen,
      yinCumulativeR_eq rnd buffer size, ?_, hs, le_trans h1 h5,
      (lt_lagLimit_iff size hmax tau).1 h6, ?_, hlt, ?_, ?_, rfl, hpos, ?_, ?_⟩
    · rw [← hzero, hLm]
      exact prefixArray_read _ _ P hPL (by omega)
    · rw [hLm]
      exact prefixArray_read _ _ tau h6 (by omega)
    · rw [detect_pitch_yin_rounded_eq rnd buffer size threshold hlen, hs, bind_ok_eq,
        if_neg (selected_guard size tau (by omega) h6)]
      exact yinResultR_eq hrnd buffer size tau hlen (by omega) h6 (fun h => (h8 h).1)
    · intro heq
      have h0 : (yinOutputR rnd buffer size tau).confidence
          = (PitchResult.null : PitchResult K).confidence := by rw [heq]
      exact hnz h0
    · exact hrnd.mono _ _ (by linarith)
    · intro hid
      show rnd (1 - cmndR rnd buffer size tau) > 1 - threshold
      rw [hid]
      linarith
  · exact absurd ho.2.2.2.2.1 (by omega)
  · exact absurd hPlt (hg.1 P hP1 hPL)
  · exact absurd hPlt (hn.1 P hP1 hPL)

/-- C18 fails on the code in binary32 arithmetic, in two ways.  (1) Underflow: the
window `faintWindow` (120 samples `±2^-80`) is exactly periodic with `P = 49`,
`MIN_LAG <= 49 < size/2 = 60 <= MAX_LAG`, and its exact difference function is positive
at lag 48; yet every squared sample difference rounds to `0.0f`, every stored
`diff[tau]` and `running_sum` is `0`, every stored `cumulative[tau]` is `1`, no lag is
selected and `detect_pitch_yin` returns the null result for the threshold `1/8`.
(2) Rounding of the confidence: the window `tieWindow` (110 samples, ones at 36, 40,
88, 92) is exactly periodic with `P = 52 < size/2 = 55`, its stored `diff[48] = 2` is
positive, the threshold `518883/2^20` is a binary32 value in `(0, 1]`, the search
selects `tau = 48` with stored `cumulative[48] = 16604255/2^25` below the threshold by
one unit in the last place, and `1.0f - cumulative[48]` rounds (a tie, to even) to
`529693/2^20`, which is `1 - threshold` exactly: `confidence > 1 - threshold` fails. -/
theorem periodic_rounding_counterexample :
    ((120 : Int) ≤ (faintWindow.length : Int) ∧
    (∀ i, round32 (sample faintWindow i) = sample faintWindow i) ∧
    MIN_LAG ≤ 49 ∧ ((49 : Nat) : Int) < halfSize 120 ∧ halfSize 120 ≤ (MAX_LAG : Int) ∧
    (∀ i : Nat, (i : Int) < halfSize 120 →
      sample faintWindow (i + 49) = sample faintWindow i) ∧
    (∃ j, 1 ≤ j ∧ j < 49 ∧ 0 < yinD faintWindow 120 j) ∧
    (0 : ℚ) < 1 / 8 ∧ (1 / 8 : ℚ) ≤ 1 ∧ round32 (1 / 8) = 1 / 8 ∧
    (∀ tau, tau < 60 → yinDR round32 faintWindow 120 tau = 0) ∧
    ∃ diff cumulative, yinDiffR round32 faintWindow 120 = .ok diff ∧
      yinCumulativeR round32 diff 120 = .ok cumulative ∧
      LocalArray.read cumulative 49 = .ok 1 ∧
      yinSelectTau cumulative 120 (1 / 8 : ℚ) = .ok (-1) ∧
      detect_pitch_yin_rounded round32 faintWindow 120 (1 / 8) = .ok PitchResult.null) ∧
    ((110 : Int) ≤ (tieWindow.length : Int) ∧
    (∀ i, round32 (sample tieWindow i) = sample tieWindow i) ∧
    MIN_LAG ≤ 52 ∧ ((52 : Nat) : Int) < halfSize 110 ∧ halfSize 110 ≤ (MAX_LAG : Int) ∧
    (∀ i : Nat, (i : Int) < halfSize 110 →
      sample tieWindow (i + 52) = sample tieWindow i) ∧
    (∃ j, 1 ≤ j ∧ j < 52 ∧ 0 < yinD tieWindow 110 j ∧ 0 < yinDR round32 tieWindow 110 j) ∧
    (0 : ℚ) < 518883 / 1048576 ∧ (518883 / 1048576 : ℚ) ≤ 1 ∧
    round32 (518883 / 1048576) = 518883 / 1048576 ∧
    ∃ diff cumulative r, yinDiffR round32 tieWindow 110 = .ok diff ∧
      yinCumulativeR round32 diff 110 = .ok cumulative ∧
      yinSelectTau cumulative 110 (518883 / 1048576 : ℚ) = .ok ((48 : Nat) : Int) ∧
      LocalArray.read cumulative 48 = .ok (16604255 / 33554432) ∧
      (16604255 / 33554432 : ℚ) < 518883 / 1048576 ∧
      detect_pitch_yin_rounded round32 tieWindow 110 (518883 / 1048576) = .ok r ∧
      r ≠ PitchResult.null ∧
      r.confidence = 1 - 518883 / 1048576 ∧ ¬ r.confidence > 1 - 518883 / 1048576) := by
  have hlen : (120 : Int) ≤ (faintWindow.length : Int) := by rw [faintWindow_length]; decide
  have hL : lagLimit 120 = 60 := by decide
  have hLm : max 1 (lagLimit 120) = 60 := by rw [hL]; decide
  have hsel : yinSelectTau (prefixArray (max 1 (lagLimit 120)) (cmndR round32 faintWindow 120))
      120 (1 / 8 : ℚ) = .ok (-1) := by
    apply yinSelectTau_none
    · intro j _ hj
      rw [hL] at hj
      rw [faintWindow_cmndR j hj]
    · intro j _ hj
      rw [hL] at hj
      rw [faintWindow_cmndR j hj]
      norm_num
  have hpos : 0 < yinD faintWindow 120 48 := by
    apply yinD_pos_of_term faintWindow 120 48 0 (by decide)
    rw [faintWindow_sample 0 (by decide), faintWindow_sample (0 + 48) (by decide)]
    norm_num
  have hlen2 : (110 : Int) ≤ (tieWindow.length : Int) := by rw [tieWindow_length]; decide
  have hM : max 1 (lagLimit 110) = 55 := by decide
  obtain ⟨tsel, trun, tconf⟩ := tieWindow_run
  have hd48 : yinD tieWindow 110 48 = 2 := tieWindow_yin.2.1
  have hconf : (yinOutputR round32 tieWindow 110 48).confidence = 1 - 518883 / 1048576 := by
    rw [tconf]; norm_num
  refine ⟨⟨hlen, faintWindow_float, by decide, by decide, by decide, faintWindow_periodic,
    ⟨48, by decide, by decide, hpos⟩, by norm_num, by norm_num, round32_eighth,
    faintWindow_yinDR,
    _, _, yinDiffR_eq round32 faintWindow 120 hlen, yinCumulativeR_eq round32 faintWindow 120,
    ?_, hsel, ?_⟩,
    ⟨hlen2, tieWindow_float, by decide, by decide, by decide, tieWindow_periodic,
    ⟨48, by decide, by decide, by rw [hd48]; norm_num, by
      rw [yinDR_round32_eq tieWindow 110 48 tieWindow_unit (by decide), hd48]; norm_num⟩,
    by norm_num, by norm_num, round32_tie.2.2.2.2.2.2.1,
    _, _, _, yinDiffR_eq round32 tieWindow 110 hlen2, yinCumulativeR_eq round32 tieWindow 110,
    tsel, ?_, by norm_num, trun, ?_, hconf, ?_⟩⟩
  · rw [hLm, prefixArray_read _ _ 49 (by decide) (by decide), faintWindow_cmndR 49 (by decide)]
  · rw [detect_pitch_yin_rounded_eq round32 faintWindow 120 (1 / 8) hlen, hsel, bind_ok_eq,
      if_pos (Or.inl (by decide))]
  · rw [hM, prefixArray_read _ _ 48 (by decide) (by decide), tieWindow_cmndR.1]
  · intro heq
    have h0 : (yinOutputR round32 tieWindow 110 48).confidence
        = (PitchResult.null : PitchResult ℚ).confidence := by rw [heq]
    rw [tconf] at h0
    have h1 : (PitchResult.null : PitchResult ℚ).confidence = 0 := rfl
    rw [h1] at h0
    norm_num at h0
  · rw [hconf]; exact lt_irrefl _

/-- Witness of the amended C18: binary32 arithmetic (`round32`) on `squareWindow`
(120 samples `±1`) with period `P = 49` and the threshold `1/8`. -/
theorem periodic_detected_witness :
    IsRounding round32 ∧
    (∀ i, round32 (sample squareWindow i) = sample squareWindow i) ∧
    (120 : Int) ≤ (squareWindow.length : Int) ∧ halfSize 120 ≤ (MAX_LAG : Int) ∧
    MIN_LAG ≤ 49 ∧ ((49 : Nat) : Int) < halfSize 120 ∧
    (∀ i : Nat, (i : Int) < halfSize 120 →
      sample squareWindow (i + 49) = sample squareWindow i) ∧
    (∃ j, 1 ≤ j ∧ j < 49 ∧ 0 < yinDR round32 squareWindow 120 j) ∧
    (0 : ℚ) < 1 / 8 ∧ (1 / 8 : ℚ) ≤ 1 ∧
    (cmndR round32 squareWindow 120 49 = 0 ∧
    ∃ diff cumulative, ∃ tau : Nat, ∃ r,
      yinDiffR round32 squareWindow 120 = .ok diff ∧
      yinCumulativeR round32 diff 120 = .ok cumulative ∧
      LocalArray.read cumulative 49 = .ok 0 ∧
      yinSelectTau cumulative 120 (1 / 8 : ℚ) = .ok (tau : Int) ∧
      MIN_LAG ≤ tau ∧ (tau : Int) < halfSize 120 ∧
      LocalArray.read cumulative tau = .ok (cmndR round32 squareWindow 120 tau) ∧
      cmndR round32 squareWindow 120 tau < 1 / 8 ∧
      detect_pitch_yin_rounded round32 squareWindow 120 (1 / 8) = .ok r ∧
      r ≠ PitchResult.null ∧
      r.confidence = round32 (1 - cmndR round32 squareWindow 120 tau) ∧
      0 < r.confidence ∧
      round32 (1 - 1 / 8) ≤ r.confidence ∧
      ((∀ x, round32 x = x) → r.confidence > 1 - 1 / 8)) :=
  have hvar : ∃ j, 1 ≤ j ∧ j < 49 ∧ 0 < yinDR round32 squareWindow 120 j :=
    ⟨48, by decide, by decide, by
      rw [yinDR_round32_eq squareWindow 120 48 squareWindow_unit (by decide)]
      exact squareWindow_yinD_floor 120 (by decide)⟩
  ⟨isRounding_round32, squareWindow_float, by rw [squareWindow_length]; decide, by decide,
    by decide, by decide,
    squareWindow_periodic_half, hvar, by norm_num, by norm_num,
    periodic_detected round32 squareWindow 120 (1 / 8) 49 isRounding_round32
      (by rw [squareWindow_length]; decide) (by decide) (by decide) (by decide)
      squareWindow_periodic_half hvar (by norm_num) (by norm_num)⟩

/-- C19 (index safety). For every window of exactly `size` samples with
`0 <= size <= 2 * MAX_LAG` and every threshold, every stage of `detect_pitch_yin` and of
`detect_pitch_autocorr` ends without a fault: every sample read `buffer[i]`,
`buffer[i + tau]`, `buffer[i + lag]` has its index below `size`, and every index into
`diff`, `cumulative` and `correlations` is below `MAX_LAG` and names a cell written
earlier in the same call (a read or write that misses either is a `Fault`).  The
written cells are the cells `0 .. max(1, size/2) - 1`, all below `MAX_LAG`. -/
theorem index_safety (buffer : List K) (size : Int) (threshold : K)
    (hlen : (buffer.length : Int) = size) (h0 : 0 ≤ size)
    (hmax : size ≤ 2 * (MAX_LAG : Int)) :
    (∃ diff cumulative tau r, yinDiff buffer size = .ok diff ∧
      yinCumulative diff size = .ok cumulative ∧
      yinSelectTau cumulative size threshold = .ok tau ∧
      detect_pitch_yin buffer size threshold = .ok r ∧
      (∀ j, diff j ≠ none → j < MAX_LAG) ∧ (∀ j, cumulative j ≠ none → j < MAX_LAG))
    ∧ (∃ correlations st r, autocorrFill buffer size = .ok correlations ∧
      autocorrPeak correlations size = .ok st ∧
      detect_pitch_autocorr buffer size = .ok r ∧
      (∀ j, correlations j ≠ none → j < MAX_LAG)) := by
  have hmx := max_lag_eq
  have hle : size ≤ (buffer.length : Int) := le_of_eq hlen.symm
  have hhalf := halfSize_le_of_size_le size hmax
  have hN := halfN_le_max_of_halfSize size hhalf
  have hLM := lagLimit_le_max size
  have hcell : ∀ (f : Nat → K) (n : Nat), n ≤ MAX_LAG →
      ∀ j, prefixArray n f j ≠ none → j < MAX_LAG := by
    intro f n hn j hj
    unfold prefixArray at hj
    by_cases h : j < n
    · omega
    · rw [if_neg h] at hj; exact absurd rfl hj
  constructor
  · have hsel : ∃ tau, yinSelectTau (prefixArray (max 1 (lagLimit size)) (cmnd buffer size))
        size threshold = .ok tau := by
      rcases yinSelectTau_cases (cmnd buffer size) size threshold with
        ⟨k, tau, hd, hs⟩ | ⟨k, ho, hs⟩ | ⟨tau, hg, hs⟩ | ⟨hn, hs⟩
      · exact ⟨_, hs⟩
      · exact absurd ho.2.2.2.2.1 (by omega)
      · exact ⟨_, hs⟩
      · exact ⟨_, hs⟩
    obtain ⟨tau, hs⟩ := hsel
    have hrun : ∃ r, detect_pitch_yin buffer size threshold = .ok r := by
      rcases detect_pitch_yin_cases buffer size threshold hle with
        ⟨k, t, hd, hr⟩ | ⟨k, ho, hr⟩ | ⟨t, hg, _, hr⟩ | ⟨t, hg, _, hbig, hr⟩ | ⟨hn, hr⟩
      · exact ⟨_, hr⟩
      · exact absurd ho.2.2.2.2.1 (by omega)
      · exact ⟨_, hr⟩
      · omega
      · exact ⟨_, hr⟩
    obtain ⟨r, hr⟩ := hrun
    exact ⟨_, _, tau, r, yinDiff_eq buffer size hle, yinCumulative_eq buffer size, hs, hr,
      hcell _ _ (by omega), hcell _ _ (by omega)⟩
  · have hpeak : ∃ st, autocorrPeak (prefixArray (lagLimit size) (corr buffer size)) size
        = .ok st := by
      rcases autocorrPeak_cases (corr buffer size) size with ⟨_, hp⟩ | ⟨t, _, hp⟩ | ⟨ho, _⟩
      · exact ⟨_, hp⟩
      · exact ⟨_, hp⟩
      · exact absurd ho.1 (by omega)
    obtain ⟨st, hp⟩ := hpeak
    have hrun : ∃ r, detect_pitch_autocorr buffer size = .ok r := by
      rcases detect_pitch_autocorr_cases buffer size hle with ⟨_, hr⟩ | ⟨t, _, hr⟩ | ⟨ho, _⟩
      · exact ⟨_, hr⟩
      · exact ⟨_, hr⟩
      · exact absurd ho.1 (by omega)
    obtain ⟨r, hr⟩ := hrun
    exact ⟨_, st, r, autocorrFill_eq buffer size hle, hp, hr, hcell _ _ hLM⟩

/-- Witness of C19: the window `steepWindow` of exactly 100 samples. -/
theorem index_safety_witness :
    ((steepWindow.length : Int) = 100) ∧ (0 : Int) ≤ 100 ∧ (100 : Int) ≤ 2 * (MAX_LAG : Int) ∧
    ((∃ diff cumulative tau r, yinDiff steepWindow 100 = .ok diff ∧
      yinCumulative diff 100 = .ok cumulative ∧
      yinSelectTau cumulative 100 (3 / 20 : ℚ) = .ok tau ∧
      detect_pitch_yin steepWindow 100 (3 / 20) = .ok r ∧
      (∀ j, diff j ≠ none → j < MAX_LAG) ∧ (∀ j, cumulative j ≠ none → j < MAX_LAG))
    ∧ (∃ correlations st r, autocorrFill steepWindow 100 = .ok correlations ∧
      autocorrPeak correlations 100 = .ok st ∧
      detect_pitch_autocorr steepWindow 100 = .ok r ∧
      (∀ j, correlations j ≠ none → j < MAX_LAG))) :=
  ⟨by rw [steepWindow_length]; decide, by decide, by decide,
    index_safety steepWindow 100 (3 / 20) (by rw [steepWindow_length]; decide) (by decide)
      (by decide)⟩

end Claims

end PitchDetector
